import Mathlib

/-!
Shallow embedding of the alphabeth MCTS engine (package `mcts`, plus the
`agogo` engine constructor), translated from the Go sources.  Machine
`float32` arithmetic is modelled by exact rationals; the two external
math routines `math32.Sqrt` and `math32.Pow` are abstracted as function
parameters (`sqrtFn`, `powFn`) because their values are irrational in
general, and every theorem below either holds for all instantiations or
is evaluated at arguments where the float routine is exact.
Go `int`/`int32` are modelled by `Int`; node handles (`Naughty`) are `Int`
with `nilNode = -1`; a Go `error` return or `panic` is modelled by
`Option` (`none` = failure).  Concurrency: the fixed-simulation driver
launches `NumSimulation` goroutines; the model executes them
sequentially (one completed simulation after another), which is one of
the admissible interleavings.
-/

namespace Alphabeth

/-- Status of a node (`mcts.Status`): `Invalid`, `Active`, `Pruned`. -/
inductive NStatus where
  | invalid
  | active
  | pruned
deriving DecidableEq, Repr

/-- Node record, from `Node` in the fixed-simulation lineage
(`part_000`): move index, visit count, Q(s,a), has-children flag,
prior P(s,a) and improved policy `pi`.  Field defaults are the Go
zero value of the struct (what a freshly allocated arena slot holds). -/
structure Node where
  move : Int := 0
  visits : Nat := 0
  status : NStatus := .invalid
  qsa : ℚ := 0
  hasChildren : Bool := false
  psa : ℚ := 0
  pi : ℚ := 0
deriving DecidableEq, Repr

/-- Sentinel handle (`nilNode Naughty = -1`). -/
def nilNode : Int := -1

/-- Engine configuration (`mcts.Config`, fixed-simulation lineage
`tree.go`). -/
structure Config where
  puct : ℚ := 1
  randomCount : Int := 0
  randomTemperature : ℚ := 0
  maxDepth : Int := 0
  numSimulation : Int := 0
deriving DecidableEq, Repr

/-- Validation of a configuration, `Config.IsValid` from `tree.go`:
`RandomTemperature > 0 && NumSimulation > 0`. -/
def Config.isValidM (c : Config) : Bool :=
  c.randomTemperature > 0 && c.numSimulation > 0

/-- Validation of a configuration in the budget lineage,
`Config.IsValid` from `part_002`: `PUCT > 0 && PUCT <= 1`. -/
def Config.isValidBudget (c : Config) : Bool :=
  c.puct > 0 && c.puct ≤ 1

/-- Winner colour (`chess.Color`); `noColor` is `chess.NoColor` (draw). -/
inductive Color where
  | white
  | black
  | noColor
deriving DecidableEq, Repr

/-- Game interface (`game.State`), over an abstract state type `σ` and
move type `μ`.  `nnToMove` may fail (the lineage under verification
returns `(Move, error)`). -/
structure GameRules (σ : Type) (μ : Type) where
  actionSpace : Nat
  turn : σ → Color
  moveNumber : σ → Int
  ended : σ → Bool × Color
  nnToMove : σ → Int → Option μ
  check : σ → μ → Bool
  apply : σ → μ → σ
  possibleMoves : σ → List Int
  undoLastMove : σ → σ
  fwd : σ → σ
  lastMove : σ → Int
  stateEq : σ → σ → Bool

/-- Neural-network evaluator (`mcts.Inferencer`): policy vector and a
value; the value is `none` when the network reports NaN. -/
def Evaluator (σ : Type) : Type := σ → List ℚ × Option ℚ

/-- The tree / engine state (`mcts.MCTS` of the fixed-simulation
lineage together with its embedded `searchState`). -/
structure MCTS (σ : Type) where
  conf : Config
  nodes : List Node := []
  children : List (List Int) := []
  freelist : List Int := []
  freeables : List Int := []
  root : Int := nilNode
  nc : Int := 0
  current : σ
  prev : Option σ := none
  dirichletSample : List ℚ := []
  policies : Option (List ℚ) := none

/-- Hard cap on tree size (`MAXTREESIZE`). -/
def MAXTREESIZE : Int := 25000000

/-- Dirichlet mixing weight (`epsilon = 0.25`). -/
def mctsEpsilon : ℚ := 1/4

/-- Dirichlet concentration parameter (`dirichletParam = 0.3`). -/
def dirichletParam : ℚ := 3/10

/-- Smallest positive `float32` (`math32.SmallestNonzeroFloat32`),
which is `2^-149`. -/
def smallestNonzeroFloat32 : ℚ := 1 / 2 ^ (149 : ℕ)

/-- Sentinel move `game.Begin = -3`. -/
def beginMove : Int := -3

/-- Sentinel move `game.Resign = -2`. -/
def resignMove : Int := -2

variable {σ : Type} {μ : Type}

/-- Handle dereference (`MCTS.nodeFromNaughty`); indexing past the
arena yields the zero record (the Go code would panic there, and no
reachable call does so). -/
def nodeFromNaughty (t : MCTS σ) (h : Int) : Node :=
  t.nodes.getD h.toNat {}

/-- Adjacency lookup (`MCTS.Children`). -/
def childrenOf (t : MCTS σ) (h : Int) : List Int :=
  t.children.getD h.toNat []

/-- Replace a node record in the arena. -/
def setNode (t : MCTS σ) (h : Int) (n : Node) : MCTS σ :=
  { t with nodes := t.nodes.set h.toNat n }

/-- Mutate a node record in place. -/
def modifyNode (t : MCTS σ) (h : Int) (f : Node → Node) : MCTS σ :=
  setNode t h (f (nodeFromNaughty t h))

/-- Replace a children list. -/
def setChildren (t : MCTS σ) (h : Int) (l : List Int) : MCTS σ :=
  { t with children := t.children.set h.toNat l }

/-- Per-node backpropagation, `Node.Update` / `Node.accumulate`
(`part_000`): recompute the running mean and increment the visit
count. -/
def Node.updateScore (n : Node) (v : ℚ) : Node :=
  { n with qsa := ((n.visits : ℚ) * n.qsa + v) / ((n.visits : ℚ) + 1),
           visits := n.visits + 1 }

/-- Arena allocation (`MCTS.alloc`): pop the last free-list entry, or
append a fresh zero slot with an empty adjacency list. -/
def alloc (t : MCTS σ) : MCTS σ × Int :=
  match t.freelist.getLast? with
  | none =>
      ({ t with nodes := t.nodes ++ [{}],
                children := t.children ++ [[]] },
       (t.nodes.length : Int))
  | some i =>
      ({ t with freelist := t.freelist.dropLast }, i)

/-- Node constructor `MCTS.New` (`tree.go`): allocate and fill in
`move`, `visits = 1`, `status = Active`, `qsa = 0`, `psa = score`. -/
def newNode (t : MCTS σ) (move : Int) (score : ℚ) : MCTS σ × Int :=
  let (t1, n) := alloc t
  (modifyNode t1 n (fun N =>
    { N with move := move, visits := 1, status := .active,
             qsa := 0, psa := score }), n)

/-- Field reset of a reclaimed node (`Node.reset`, `part_000`); the
`pi` field is not reset by the source. -/
def Node.resetFields (n : Node) : Node :=
  { n with move := -1, visits := 0, status := .invalid,
           qsa := 0, hasChildren := false, psa := 0 }

/-- Reclamation (`MCTS.free`): clear the adjacency list, push the
handle on the free list and reset the record. -/
def free (t : MCTS σ) (n : Int) : MCTS σ :=
  let t1 := setChildren t n []
  let t2 := { t1 with freelist := t1.freelist ++ [n] }
  modifyNode t2 n Node.resetFields

/-- Append a child handle (`Node.AddChild`). -/
def addChild (t : MCTS σ) (parent child : Int) : MCTS σ :=
  setChildren t parent (childrenOf t parent ++ [child])

/-- Set the has-children flag (`Node.SetHasChild`). -/
def setHasChild (t : MCTS σ) (h : Int) (f : Bool) : MCTS σ :=
  modifyNode t h (fun n => { n with hasChildren := f })

/-- First child carrying a wanted move (`Node.findChild`), `nilNode`
when absent. -/
def findChild (t : MCTS σ) (h : Int) (move : Int) : Int :=
  ((childrenOf t h).find? (fun kid => (nodeFromNaughty t kid).move = move)).getD nilNode

/-! ## Selection (`Node.Select`, `part_000` lines 189-233 and
`node.go` lines 147-207)

The two lineages differ only in the first-play urgency: the
budget lineage uses the parent's network value prediction
(`fpu := n.NNEvaluate()`), the fixed-simulation lineage uses `0`;
selection below takes `fpu` as an argument.  `math32.Sqrt` is
abstracted by `sqrtFn`. -/

/-- Parent-visit total: sum of visits over children whose status is
not `Invalid` (the `child.IsValid()` loop). -/
def selParentVisits (t : MCTS σ) (h : Int) : Nat :=
  ((childrenOf t h).map (fun kid =>
    let child := nodeFromNaughty t kid
    if child.status ≠ .invalid then child.visits else 0)).sum

/-- PUCT upper-confidence value of one child,
`U(s,a) = Q + PUCT * P(s,a) * sqrt(parentVisits) / (1 + visits)`,
with `Q = qsa` when visited and `fpu` otherwise, and `num` standing
for `sqrt(parentVisits)`. -/
def usaScore (puct fpu num : ℚ) (child : Node) : ℚ :=
  let qsa := if child.visits > 0 then child.qsa else fpu
  qsa + puct * child.psa * (num / (1 + (child.visits : ℚ)))

/-- Selection loop over the children list: keep the strictly best
`usa` seen so far (`none` plays the role of `-Inf`), skipping children
that are not `Active`. -/
def selLoop (t : MCTS σ) (puct fpu num : ℚ) :
    List Int → Int × Option ℚ → Int × Option ℚ
  | [], acc => acc
  | kid :: rest, (best, bv) =>
      let child := nodeFromNaughty t kid
      if child.status = .active then
        let usa := usaScore puct fpu num child
        if (match bv with
            | none => true
            | some b => decide (usa > b)) = true then
          selLoop t puct fpu num rest (kid, some usa)
        else
          selLoop t puct fpu num rest (best, bv)
      else
        selLoop t puct fpu num rest (best, bv)

/-- Child selection (`Node.Select`): returns `nilNode` exactly where
the Go code panics ("Cannot return nil"). -/
def selectChild (sqrtFn : ℕ → ℚ) (fpu : ℚ) (t : MCTS σ) (h : Int) : Int :=
  let num := sqrtFn (selParentVisits t h)
  (selLoop t t.conf.puct fpu num (childrenOf t h) (nilNode, none)).1

/-! ## Expansion (`searchState.expandAndSimulate`, fixed-simulation
lineage, `search.go` lines 579-631) -/

/-- Score/move pair (`pair` in the source). -/
structure MPair where
  move : Int
  score : ℚ
deriving DecidableEq, Repr

/-- Dirichlet perturbation (`MCTS.dirichletNoise`):
`(1-epsilon)*p + epsilon*dirichletSample[index]`. -/
def dirichletNoise (t : MCTS σ) (index : Int) (p : ℚ) : ℚ :=
  (1 - mctsEpsilon) * p + mctsEpsilon * t.dirichletSample.getD index.toNat 0

/-- Legal-move scan of the expansion: for every action index below the
action space, decode it (`NNToMove`, which can fail) and keep
`(policy[i], i)` when the move checks as legal.  Returns the node list
together with `legalSum`. -/
def buildNodelist (G : GameRules σ μ) (state : σ) (policy : List ℚ) :
    List Nat → Option (List MPair × ℚ)
  | [] => some ([], 0)
  | i :: rest =>
      match G.nnToMove state (i : Int) with
      | none => none
      | some m =>
          match buildNodelist G state policy rest with
          | none => none
          | some (l, s) =>
              if G.check state m then
                some ({ move := (i : Int), score := policy.getD i 0 } :: l,
                      policy.getD i 0 + s)
              else
                some (l, s)

/-- Renormalization-plus-noise stage of the expansion (`search.go`
lines 604-615): when `legalSum` exceeds the smallest positive float32
every score is divided by `legalSum`, otherwise every score becomes
the uniform `1/len`; in both branches the Dirichlet perturbation is
then applied to the stored score. -/
def normalizeScores (t : MCTS σ) (nodelist : List MPair) (legalSum : ℚ) :
    List MPair :=
  if legalSum > smallestNonzeroFloat32 then
    nodelist.map (fun p => { p with score := dirichletNoise t p.move (p.score / legalSum) })
  else
    nodelist.map (fun p =>
      { p with score := dirichletNoise t p.move (1 / (nodelist.length : ℚ)) })

/-- Normalization without the Dirichlet perturbation: the values the
priors take just before the noise is mixed in (the spec's
"before Dirichlet perturbation" reading of the same two branches). -/
def normalizeScoresPreNoise (nodelist : List MPair) (legalSum : ℚ) :
    List MPair :=
  if legalSum > smallestNonzeroFloat32 then
    nodelist.map (fun p => { p with score := p.score / legalSum })
  else
    nodelist.map (fun p => { p with score := 1 / (nodelist.length : ℚ) })

/-- Child-creation loop of the expansion: allocate a node for every
pair whose move is not yet a child, append it and raise the
has-children flag. -/
def expandLoop (parent : Int) : List MPair → MCTS σ → MCTS σ
  | [], t => t
  | p :: rest, t =>
      if findChild t parent p.move = nilNode then
        let (t1, nn) := newNode t p.move p.score
        let t2 := addChild t1 parent nn
        let t3 := setHasChild t2 parent true
        expandLoop parent rest t3
      else
        expandLoop parent rest t

/-- Expansion and simulation (`searchState.expandAndSimulate`,
fixed-simulation lineage): query the evaluator, return `(0, unchanged)`
on a NaN value, build the legal node list, renormalize (with noise),
sort by score descending and create the children.  `none` models a
returned `error`. -/
def expandAndSimulate (G : GameRules σ μ) (nn : Evaluator σ)
    (t : MCTS σ) (state : σ) (parent : Int) : Option (ℚ × MCTS σ) :=
  let (policy, value?) := nn state
  match value? with
  | none => some (0, t)
  | some value =>
      match buildNodelist G state policy (List.range G.actionSpace) with
      | none => none
      | some (nodelist, legalSum) =>
          let scored := normalizeScores t nodelist legalSum
          if scored.length = 0 then
            some (value, t)
          else
            let sorted := List.insertionSort (fun a b : MPair => a.score ≥ b.score) scored
            some (value, expandLoop parent sorted t)

/-! ## Simulation pipeline (`searchState.pipeline`, fixed-simulation
lineage, `search.go` lines 518-571) -/

/-- One recursive simulation.  The depth counter is incremented on
entry and the call gives up (returning 0) once it exceeds `MaxDepth`;
then the terminal check, the tree-size check, the
expand-and-simulate leg and the select-and-recurse leg follow the
source order.  `none` models an `error` return or a panic inside
`Select`. -/
def pipeline (G : GameRules σ μ) (nn : Evaluator σ) (sqrtFn : ℕ → ℚ)
    (t : MCTS σ) (current : σ) (start : Int) (depth : Int) :
    Option (ℚ × MCTS σ) :=
  let depth1 := depth + 1
  if h : depth1 > t.conf.maxDepth then
    some (0, t)
  else
    let player := G.turn current
    let (isEnded, winner) := G.ended current
    if isEnded then
      if winner = .noColor then some (0, t)
      else if player = winner then some (-1, t)
      else some (1, t)
    else if t.nc ≥ MAXTREESIZE then
      some (0, t)
    else
      let n := nodeFromNaughty t start
      if ¬ n.hasChildren then
        match expandAndSimulate G nn t current start with
        | none => none
        | some (value, t1) => some (-value, t1)
      else
        let next := selectChild sqrtFn 0 t start
        if next = nilNode then
          none
        else
          let nd := nodeFromNaughty t next
          match G.nnToMove current nd.move with
          | none => none
          | some move =>
              let current1 := G.apply current move
              match pipeline G nn sqrtFn t current1 next depth1 with
              | none => none
              | some (v, t1) =>
                  some (-v, modifyNode t1 next (fun N => N.updateScore v))
  termination_by (t.conf.maxDepth + 1 - depth).toNat
  decreasing_by
    simp only [not_lt] at h
    omega

/-! ## Policy extraction (`MCTS.updatePolicies`, `search.go` lines
728-755) and move choice (`MCTS.bestMove`, `MCTS.sampleChild`).
`math32.Pow` is abstracted by `powFn`. -/

/-- Improved-policy extraction: the denominator sums
`pow(visits, 1/RandomTemperature)` over valid root children, the
numerator uses `pow(visits, 1/temp)` with `temp = RandomTemperature`
when the move number is below `RandomCount` and `1` otherwise; each
valid child writes its ratio into the dense policy vector (indexed by
its move) and into its own `pi` field. -/
def updatePolicies (G : GameRules σ μ) (powFn : ℚ → ℚ → ℚ) (t : MCTS σ) :
    MCTS σ :=
  let temp : ℚ :=
    if G.moveNumber t.current < t.conf.randomCount then
      t.conf.randomTemperature
    else 1
  let kids := childrenOf t t.root
  let denominator : ℚ :=
    (kids.map (fun kid =>
      let child := nodeFromNaughty t kid
      if child.status ≠ .invalid then
        powFn (child.visits : ℚ) (1 / t.conf.randomTemperature)
      else 0)).sum
  let step := fun (acc : List ℚ × MCTS σ) (kid : Int) =>
    let (pol, tt) := acc
    let child := nodeFromNaughty tt kid
    if child.status ≠ .invalid then
      let numerator := powFn (child.visits : ℚ) (1 / temp)
      let p := numerator / denominator
      (pol.set child.move.toNat p,
       modifyNode tt kid (fun N => { N with pi := p }))
    else
      (pol, tt)
  let (pol, t1) := kids.foldl step (List.replicate G.actionSpace 0, t)
  { t1 with policies := some pol }

/-- Visit-proportional sampling of a root-child index
(`MCTS.sampleChild`, `tree.go` lines 185-214), with the uniform draw
`rnd` passed in for `t.rand.Float32()`. -/
def sampleChild (powFn : ℚ → ℚ → ℚ) (t : MCTS σ) (rnd : ℚ) : Nat :=
  let kids := childrenOf t t.root
  let denominator : ℚ :=
    (kids.map (fun kid =>
      let child := nodeFromNaughty t kid
      if child.status ≠ .invalid then
        powFn (child.visits : ℚ) (1 / t.conf.randomTemperature)
      else 0)).sum
  let accumVector : List ℚ :=
    (kids.foldl (fun (acc : ℚ × List ℚ) kid =>
      let child := nodeFromNaughty t kid
      let numerator := powFn (child.visits : ℚ) (1 / t.conf.randomTemperature)
      (acc.1 + numerator / denominator,
       acc.2 ++ [acc.1 + numerator / denominator])) (0, [])).2
  ((accumVector.findIdx? (fun a => rnd < a)).getD 0)

/-- Move choice (`MCTS.bestMove`, fixed-simulation lineage,
`search.go` lines 633-653): sort the root children by `pi`
descending in place, sample an index when the move number is below
`RandomCount`, and return the chosen child's move (`game.Resign` when
the root has no children; the accompanying `Resign` game-state side
effect is outside the tree model).  The in-place unstable `sort.Sort`
is modelled by a stable insertion sort. -/
def bestMove (powFn : ℚ → ℚ → ℚ) (t : MCTS σ) (moveNum : Int) (rnd : ℚ) :
    Int × MCTS σ :=
  let kids := childrenOf t t.root
  let sorted := List.insertionSort
    (fun a b : Int => (nodeFromNaughty t a).pi ≥ (nodeFromNaughty t b).pi) kids
  let t1 := setChildren t t.root sorted
  let idx := if moveNum < t.conf.randomCount then sampleChild powFn t1 rnd else 0
  if sorted.length = 0 then
    (resignMove, t1)
  else
    ((nodeFromNaughty t1 (sorted.getD idx 0)).move, t1)

/-! ## Root management (`MCTS.newRootState`, `MCTS.updateRoot`,
`MCTS.cleanup`, `MCTS.cleanChildren`).  The Go `cleanChildren` and
`countChildren` recurse over the children graph without a bound; the
model adds a fuel argument, with enough fuel supplied for every
acyclic tree. -/

/-- Recursive child count (`Node.countChildren`): each child counts
itself, active children add their own recursive count. -/
def countChildrenF (t : MCTS σ) : Nat → Int → Nat
  | 0, _ => 0
  | fuel + 1, h =>
      (childrenOf t h).foldl (fun acc kid =>
        let child := nodeFromNaughty t kid
        (if child.status = .active then acc + countChildrenF t fuel kid
         else acc) + 1) 0

/-- Mark a node `Invalid` and enqueue it on `freeables` (the
`Invalidate` + `append` step shared by `cleanup` and
`cleanChildren`). -/
def invalidateEnqueue (t : MCTS σ) (kid : Int) : MCTS σ :=
  let t1 := modifyNode t kid (fun n => { n with status := .invalid })
  { t1 with freeables := t1.freeables ++ [kid] }

/-- Recursive subtree invalidation (`MCTS.cleanChildren`,
`tree.go` lines 172-182): invalidate and enqueue every child,
recurse, then empty the children list. -/
def cleanChildren (t : MCTS σ) : Nat → Int → MCTS σ
  | 0, _ => t
  | fuel + 1, root =>
      let kids := childrenOf t root
      let t1 := kids.foldl (fun tt kid =>
        cleanChildren (invalidateEnqueue tt kid) fuel kid) t
      setChildren t1 root []

/-- Root-advance cleanup (`MCTS.cleanup`, `tree.go` lines 156-170):
invalidate, enqueue and recursively clean every old-root child other
than the promoted one, then shrink the old root's children list to
exactly the promoted child. -/
def cleanup (t : MCTS σ) (fuel : Nat) (oldRoot newRoot : Int) : MCTS σ :=
  let kids := childrenOf t oldRoot
  let t1 := kids.foldl (fun tt kid =>
    if kid ≠ newRoot then
      cleanChildren (invalidateEnqueue tt kid) fuel kid
    else tt) t
  setChildren t1 oldRoot [newRoot]

/-- One root-advance step, the body of the replay loop of
`MCTS.newRootState` (`search.go` lines 674-692): find the old root's
child carrying the replayed move; on success promote it, clean up the
siblings and push `prev` forward (`none` models the `panic` on a
`NNToMove` failure; `(false, ·)` the early `return false`). -/
def advanceRootStep (G : GameRules σ μ) (fuel : Nat) (t : MCTS σ)
    (prevState : σ) (move : Int) : Option (Option (σ × MCTS σ)) :=
  let oldRoot := t.root
  let newRoot := findChild t oldRoot move
  if newRoot = nilNode then
    some none
  else
    match G.nnToMove prevState move with
    | none => none
    | some m =>
        let t1 := cleanup { t with root := newRoot } fuel oldRoot newRoot
        let prev1 := G.apply prevState m
        some (some (prev1, { t1 with prev := some prev1 }))

/-- Replay loop of `MCTS.newRootState`: walk `tmp` forward `k` times,
advancing the root each time; then run the two final equality
checks. -/
def replayLoop (G : GameRules σ μ) (fuel : Nat) :
    Nat → σ → σ → MCTS σ → Option (Bool × MCTS σ)
  | 0, _, prevState, t =>
      if G.moveNumber t.current ≠ G.moveNumber prevState then
        some (false, t)
      else if ¬ G.stateEq t.current prevState then
        some (false, t)
      else
        some (true, t)
  | k + 1, tmp, prevState, t =>
      let tmp1 := G.fwd tmp
      let move := G.lastMove tmp1
      match advanceRootStep G fuel t prevState move with
      | none => none
      | some none => some (false, t)
      | some (some (prev1, t1)) => replayLoop G fuel k tmp1 prev1 t1

/-- Tree-reuse attempt (`MCTS.newRootState`, `search.go` lines
657-701): rewind the current state by the move-number difference,
compare with the previous post-move state, and on a match replay the
moves forward promoting the matching child each time. -/
def newRootState (G : GameRules σ μ) (fuel : Nat) (t : MCTS σ) :
    Option (Bool × MCTS σ) :=
  if t.root = nilNode then some (false, t)
  else
    match t.prev with
    | none => some (false, t)
    | some prevState =>
        let depth := G.moveNumber t.current - G.moveNumber prevState
        if depth < 0 then some (false, t)
        else
          let tmp := G.undoLastMove^[depth.toNat] t.current
          if ¬ G.stateEq tmp prevState then some (false, t)
          else replayLoop G fuel depth.toNat tmp prevState t

/-- Root refresh at the start of a search (`MCTS.updateRoot`,
fixed-simulation lineage, `search.go` lines 705-726): clear the
freeables, create a `Begin` root on the very first search, otherwise
try tree reuse and fall back to a fresh root on a random legal move
(`randIdx` models `rand.Intn`); finally clear `prev`, recount `nc`
and drop the has-children flag of a childless root. -/
def updateRoot (G : GameRules σ μ) (fuel : Nat) (randIdx : Nat)
    (t : MCTS σ) : Option (MCTS σ) :=
  let t0 := { t with freeables := [] }
  let rooted : Option (MCTS σ) :=
    if t0.root = nilNode then
      let (t1, r) := newNode t0 beginMove 0
      some { t1 with root := r }
    else
      match newRootState G fuel t0 with
      | none => none
      | some (true, t1) => some t1
      | some (false, t1) =>
          let moves := G.possibleMoves t1.current
          if moves.length = 0 then none
          else
            let (t2, r) := newNode t1 (moves.getD (randIdx % moves.length) 0) 0
            some { t2 with root := r }
  match rooted with
  | none => none
  | some t1 =>
      let t2 := { t1 with prev := none }
      let t3 := { t2 with nc := (countChildrenF t2 fuel t2.root : Int) }
      if childrenOf t3 t3.root = [] then
        some (setHasChild t3 t3.root false)
      else
        some t3

/-! ## The search driver (`MCTS.Search`, fixed-simulation lineage,
`search.go` lines 479-512).  The `NumSimulation` goroutines of the Go
driver are executed sequentially, one completed simulation after
another. -/

/-- Run `k` simulations from the root, each on a clone of the current
state; a simulation error aborts the search. -/
def runSims (G : GameRules σ μ) (nn : Evaluator σ) (sqrtFn : ℕ → ℚ) :
    Nat → MCTS σ → Option (MCTS σ)
  | 0, t => some t
  | k + 1, t =>
      match pipeline G nn sqrtFn t t.current t.root 0 with
      | none => none
      | some (_, t1) => runSims G nn sqrtFn k t1

/-- Full search (`MCTS.Search`): refresh the root, free the enqueued
handles, run the simulations, fail when the root still has no
children, extract the improved policy, choose the move and remember
the current state in `prev`. -/
def mctsSearch (G : GameRules σ μ) (nn : Evaluator σ) (sqrtFn : ℕ → ℚ)
    (powFn : ℚ → ℚ → ℚ) (randIdx : Nat) (rnd : ℚ) (t : MCTS σ) :
    Option (μ × MCTS σ) :=
  match updateRoot G (t.nodes.length + 1) randIdx t with
  | none => none
  | some t1 =>
      let t2 := t1.freeables.foldl free t1
      match runSims G nn sqrtFn t2.conf.numSimulation.toNat t2 with
      | none => none
      | some t3 =>
          if ¬ (nodeFromNaughty t3 t3.root).hasChildren then none
          else
            let t4 := updatePolicies G powFn t3
            let (mv, t5) := bestMove powFn t4 (G.moveNumber t4.current) rnd
            match G.nnToMove t5.current mv with
            | none => none
            | some m => some (m, { t5 with prev := some t5.current })

/-! ## Engine construction (`mcts.New` in `tree.go` lines 61-86 and
`agogo.New` in `agogo.go`).  The Dirichlet vector drawn at
construction time is passed in as `sample` (the code samples it from
`Dirichlet(alpha = 0.3, ..., 0.3)` of dimension `ActionSpace`). -/

/-- Engine state built by `mcts.New`: empty arena, `nilNode` root, the
given game as current state, and the construction-time Dirichlet
sample.  No configuration validation happens here. -/
def mctsNew (conf : Config) (g : σ) (sample : List ℚ) : MCTS σ :=
  { conf := conf, nodes := [], children := [], freelist := [],
    freeables := [], root := nilNode, nc := 0, current := g,
    prev := none, dirichletSample := sample, policies := none }

/-- Engine construction through `agogo.New`, which panics (`none`)
when `Config.IsValid` fails and otherwise builds the engine. -/
def azNew (conf : Config) (g : σ) (sample : List ℚ) : Option (MCTS σ) :=
  if conf.isValidM then some (mctsNew conf g sample) else none

/-! ## Derived notions used by the statements: visit slack,
well-formedness of the arena, reachability. -/

/-- Sum over the active children of `p` of `visits - 1` (the visits a
child has accumulated beyond the one it is born with). -/
def activeChildExtraVisits (t : MCTS σ) (p : Int) : Int :=
  ((childrenOf t p).map (fun kid =>
    let child := nodeFromNaughty t kid
    if child.status = .active then (child.visits : Int) - 1 else 0)).sum

/-- Sum of the visits of the active children of `p` (the quantity the
original claim bounds by `visits p`). -/
def activeChildVisitSum (t : MCTS σ) (p : Int) : Int :=
  ((childrenOf t p).map (fun kid =>
    let child := nodeFromNaughty t kid
    if child.status = .active then (child.visits : Int) else 0)).sum

/-- Visit slack of a node: its own extra visits minus those of its
active children; the corrected per-node invariant is `0 ≤ slack`. -/
def slack (t : MCTS σ) (p : Int) : Int :=
  ((nodeFromNaughty t p).visits : Int) - 1 - activeChildExtraVisits t p

/-- Number of (parent, position) places where handle `c` occurs in
some children list. -/
def parentCount (t : MCTS σ) (c : Int) : Nat :=
  (t.children.map (fun l => l.count c)).sum

/-- Arena well-formedness maintained during a search from a fresh
tree: adjacency edges go from a slot to a strictly larger in-range
slot, every handle has at most one parent place, and the free list is
empty (nothing is freed while simulations run). -/
structure WF (t : MCTS σ) : Prop where
  edges_lt : ∀ p c : Int, c ∈ childrenOf t p → p < c ∧ c.toNat < t.nodes.length ∧ 0 ≤ c
  one_parent : ∀ c : Int, parentCount t c ≤ 1
  free_nil : t.freelist = []
  chlen : t.children.length = t.nodes.length

/-- Reachability along children edges in at most `k` steps. -/
def reachesIn (t : MCTS σ) : Nat → Int → Int → Prop
  | 0, a, b => a = b
  | k + 1, a, b => a = b ∨ ∃ c ∈ childrenOf t a, reachesIn t k c b

/-- Strict reachability: at least one children edge is taken. -/
def strictReach (t : MCTS σ) (a b : Int) : Prop :=
  ∃ k c, c ∈ childrenOf t a ∧ reachesIn t k c b

/-- Rank function certifying acyclicity of the children graph: ranks
strictly drop along every edge. -/
def RankOK (t : MCTS σ) (rk : Int → Nat) : Prop :=
  ∀ p c : Int, c ∈ childrenOf t p → rk c < rk p

/-! ## Concrete fixtures: a three-action toy game and evaluators used
to execute the model on explicit inputs. -/

/-- States of the toy game: `s0` (one legal move, index 0), `s1 = apply
(s0, 0)` (all three moves legal), deeper states `s2 i`, and a terminal
state `tEnd` whose winner is the player to move. -/
inductive TState where
  | s0
  | s1
  | s2 (i : Fin 3)
  | tEnd
deriving DecidableEq, Repr

/-- Toy game over three actions; moves are the action indices
themselves, `nnToMove` succeeds on indices 0, 1, 2 and fails
otherwise (including on the sentinel `Resign`/`Begin` moves). -/
def toyGame (mn : Int) : GameRules TState Int :=
  { actionSpace := 3
    turn := fun _ => .white
    moveNumber := fun s => if s = .s0 then mn else mn + 1
    ended := fun s => (s = .tEnd, if s = .tEnd then Color.white else Color.noColor)
    nnToMove := fun _ i => if 0 ≤ i ∧ i < 3 then some i else none
    check := fun s m =>
      match s with
      | .s0 => m = 0
      | .s1 => true
      | .s2 _ => false
      | .tEnd => false
    apply := fun s m =>
      match s with
      | .s0 => .s1
      | .s1 => if h : 0 ≤ m ∧ m < 3 then .s2 ⟨m.toNat, by omega⟩ else .s1
      | x => x
    possibleMoves := fun _ => [0]
    undoLastMove := fun s => s
    fwd := fun s => s
    lastMove := fun _ => 0
    stateEq := fun a b => a = b }

/-- Evaluator for the toy game: value 1/2 everywhere, policy
`[3/5, 3/10, 1/10]`. -/
def toyEval : Evaluator TState := fun _ => ([3/5, 3/10, 1/10], some (1/2))

/-- Square root model valued on the perfect squares that occur in the
concrete runs (`sqrt 0 = 0`, `sqrt 1 = 1`, `sqrt 4 = 2`), with the
rational approximations `sqrt 2 ≈ 99/70` and `sqrt 3 ≈ 97/56`
elsewhere in range. -/
def sqrtTab (n : ℕ) : ℚ :=
  [0, 1, 99/70, 97/56, 2].getD n 0

/-- Power model valued at the exponents `1` and `2`, the only ones a
concrete run uses (`pow x 1 = x`, `pow x 2 = x^2`). -/
def powTab (x e : ℚ) : ℚ :=
  if e = 1 then x else if e = 2 then x * x else 0

/-- Dirichlet sample used by the concrete fixtures: the uniform vector
over the three actions. -/
def toySample : List ℚ := [1/3, 1/3, 1/3]

/-- Fresh engine on the toy game: configuration with one simulation
worth of depth to spare, two simulations, no random move sampling. -/
def toyConf : Config :=
  { puct := 1, randomCount := 0, randomTemperature := 1,
    maxDepth := 10, numSimulation := 2 }

/-- Result of the first toy search (two simulations from scratch),
used by several explicit-input theorems. -/
def toyRun : Option (Int × MCTS TState) :=
  mctsSearch (toyGame 0) toyEval sqrtTab powTab 0 0
    (mctsNew toyConf TState.s0 toySample)

/-- Variant of the toy game whose start state has two legal moves
(indices 0 and 1). -/
def toyGame2 (mn : Int) : GameRules TState Int :=
  { toyGame mn with
    check := fun s m =>
      match s with
      | .s0 => m = 0 ∨ m = 1
      | .s1 => true
      | .s2 _ => false
      | .tEnd => false }

/-- Configuration exercising the at-or-above `random_count` regime
with a temperature different from 1. -/
def toyConf2 : Config :=
  { puct := 1, randomCount := 0, randomTemperature := 1/2,
    maxDepth := 10, numSimulation := 2 }

/-- Result of the two-simulation search on the two-legal-move game at
root move number 5 (so `move_number ≥ random_count`). -/
def toyRun2 : Option (Int × MCTS TState) :=
  mctsSearch (toyGame2 5) toyEval sqrtTab powTab 0 0
    (mctsNew toyConf2 TState.s0 toySample)

/-- Evaluator that reports a NaN value on every state. -/
def nanEval : Evaluator TState := fun _ => ([1, 1, 1], none)

/-- Configuration with a zero depth budget. -/
def toyConf0 : Config :=
  { puct := 1, randomCount := 0, randomTemperature := 1,
    maxDepth := 0, numSimulation := 1 }

/-- Fresh engine sitting on the terminal state with a zero depth
budget. -/
def tEndTree : MCTS TState := mctsNew toyConf0 TState.tEnd toySample

/-- Configuration with a negative `puct` but positive temperature and
simulation count. -/
def badPuctConf : Config :=
  { puct := -1, randomCount := 0, randomTemperature := 1,
    maxDepth := 5, numSimulation := 1 }

/-- Tiny tree for the selection witness: the root has a pruned first
child and an active second child. -/
def selWitnessTree : MCTS TState :=
  { conf := toyConf
    nodes := [
      { move := -3, visits := 1, status := .active, qsa := 0, hasChildren := true, psa := 0, pi := 0 },
      { move := 0, visits := 1, status := .pruned, qsa := 0, hasChildren := false, psa := 0, pi := 0 },
      { move := 1, visits := 1, status := .active, qsa := 0, hasChildren := false, psa := 0, pi := 0 }]
    children := [[1, 2], [], []]
    freelist := [], freeables := [], root := 0, nc := 0,
    current := TState.s0, prev := none, dirichletSample := toySample,
    policies := none }

/-- Record of what one expansion (`expandLoop`) does to the tree:
metadata fields unchanged, existing nodes untouched (the parent's
has-children flag apart), the parent's children list extended with
fresh in-range handles, every fresh node a newborn carrying one of the
pair scores, and parent multiplicities preserved (fresh handles get at
most one parent place). -/
structure ExpandSpec (t t' : MCTS σ) (parent : Int) (l : List MPair) : Prop where
  freelist_eq : t'.freelist = t.freelist
  conf_eq : t'.conf = t.conf
  root_eq : t'.root = t.root
  current_eq : t'.current = t.current
  prev_eq : t'.prev = t.prev
  sample_eq : t'.dirichletSample = t.dirichletSample
  policies_eq : t'.policies = t.policies
  nc_eq : t'.nc = t.nc
  freeables_eq : t'.freeables = t.freeables
  len_le : t.nodes.length ≤ t'.nodes.length
  chlen : t'.children.length = t'.nodes.length
  old_nodes : ∀ p : ℕ, p < t.nodes.length → p ≠ parent.toNat →
      nodeFromNaughty t' (p : Int) = nodeFromNaughty t (p : Int)
  parent_node : ∃ b, nodeFromNaughty t' parent =
      { nodeFromNaughty t parent with hasChildren := b }
  old_children : ∀ p : ℕ, p < t.nodes.length → p ≠ parent.toNat →
      childrenOf t' (p : Int) = childrenOf t (p : Int)
  parent_children : ∃ ext : List Int,
      childrenOf t' parent = childrenOf t parent ++ ext ∧
      ∀ e ∈ ext, 0 ≤ e ∧ t.nodes.length ≤ e.toNat ∧ e.toNat < t'.nodes.length
  fresh_nodes : ∀ p : ℕ, t.nodes.length ≤ p → p < t'.nodes.length →
      (∃ q ∈ l, nodeFromNaughty t' (p : Int) =
        { move := q.move, visits := 1, status := .active, qsa := 0,
          hasChildren := false, psa := q.score, pi := 0 }) ∧
      childrenOf t' (p : Int) = []
  pcount_old : ∀ c : Int, c.toNat < t.nodes.length →
      parentCount t' c = parentCount t c
  pcount_fresh : ∀ c : Int, t.nodes.length ≤ c.toNat → parentCount t' c ≤ 1
  edges_sub : ∀ p c : Int, c ∈ childrenOf t' p →
      c.toNat < t'.nodes.length ∧
      (c ∈ childrenOf t p ∨
        (p.toNat = parent.toNat ∧ 0 ≤ c ∧ t.nodes.length ≤ c.toNat))


/-- Record of what one simulation (`pipeline`) does to the tree,
relative to its start node, on a well-formed arena: metadata
unchanged, well-formedness maintained, statuses of existing nodes
untouched, children lists only appended with fresh handles, the visit
slack of every old node other than the start no worse than
`min slack 0`, the start's slack at worst one less, and every fresh
node a newborn leaf. -/
structure PipeSpec (t t' : MCTS σ) (start : Int) : Prop where
  freelist_nil : t'.freelist = []
  conf_eq : t'.conf = t.conf
  root_eq : t'.root = t.root
  current_eq : t'.current = t.current
  prev_eq : t'.prev = t.prev
  sample_eq : t'.dirichletSample = t.dirichletSample
  policies_eq : t'.policies = t.policies
  nc_eq : t'.nc = t.nc
  freeables_eq : t'.freeables = t.freeables
  len_le : t.nodes.length ≤ t'.nodes.length
  chlen : t'.children.length = t'.nodes.length
  wf_edges : ∀ p c : Int, c ∈ childrenOf t' p →
      p < c ∧ c.toNat < t'.nodes.length ∧ 0 ≤ c
  wf_pcount : ∀ c : Int, parentCount t' c ≤ 1
  status_old : ∀ p : ℕ, p < t.nodes.length →
      (nodeFromNaughty t' (p : Int)).status = (nodeFromNaughty t (p : Int)).status
  children_mon : ∀ p : ℕ, p < t.nodes.length →
      ∃ ext, childrenOf t' (p : Int) = childrenOf t (p : Int) ++ ext ∧
        ∀ e ∈ ext, t.nodes.length ≤ e.toNat
  slack_other : ∀ p : ℕ, p < t.nodes.length → p ≠ start.toNat →
      min (slack t (p : Int)) 0 ≤ slack t' (p : Int)
  slack_start : min (slack t start) 0 - 1 ≤ slack t' start
  fresh_ok : ∀ p : ℕ, t.nodes.length ≤ p → p < t'.nodes.length →
      (nodeFromNaughty t' (p : Int)).visits = 1 ∧
      (nodeFromNaughty t' (p : Int)).status = .active ∧
      childrenOf t' (p : Int) = []

/-- Sum of `powFn(visits, e)` over the non-Invalid nodes of a handle
list (the denominator shape of `updatePolicies` and `sampleChild`). -/
def validPowSum (powFn : ℚ → ℚ → ℚ) (t : MCTS σ) (e : ℚ) (l : List Int) : ℚ :=
  (l.map (fun kid =>
    let child := nodeFromNaughty t kid
    if child.status ≠ .invalid then powFn ((child.visits : ℕ) : ℚ) e else 0)).sum

/-- `t1` approximates `t2`: every adjacency list is either unchanged
or already cleared.  The cleanup passes only ever shrink lists to
`[]`, so the evolving tree always approximates the original. -/
def childrenApprox (t1 t2 : MCTS σ) : Prop :=
  ∀ p : Int, childrenOf t1 p = childrenOf t2 p ∨ childrenOf t1 p = []

/-- Monotone scaffolding of the cleanup passes relative to a reference
tree: metadata untouched, node records at most invalidated, the
freeables queue only appended to, adjacency lists only cleared. -/
structure CleanSpec (tt tt' : MCTS σ) : Prop where
  conf_eq : tt'.conf = tt.conf
  root_eq : tt'.root = tt.root
  current_eq : tt'.current = tt.current
  prev_eq : tt'.prev = tt.prev
  sample_eq : tt'.dirichletSample = tt.dirichletSample
  policies_eq : tt'.policies = tt.policies
  nc_eq : tt'.nc = tt.nc
  freelist_eq : tt'.freelist = tt.freelist
  nlen_eq : tt'.nodes.length = tt.nodes.length
  clen_eq : tt'.children.length = tt.children.length
  nodes_mono : ∀ x : Int, nodeFromNaughty tt' x = nodeFromNaughty tt x ∨
    nodeFromNaughty tt' x = { nodeFromNaughty tt x with status := .invalid }
  free_ext : ∃ ext, tt'.freeables = tt.freeables ++ ext
  approx : childrenApprox tt' tt

/-- Four-node arena for the root-advance fixture: root `0` with
children `1` (move 0) and `2` (move 1), and `3` (move 2) a child of
`2`. -/
def cT : MCTS TState :=
  { conf := toyConf
    nodes := [
      { move := -3, visits := 1, status := .active, qsa := 0,
        hasChildren := true, psa := 0, pi := 0 },
      { move := 0, visits := 1, status := .active, qsa := 0,
        hasChildren := false, psa := 0, pi := 0 },
      { move := 1, visits := 1, status := .active, qsa := 0,
        hasChildren := true, psa := 0, pi := 0 },
      { move := 2, visits := 1, status := .active, qsa := 0,
        hasChildren := false, psa := 0, pi := 0 }]
    children := [[1, 2], [], [3], []]
    freelist := [], freeables := [], root := 0, nc := 0,
    current := TState.s0, prev := none, dirichletSample := toySample,
    policies := none }

/-- The fixture arena after advancing the root by move `0`: node `1`
promoted, sibling `2` and its child `3` invalidated and enqueued. -/
def cTAfter : MCTS TState :=
  { cT with
    nodes := [
      { move := -3, visits := 1, status := .active, qsa := 0,
        hasChildren := true, psa := 0, pi := 0 },
      { move := 0, visits := 1, status := .active, qsa := 0,
        hasChildren := false, psa := 0, pi := 0 },
      { move := 1, visits := 1, status := .invalid, qsa := 0,
        hasChildren := true, psa := 0, pi := 0 },
      { move := 2, visits := 1, status := .invalid, qsa := 0,
        hasChildren := false, psa := 0, pi := 0 }]
    children := [[1], [], [], []]
    freeables := [2, 3]
    root := 1
    prev := some TState.s1 }

/-! ### Intermediate states of the two concrete runs (used to evaluate
the model one simulation at a time). -/

/-- Run 1, after `updateRoot` on the fresh engine: a lone `Begin`
root. -/
def rT0 : MCTS TState :=
  { conf := toyConf
    nodes := [{ move := -3, visits := 1, status := .active, qsa := 0,
                hasChildren := false, psa := 0, pi := 0 }]
    children := [[]], freelist := [], freeables := [], root := 0, nc := 0,
    current := TState.s0, prev := none, dirichletSample := toySample,
    policies := none }

/-- Run 1, after the first simulation expanded the root (one legal
move at `s0`, prior `5/6` after renormalization and noise). -/
def rT1 : MCTS TState :=
  { rT0 with
    nodes := [
      { move := -3, visits := 1, status := .active, qsa := 0,
        hasChildren := true, psa := 0, pi := 0 },
      { move := 0, visits := 1, status := .active, qsa := 0,
        hasChildren := false, psa := 5/6, pi := 0 }]
    children := [[1], []] }

/-- Run 1, second simulation, after node 1 was expanded with the three
moves of `s1` (noised priors `8/15, 37/120, 19/120`). -/
def rT1e : MCTS TState :=
  { rT0 with
    nodes := [
      { move := -3, visits := 1, status := .active, qsa := 0,
        hasChildren := true, psa := 0, pi := 0 },
      { move := 0, visits := 1, status := .active, qsa := 0,
        hasChildren := true, psa := 5/6, pi := 0 },
      { move := 0, visits := 1, status := .active, qsa := 0,
        hasChildren := false, psa := 8/15, pi := 0 },
      { move := 1, visits := 1, status := .active, qsa := 0,
        hasChildren := false, psa := 37/120, pi := 0 },
      { move := 2, visits := 1, status := .active, qsa := 0,
        hasChildren := false, psa := 19/120, pi := 0 }]
    children := [[1], [2, 3, 4], [], [], []] }

/-- Run 1, after the second simulation backpropagated `-1/2` into
node 1. -/
def rT2 : MCTS TState :=
  { rT1e with
    nodes := [
      { move := -3, visits := 1, status := .active, qsa := 0,
        hasChildren := true, psa := 0, pi := 0 },
      { move := 0, visits := 2, status := .active, qsa := -1/4,
        hasChildren := true, psa := 5/6, pi := 0 },
      { move := 0, visits := 1, status := .active, qsa := 0,
        hasChildren := false, psa := 8/15, pi := 0 },
      { move := 1, visits := 1, status := .active, qsa := 0,
        hasChildren := false, psa := 37/120, pi := 0 },
      { move := 2, visits := 1, status := .active, qsa := 0,
        hasChildren := false, psa := 19/120, pi := 0 }] }

/-- Run 1, after policy extraction. -/
def rT3 : MCTS TState :=
  { rT2 with
    nodes := [
      { move := -3, visits := 1, status := .active, qsa := 0,
        hasChildren := true, psa := 0, pi := 0 },
      { move := 0, visits := 2, status := .active, qsa := -1/4,
        hasChildren := true, psa := 5/6, pi := 1 },
      { move := 0, visits := 1, status := .active, qsa := 0,
        hasChildren := false, psa := 8/15, pi := 0 },
      { move := 1, visits := 1, status := .active, qsa := 0,
        hasChildren := false, psa := 37/120, pi := 0 },
      { move := 2, visits := 1, status := .active, qsa := 0,
        hasChildren := false, psa := 19/120, pi := 0 }]
    policies := some [1, 0, 0] }

/-- Run 1, final engine state returned by the search. -/
def rFinal : MCTS TState :=
  { rT3 with prev := some TState.s0 }

/-- Run 2, after `updateRoot` on the fresh engine. -/
def uT0 : MCTS TState :=
  { conf := toyConf2
    nodes := [{ move := -3, visits := 1, status := .active, qsa := 0,
                hasChildren := false, psa := 0, pi := 0 }]
    children := [[]], freelist := [], freeables := [], root := 0, nc := 0,
    current := TState.s0, prev := none, dirichletSample := toySample,
    policies := none }

/-- Run 2, after the first simulation expanded the root (two legal
moves at `s0`, noised priors `7/12` and `1/3`). -/
def uT1 : MCTS TState :=
  { uT0 with
    nodes := [
      { move := -3, visits := 1, status := .active, qsa := 0,
        hasChildren := true, psa := 0, pi := 0 },
      { move := 0, visits := 1, status := .active, qsa := 0,
        hasChildren := false, psa := 7/12, pi := 0 },
      { move := 1, visits := 1, status := .active, qsa := 0,
        hasChildren := false, psa := 1/3, pi := 0 }]
    children := [[1, 2], [], []] }

/-- Run 2, second simulation, after node 1 was expanded. -/
def uT1e : MCTS TState :=
  { uT0 with
    nodes := [
      { move := -3, visits := 1, status := .active, qsa := 0,
        hasChildren := true, psa := 0, pi := 0 },
      { move := 0, visits := 1, status := .active, qsa := 0,
        hasChildren := true, psa := 7/12, pi := 0 },
      { move := 1, visits := 1, status := .active, qsa := 0,
        hasChildren := false, psa := 1/3, pi := 0 },
      { move := 0, visits := 1, status := .active, qsa := 0,
        hasChildren := false, psa := 8/15, pi := 0 },
      { move := 1, visits := 1, status := .active, qsa := 0,
        hasChildren := false, psa := 37/120, pi := 0 },
      { move := 2, visits := 1, status := .active, qsa := 0,
        hasChildren := false, psa := 19/120, pi := 0 }]
    children := [[1, 2], [3, 4, 5], [], [], [], []] }

/-- Run 2, after the second simulation backpropagated into node 1. -/
def uT2 : MCTS TState :=
  { uT1e with
    nodes := [
      { move := -3, visits := 1, status := .active, qsa := 0,
        hasChildren := true, psa := 0, pi := 0 },
      { move := 0, visits := 2, status := .active, qsa := -1/4,
        hasChildren := true, psa := 7/12, pi := 0 },
      { move := 1, visits := 1, status := .active, qsa := 0,
        hasChildren := false, psa := 1/3, pi := 0 },
      { move := 0, visits := 1, status := .active, qsa := 0,
        hasChildren := false, psa := 8/15, pi := 0 },
      { move := 1, visits := 1, status := .active, qsa := 0,
        hasChildren := false, psa := 37/120, pi := 0 },
      { move := 2, visits := 1, status := .active, qsa := 0,
        hasChildren := false, psa := 19/120, pi := 0 }] }

/-- Run 2, after policy extraction: the improved policy is
`[2/5, 1/5, 0]`, which sums to `3/5`. -/
def uT3 : MCTS TState :=
  { uT2 with
    nodes := [
      { move := -3, visits := 1, status := .active, qsa := 0,
        hasChildren := true, psa := 0, pi := 0 },
      { move := 0, visits := 2, status := .active, qsa := -1/4,
        hasChildren := true, psa := 7/12, pi := 2/5 },
      { move := 1, visits := 1, status := .active, qsa := 0,
        hasChildren := false, psa := 1/3, pi := 1/5 },
      { move := 0, visits := 1, status := .active, qsa := 0,
        hasChildren := false, psa := 8/15, pi := 0 },
      { move := 1, visits := 1, status := .active, qsa := 0,
        hasChildren := false, psa := 37/120, pi := 0 },
      { move := 2, visits := 1, status := .active, qsa := 0,
        hasChildren := false, psa := 19/120, pi := 0 }]
    policies := some [2/5, 1/5, 0] }

/-- Run 2, final engine state returned by the search. -/
def uFinal : MCTS TState :=
  { uT3 with prev := some TState.s0 }

/-! ### Theorems -/

theorem list_sum_map_div (l : List ℚ) (c : ℚ) :
    (l.map (fun x => x / c)).sum = l.sum / c := by
  induction l with
  | nil => simp
  | cons a l ih => simp [ih, add_div]

theorem buildNodelist_sum (G : GameRules σ μ) (state : σ) (policy : List ℚ) :
    ∀ idxs nl s, buildNodelist G state policy idxs = some (nl, s) →
      s = (nl.map MPair.score).sum := by
  intro idxs
  induction idxs with
  | nil =>
      intro nl s h
      simp only [buildNodelist, Option.some.injEq, Prod.mk.injEq] at h
      obtain ⟨h1, h2⟩ := h
      subst h1; subst h2
      simp
  | cons i rest ih =>
      intro nl s h
      simp only [buildNodelist] at h
      cases hm : G.nnToMove state (i : Int) with
      | none => simp [hm] at h
      | some m =>
          simp only [hm] at h
          cases hb : buildNodelist G state policy rest with
          | none => simp [hb] at h
          | some ls =>
              obtain ⟨l, s0⟩ := ls
              simp only [hb] at h
              by_cases hc : G.check state m = true
              · simp only [hc, if_true, Option.some.injEq, Prod.mk.injEq] at h
                obtain ⟨h1, h2⟩ := h
                subst h1
                simp [← h2, ih l s0 hb]
              · rw [if_neg (by simpa using hc)] at h
                simp only [Option.some.injEq, Prod.mk.injEq] at h
                obtain ⟨h1, h2⟩ := h
                subst h1; subst h2
                exact ih _ _ hb

/-- C3.  For every expansion, with `nodelist` and `legal_sum` produced
by the legal-move scan: `legal_sum` is the sum of the legal moves'
policy scores; the stored scores are the pre-noise normalized scores
with the Dirichlet perturbation applied on top; when `legal_sum`
exceeds the smallest positive float32 each pre-noise prior is the
policy score divided by `legal_sum` and the pre-noise priors sum to
exactly 1 (the model computes in exact arithmetic, so "up to
floating-point epsilon" holds exactly); otherwise every pre-noise
prior is the uniform `1/|legal|`. -/
theorem claim_C3_expansion_normalization (G : GameRules σ μ) (state : σ)
    (policy : List ℚ) (idxs : List Nat) (nl : List MPair) (s : ℚ)
    (t : MCTS σ)
    (h : buildNodelist G state policy idxs = some (nl, s)) :
    s = (nl.map MPair.score).sum ∧
    normalizeScores t nl s =
      (normalizeScoresPreNoise nl s).map
        (fun p => { p with score := dirichletNoise t p.move p.score }) ∧
    (s > smallestNonzeroFloat32 →
      normalizeScoresPreNoise nl s =
        nl.map (fun p => { p with score := p.score / s }) ∧
      ((normalizeScoresPreNoise nl s).map MPair.score).sum = 1) ∧
    (¬ s > smallestNonzeroFloat32 →
      ∀ p ∈ normalizeScoresPreNoise nl s, p.score = 1 / (nl.length : ℚ)) := by
  have hsum := buildNodelist_sum G state policy idxs nl s h
  refine ⟨hsum, ?_, ?_, ?_⟩
  · by_cases hgt : s > smallestNonzeroFloat32
    · simp only [normalizeScores, normalizeScoresPreNoise, if_pos hgt, List.map_map]
      try rfl
    · simp only [normalizeScores, normalizeScoresPreNoise, if_neg hgt, List.map_map]
      try rfl
  · intro hgt
    have hne : s ≠ 0 := by
      have : (0:ℚ) < smallestNonzeroFloat32 := by
        norm_num [smallestNonzeroFloat32]
      exact ne_of_gt (lt_trans this hgt)
    constructor
    · simp [normalizeScoresPreNoise, hgt]
    · simp only [normalizeScoresPreNoise, if_pos hgt]
      have : ((nl.map (fun p => { p with score := p.score / s } : MPair → MPair)).map
          MPair.score) = (nl.map MPair.score).map (fun x => x / s) := by
        simp [List.map_map]
        try rfl
      rw [this, list_sum_map_div, ← hsum, div_self hne]
  · intro hgt p hp
    simp only [normalizeScoresPreNoise, if_neg hgt] at hp
    obtain ⟨q, _, rfl⟩ := List.mem_map.mp hp
    rfl

/-- C3 witness: the legal-move scan of the toy game's expanded state
produces scores summing above the float32 threshold, and the
normalized pre-noise priors sum to 1. -/
theorem claim_C3_witness :
    buildNodelist (toyGame 0) TState.s1 [3/5, 3/10, 1/10]
        (List.range (toyGame 0).actionSpace) =
      some ([⟨0, 3/5⟩, ⟨1, 3/10⟩, ⟨2, 1/10⟩], 1) ∧
    ((normalizeScoresPreNoise [⟨0, 3/5⟩, ⟨1, 3/10⟩, ⟨2, 1/10⟩] 1).map
        MPair.score).sum = 1 := by
  have hb : buildNodelist (toyGame 0) TState.s1 [3/5, 3/10, 1/10]
      (List.range (toyGame 0).actionSpace) =
      some ([⟨0, 3/5⟩, ⟨1, 3/10⟩, ⟨2, 1/10⟩], 1) := by
    norm_num [buildNodelist, toyGame, List.range_succ]
  refine ⟨hb, ?_⟩
  have h := claim_C3_expansion_normalization (toyGame 0) TState.s1
    [3/5, 3/10, 1/10] (List.range (toyGame 0).actionSpace)
    [⟨0, 3/5⟩, ⟨1, 3/10⟩, ⟨2, 1/10⟩] 1 tEndTree hb
  exact (h.2.2.1 (by norm_num [smallestNonzeroFloat32])).2

/-- C8.  When the evaluator reports a NaN value, the expansion returns
value 0 with the tree unchanged: no node allocated, no child appended,
the parent untouched. -/
theorem claim_C8_nan_no_expansion (G : GameRules σ μ) (nn : Evaluator σ)
    (t : MCTS σ) (state : σ) (parent : Int) (policy : List ℚ)
    (h : nn state = (policy, none)) :
    expandAndSimulate G nn t state parent = some (0, t) := by
  simp [expandAndSimulate, h]

/-- C8 witness: the NaN evaluator on the toy game expands nothing. -/
theorem claim_C8_witness :
    nanEval TState.s0 = ([1, 1, 1], none) ∧
    expandAndSimulate (toyGame 0) nanEval tEndTree TState.s0 0 =
      some (0, tEndTree) :=
  ⟨rfl, claim_C8_nan_no_expansion (toyGame 0) nanEval tEndTree TState.s0 0
    [1, 1, 1] rfl⟩

/-- C9 counterexample: a configuration with `puct = -1 ≤ 0` (but
positive temperature and simulation count) passes `Config.IsValid`,
and engine construction through `agogo.New` succeeds instead of being
refused. -/
theorem claim_C9_counterexample :
    badPuctConf.puct ≤ 0 ∧
    badPuctConf.isValidM = true ∧
    azNew badPuctConf TState.s0 toySample =
      some (mctsNew badPuctConf TState.s0 toySample) := by
  refine ⟨by norm_num [badPuctConf], by norm_num [badPuctConf, Config.isValidM], ?_⟩
  norm_num [azNew, badPuctConf, Config.isValidM]

/-- C9 amended: engine construction through `agogo.New` is refused
exactly when the configuration fails `Config.IsValid`, i.e. when
`random_temperature ≤ 0` or `num_simulation ≤ 0`; `puct` is not
validated by this lineage. -/
theorem claim_C9_validation (conf : Config) (g : σ) (sample : List ℚ) :
    azNew conf g sample = none ↔
      (conf.randomTemperature ≤ 0 ∨ conf.numSimulation ≤ 0) := by
  unfold azNew Config.isValidM
  constructor
  · intro h
    by_cases h1 : conf.randomTemperature > 0
    · by_cases h2 : conf.numSimulation > 0
      · simp [h1, h2] at h
      · exact Or.inr (by linarith)
    · exact Or.inl (by linarith)
  · intro h
    rcases h with h | h
    · have hn : ¬ conf.randomTemperature > 0 := not_lt.mpr h
      simp [hn]
    · have hn : ¬ conf.numSimulation > 0 := not_lt.mpr h
      simp [hn]

/-- C10.  `MCTS.New` returns a handle whose record has `visits = 1`,
`status = Active`, `qsa = 0`, `psa = score` and the given move, so a
freshly expanded child carries one visit before any simulation has
traversed it.  The hypothesis (free-list handles point into the
arena) reflects that Go would panic on an out-of-range slot. -/
theorem claim_C10_new_node (t : MCTS σ) (move : Int) (score : ℚ)
    (hfree : ∀ i ∈ t.freelist, 0 ≤ i ∧ i.toNat < t.nodes.length) :
    (nodeFromNaughty (newNode t move score).1 (newNode t move score).2).visits = 1 ∧
    (nodeFromNaughty (newNode t move score).1 (newNode t move score).2).status = .active ∧
    (nodeFromNaughty (newNode t move score).1 (newNode t move score).2).qsa = 0 ∧
    (nodeFromNaughty (newNode t move score).1 (newNode t move score).2).psa = score ∧
    (nodeFromNaughty (newNode t move score).1 (newNode t move score).2).move = move := by
  cases hl : t.freelist.getLast? with
  | none =>
      have hidx : ((t.nodes.length : Int)).toNat = t.nodes.length := by omega
      simp only [newNode, alloc, hl, modifyNode, setNode, nodeFromNaughty, hidx]
      rw [List.getD_eq_getElem?_getD, List.getElem?_set_self (by simp)]
      simp
  | some i =>
      have hmem : i ∈ t.freelist := List.mem_of_mem_getLast? hl
      obtain ⟨hi0, hilt⟩ := hfree i hmem
      simp only [newNode, alloc, hl, modifyNode, setNode, nodeFromNaughty]
      rw [List.getD_eq_getElem?_getD, List.getElem?_set_self hilt]
      simp

/-- C10 witness: allocating from a fresh arena. -/
theorem claim_C10_witness :
    (∀ i ∈ (mctsNew toyConf TState.s0 toySample).freelist,
        0 ≤ i ∧ i.toNat < (mctsNew toyConf TState.s0 toySample).nodes.length) ∧
    (nodeFromNaughty (newNode (mctsNew toyConf TState.s0 toySample) 7 9).1
        (newNode (mctsNew toyConf TState.s0 toySample) 7 9).2).visits = 1 := by
  have hfree : ∀ i ∈ (mctsNew toyConf TState.s0 toySample).freelist,
      0 ≤ i ∧ i.toNat < (mctsNew toyConf TState.s0 toySample).nodes.length := by
    intro i hi
    simp [mctsNew] at hi
  exact ⟨hfree,
    (claim_C10_new_node (mctsNew toyConf TState.s0 toySample) 7 9 hfree).1⟩

theorem selLoop_from_some (t : MCTS σ) (puct fpu num : ℚ) :
    ∀ (l : List Int) (b : Int) (s : ℚ),
      ∃ b' s', selLoop t puct fpu num l (b, some s) = (b', some s') ∧ s ≤ s' ∧
        ((b' = b ∧ s' = s ∧ ∀ k ∈ l, (nodeFromNaughty t k).status = .active →
            usaScore puct fpu num (nodeFromNaughty t k) ≤ s) ∨
         (∃ l1 l2, l = l1 ++ b' :: l2 ∧
            (nodeFromNaughty t b').status = .active ∧
            s' = usaScore puct fpu num (nodeFromNaughty t b') ∧ s < s' ∧
            (∀ k ∈ l1, (nodeFromNaughty t k).status = .active →
               usaScore puct fpu num (nodeFromNaughty t k) < s') ∧
            (∀ k ∈ l2, (nodeFromNaughty t k).status = .active →
               usaScore puct fpu num (nodeFromNaughty t k) ≤ s'))) := by
  intro l
  induction l with
  | nil =>
      intro b s
      exact ⟨b, s, rfl, le_refl s, Or.inl ⟨rfl, rfl, by simp⟩⟩
  | cons kid rest ih =>
      intro b s
      by_cases hact : (nodeFromNaughty t kid).status = .active
      · by_cases hgt : usaScore puct fpu num (nodeFromNaughty t kid) > s
        · obtain ⟨b', s', heq, hle, hcase⟩ :=
            ih kid (usaScore puct fpu num (nodeFromNaughty t kid))
          refine ⟨b', s', ?_, le_of_lt (lt_of_lt_of_le hgt hle), ?_⟩
          · simp only [selLoop, hact, if_true, decide_eq_true_eq]
            rw [if_pos hgt]
            simpa using heq
          · rcases hcase with ⟨hb, hs, hall⟩ | ⟨l1, l2, hdec, hact2, hs, hlt, h1, h2⟩
            · subst hb; subst hs
              exact Or.inr ⟨[], rest, by simp, hact, rfl, hgt, by simp, hall⟩
            · refine Or.inr ⟨kid :: l1, l2, by simp [hdec], hact2, hs, lt_trans hgt hlt, ?_, h2⟩
              intro k hk hka
              rcases List.mem_cons.mp hk with rfl | hk2
              · exact hlt
              · exact h1 k hk2 hka
        · obtain ⟨b', s', heq, hle, hcase⟩ := ih b s
          refine ⟨b', s', ?_, hle, ?_⟩
          · simp only [selLoop, hact, if_true, decide_eq_true_eq]
            rw [if_neg hgt]
            simpa using heq
          · rcases hcase with ⟨hb, hs, hall⟩ | ⟨l1, l2, hdec, hact2, hs, hlt, h1, h2⟩
            · refine Or.inl ⟨hb, hs, ?_⟩
              intro k hk hka
              rcases List.mem_cons.mp hk with rfl | hk2
              · exact not_lt.mp hgt
              · exact hall k hk2 hka
            · refine Or.inr ⟨kid :: l1, l2, by simp [hdec], hact2, hs, hlt, ?_, h2⟩
              intro k hk hka
              rcases List.mem_cons.mp hk with rfl | hk2
              · exact lt_of_le_of_lt (not_lt.mp hgt) hlt
              · exact h1 k hk2 hka
      · obtain ⟨b', s', heq, hle, hcase⟩ := ih b s
        refine ⟨b', s', ?_, hle, ?_⟩
        · simp only [selLoop]
          rw [if_neg hact]
          simpa using heq
        · rcases hcase with ⟨hb, hs, hall⟩ | ⟨l1, l2, hdec, hact2, hs, hlt, h1, h2⟩
          · refine Or.inl ⟨hb, hs, ?_⟩
            intro k hk hka
            rcases List.mem_cons.mp hk with rfl | hk2
            · exact absurd hka hact
            · exact hall k hk2 hka
          · refine Or.inr ⟨kid :: l1, l2, by simp [hdec], hact2, hs, hlt, ?_, h2⟩
            intro k hk hka
            rcases List.mem_cons.mp hk with rfl | hk2
            · exact absurd hka hact
            · exact h1 k hk2 hka
theorem selLoop_from_none (t : MCTS σ) (puct fpu num : ℚ) :
    ∀ (l : List Int) (b : Int),
      (selLoop t puct fpu num l (b, none) = (b, none) ∧
        ∀ k ∈ l, (nodeFromNaughty t k).status ≠ .active) ∨
      (∃ b' l1 l2,
        selLoop t puct fpu num l (b, none) =
          (b', some (usaScore puct fpu num (nodeFromNaughty t b'))) ∧
        l = l1 ++ b' :: l2 ∧
        (nodeFromNaughty t b').status = .active ∧
        (∀ k ∈ l1, (nodeFromNaughty t k).status = .active →
          usaScore puct fpu num (nodeFromNaughty t k) <
            usaScore puct fpu num (nodeFromNaughty t b')) ∧
        (∀ k ∈ l2, (nodeFromNaughty t k).status = .active →
          usaScore puct fpu num (nodeFromNaughty t k) ≤
            usaScore puct fpu num (nodeFromNaughty t b'))) := by
  intro l
  induction l with
  | nil => intro b; exact Or.inl ⟨rfl, by simp⟩
  | cons kid rest ih =>
      intro b
      by_cases hact : (nodeFromNaughty t kid).status = .active
      · obtain ⟨b', s', heq, hle, hcase⟩ :=
          selLoop_from_some t puct fpu num rest kid
            (usaScore puct fpu num (nodeFromNaughty t kid))
        have hstep : selLoop t puct fpu num (kid :: rest) (b, none) =
            selLoop t puct fpu num rest
              (kid, some (usaScore puct fpu num (nodeFromNaughty t kid))) := by
          simp only [selLoop, hact, if_true]
        rcases hcase with ⟨hb, hs, hall⟩ | ⟨l1, l2, hdec, hact2, hs, hlt, h1, h2⟩
        · subst hb; subst hs
          refine Or.inr ⟨b', [], rest, ?_, by simp, hact, by simp, hall⟩
          rw [hstep, heq]
        · refine Or.inr ⟨b', kid :: l1, l2, ?_, by simp [hdec], hact2, ?_, ?_⟩
          · rw [hstep, heq, hs]
          · intro k hk hka
            rcases List.mem_cons.mp hk with rfl | hk2
            · rw [← hs]; exact hlt
            · rw [← hs]; exact h1 k hk2 hka
          · intro k hk hka
            rw [← hs]; exact h2 k hk hka
      · rcases ih b with ⟨heq, hall⟩ | ⟨b', l1, l2, heq, hdec, hact2, h1, h2⟩
        · refine Or.inl ⟨?_, ?_⟩
          · simp only [selLoop]
            rw [if_neg hact]
            exact heq
          · intro k hk
            rcases List.mem_cons.mp hk with rfl | hk2
            · exact hact
            · exact hall k hk2
        · refine Or.inr ⟨b', kid :: l1, l2, ?_, by simp [hdec], hact2, ?_, h2⟩
          · simp only [selLoop]
            rw [if_neg hact]
            exact heq
          · intro k hk hka
            rcases List.mem_cons.mp hk with rfl | hk2
            · exact absurd hka hact
            · exact h1 k hk2 hka

/-- C1.  For every node with at least one Active child, `Select`
returns an Active child maximizing
`usa = q + PUCT * psa * sqrt(parentVisits) / (1 + visits)` where
`parentVisits` sums visits over children whose status is not Invalid,
`q` is `qsa` for visited children and the first-play-urgency value
`fpu` otherwise (`fpu` is the parent's network value prediction in the
budget lineage and `0` in the fixed-simulation lineage), and ties are
broken in favour of the child earliest in insertion order. -/
theorem claim_C1_select (sqrtFn : ℕ → ℚ) (fpu : ℚ) (t : MCTS σ) (h : Int)
    (hex : ∃ kid ∈ childrenOf t h, (nodeFromNaughty t kid).status = .active) :
    selectChild sqrtFn fpu t h ∈ childrenOf t h ∧
    (nodeFromNaughty t (selectChild sqrtFn fpu t h)).status = .active ∧
    (∀ kid ∈ childrenOf t h, (nodeFromNaughty t kid).status = .active →
      usaScore t.conf.puct fpu (sqrtFn (selParentVisits t h))
          (nodeFromNaughty t kid) ≤
        usaScore t.conf.puct fpu (sqrtFn (selParentVisits t h))
          (nodeFromNaughty t (selectChild sqrtFn fpu t h))) ∧
    (∃ l1 l2, childrenOf t h = l1 ++ selectChild sqrtFn fpu t h :: l2 ∧
      ∀ kid ∈ l1, (nodeFromNaughty t kid).status = .active →
        usaScore t.conf.puct fpu (sqrtFn (selParentVisits t h))
            (nodeFromNaughty t kid) <
          usaScore t.conf.puct fpu (sqrtFn (selParentVisits t h))
            (nodeFromNaughty t (selectChild sqrtFn fpu t h))) := by
  rcases selLoop_from_none t t.conf.puct fpu (sqrtFn (selParentVisits t h))
      (childrenOf t h) nilNode with
    ⟨_, hnone⟩ | ⟨b', l1, l2, heq, hdec, hact, h1, h2⟩
  · obtain ⟨kid, hk, hka⟩ := hex
    exact absurd hka (hnone kid hk)
  · have hsel : selectChild sqrtFn fpu t h = b' := by
      simp only [selectChild, heq]
    rw [hsel]
    refine ⟨by rw [hdec]; simp, hact, ?_, l1, l2, hdec, h1⟩
    intro kid hk hka
    rw [hdec] at hk
    rcases List.mem_append.mp hk with hk1 | hk2
    · exact le_of_lt (h1 kid hk1 hka)
    · rcases List.mem_cons.mp hk2 with rfl | hk3
      · exact le_refl _
      · exact h2 kid hk3 hka


/-- C1 witness: on the concrete two-child tree the selection hypothesis
holds and the selected child is one of the root's children. -/
theorem claim_C1_witness :
    (∃ kid ∈ childrenOf selWitnessTree 0,
      (nodeFromNaughty selWitnessTree kid).status = .active) ∧
    selectChild sqrtTab 0 selWitnessTree 0 ∈ childrenOf selWitnessTree 0 :=
  ⟨by decide, (claim_C1_select sqrtTab 0 selWitnessTree 0 (by decide)).1⟩

/-- C2 amended: at a terminal state the pipeline returns 0 on a draw,
-1 when the player to move equals the winner and +1 otherwise, with
the tree untouched — provided the depth counter incremented on entry
stays within the `MaxDepth` budget (the source checks the depth
before the terminal check and returns 0 regardless of the result
otherwise). -/
theorem claim_C2_terminal_values (G : GameRules σ μ) (nn : Evaluator σ)
    (sqrtFn : ℕ → ℚ) (t : MCTS σ) (current : σ) (start : Int) (depth : Int)
    (hdep : depth + 1 ≤ t.conf.maxDepth)
    (hend : (G.ended current).1 = true) :
    pipeline G nn sqrtFn t current start depth =
      some ((if (G.ended current).2 = .noColor then 0
             else if G.turn current = (G.ended current).2 then -1 else 1 : ℚ),
            t) := by
  rw [pipeline]
  rw [dif_neg (by omega)]
  rcases hGe : G.ended current with ⟨e, w⟩
  rw [hGe] at hend
  simp only at hend
  subst hend
  simp only [if_true]
  by_cases hw : w = Color.noColor
  · simp [hGe, hw]
  · by_cases ht : G.turn current = w
    · simp [hGe, hw, ht]
    · simp [hGe, hw, ht]

/-- C2 counterexample: with a zero depth budget, the pipeline called
on a terminal state whose winner equals the player to move returns 0
(the depth guard fires first), not the -1 the claim requires. -/
theorem claim_C2_counterexample :
    ((toyGame 0).ended TState.tEnd).1 = true ∧
    ((toyGame 0).ended TState.tEnd).2 = (toyGame 0).turn TState.tEnd ∧
    pipeline (toyGame 0) toyEval sqrtTab tEndTree TState.tEnd 0 0 =
      some (0, tEndTree) ∧
    (0 : ℚ) ≠ -1 := by
  refine ⟨by norm_num [toyGame], by norm_num [toyGame], ?_, by norm_num⟩
  rw [pipeline]
  rw [dif_pos (by norm_num [tEndTree, mctsNew, toyConf0])]

/-- C2 witness: the amended theorem evaluated on the terminal toy
state with a positive depth budget yields -1. -/
theorem claim_C2_witness :
    (0 : Int) + 1 ≤ (mctsNew toyConf TState.tEnd toySample).conf.maxDepth ∧
    ((toyGame 0).ended TState.tEnd).1 = true ∧
    pipeline (toyGame 0) toyEval sqrtTab
        (mctsNew toyConf TState.tEnd toySample) TState.tEnd 0 0 =
      some ((if ((toyGame 0).ended TState.tEnd).2 = .noColor then 0
             else if (toyGame 0).turn TState.tEnd =
                 ((toyGame 0).ended TState.tEnd).2 then -1 else 1 : ℚ),
            mctsNew toyConf TState.tEnd toySample) := by
  refine ⟨by norm_num [mctsNew, toyConf], by norm_num [toyGame], ?_⟩
  exact claim_C2_terminal_values (toyGame 0) toyEval sqrtTab
    (mctsNew toyConf TState.tEnd toySample) TState.tEnd 0 0
    (by norm_num [mctsNew, toyConf]) (by norm_num [toyGame])



theorem run1_updateRoot :
    updateRoot (toyGame 0) 1 0 (mctsNew toyConf TState.s0 toySample) = some rT0 := by
  norm_num [updateRoot, newRootState, newNode, alloc, modifyNode, setNode, nodeFromNaughty,
    childrenOf, setChildren, setHasChild, countChildrenF, mctsNew, toyGame, toyConf, toySample,
    nilNode, beginMove, rT0]

theorem run1_expand0 :
    expandAndSimulate (toyGame 0) toyEval rT0 TState.s0 0 = some (1/2, rT1) := by
  norm_num [expandAndSimulate, buildNodelist, normalizeScores, dirichletNoise, expandLoop,
    findChild, newNode, alloc, modifyNode, setNode, nodeFromNaughty, childrenOf, setChildren,
    addChild, setHasChild, toyGame, toyEval, toySample, rT0, rT1, smallestNonzeroFloat32,
    mctsEpsilon, nilNode, List.range_succ, List.insertionSort, List.orderedInsert,
    (show Int.toNat 0 = 0 from rfl), (show Int.toNat 1 = 1 from rfl),
    (show Int.toNat 2 = 2 from rfl), (show Int.toNat 3 = 3 from rfl),
    (show Int.toNat 4 = 4 from rfl), (show Int.toNat 5 = 5 from rfl),
    List.getD_cons_zero, List.getD_cons_succ]

theorem run1_pipe1 :
    pipeline (toyGame 0) toyEval sqrtTab rT0 TState.s0 0 0 = some (-(1/2), rT1) := by
  have hend : (toyGame 0).ended TState.s0 = (false, Color.noColor) := rfl
  have hn0 : (nodeFromNaughty rT0 0).hasChildren = false := rfl
  have hnc : rT0.nc = 0 := rfl
  rw [pipeline, dif_neg (by norm_num [rT0, toyConf])]
  norm_num [hend, hnc, hn0, MAXTREESIZE, run1_expand0]

theorem run1_expand1 :
    expandAndSimulate (toyGame 0) toyEval rT1 TState.s1 1 = some (1/2, rT1e) := by
  norm_num [expandAndSimulate, buildNodelist, normalizeScores, dirichletNoise, expandLoop,
    findChild, newNode, alloc, modifyNode, setNode, nodeFromNaughty, childrenOf, setChildren,
    addChild, setHasChild, toyGame, toyEval, toySample, rT0, rT1, rT1e, smallestNonzeroFloat32,
    mctsEpsilon, nilNode, List.range_succ, List.insertionSort, List.orderedInsert,
    (show Int.toNat 0 = 0 from rfl), (show Int.toNat 1 = 1 from rfl),
    (show Int.toNat 2 = 2 from rfl), (show Int.toNat 3 = 3 from rfl),
    (show Int.toNat 4 = 4 from rfl), (show Int.toNat 5 = 5 from rfl),
    List.getD_cons_zero, List.getD_cons_succ]

theorem run1_pipe2_inner :
    pipeline (toyGame 0) toyEval sqrtTab rT1 TState.s1 1 1 = some (-(1/2), rT1e) := by
  have hend : (toyGame 0).ended TState.s1 = (false, Color.noColor) := rfl
  have hn1 : (nodeFromNaughty rT1 1).hasChildren = false := rfl
  have hnc : rT1.nc = 0 := rfl
  rw [pipeline, dif_neg (by norm_num [rT1, rT0, toyConf])]
  norm_num [hend, hnc, hn1, MAXTREESIZE, run1_expand1]

theorem run1_select : selectChild sqrtTab 0 rT1 0 = 1 := by
  norm_num [selectChild, selLoop, usaScore, selParentVisits, childrenOf, nodeFromNaughty,
    rT1, rT0, sqrtTab, toyConf, nilNode]

theorem run1_update1 :
    modifyNode rT1e 1 (fun N => N.updateScore (-(1/2))) = rT2 := by
  norm_num [modifyNode, setNode, nodeFromNaughty, Node.updateScore, rT1e, rT2, rT0]

theorem run1_pipe2 :
    pipeline (toyGame 0) toyEval sqrtTab rT1 TState.s0 0 0 = some (1/2, rT2) := by
  have hend : (toyGame 0).ended TState.s0 = (false, Color.noColor) := rfl
  have hn0 : (nodeFromNaughty rT1 0).hasChildren = true := rfl
  have hn1 : (nodeFromNaughty rT1 1).move = 0 := rfl
  have hnc : rT1.nc = 0 := rfl
  have hmv : (toyGame 0).nnToMove TState.s0 0 = some 0 := rfl
  have hap : (toyGame 0).apply TState.s0 0 = TState.s1 := rfl
  rw [pipeline, dif_neg (by norm_num [rT1, rT0, toyConf])]
  norm_num [hend, hnc, hn0, hn1, hmv, hap, MAXTREESIZE, run1_select, nilNode,
    run1_pipe2_inner, run1_update1]



theorem run1_sims : runSims (toyGame 0) toyEval sqrtTab 2 rT0 = some rT2 := by
  have hc0 : rT0.current = TState.s0 := rfl
  have hr0 : rT0.root = 0 := rfl
  have hc1 : rT1.current = TState.s0 := rfl
  have hr1 : rT1.root = 0 := rfl
  norm_num [runSims, hc0, hr0, hc1, hr1, run1_pipe1, run1_pipe2]

theorem run1_policies : updatePolicies (toyGame 0) powTab rT2 = rT3 := by
  norm_num +decide [updatePolicies, childrenOf, nodeFromNaughty, modifyNode, setNode, powTab,
    rT2, rT3, rT1e, rT0, toyConf, toyGame, List.replicate,
    (show Int.toNat 0 = 0 from rfl), (show Int.toNat 1 = 1 from rfl),
    List.getD_cons_zero, List.getD_cons_succ]

theorem run1_best : bestMove powTab rT3 0 0 = (0, rT3) := by
  norm_num +decide [bestMove, sampleChild, childrenOf, nodeFromNaughty, setChildren,
    rT3, rT2, rT1e, rT0, toyConf, List.insertionSort, List.orderedInsert,
    (show Int.toNat 0 = 0 from rfl), (show Int.toNat 1 = 1 from rfl),
    List.getD_cons_zero, List.getD_cons_succ]

theorem run1_search : toyRun = some (0, rFinal) := by
  have h1 : (mctsNew toyConf TState.s0 toySample).nodes.length + 1 = 1 := rfl
  have h2 : rT0.freeables = [] := rfl
  have h3 : rT0.conf.numSimulation = 2 := rfl
  have h4 : rT2.root = 0 := rfl
  have h5 : (nodeFromNaughty rT2 0).hasChildren = true := rfl
  have h6 : rT3.current = TState.s0 := rfl
  have h7 : (toyGame 0).moveNumber TState.s0 = 0 := rfl
  have h8 : (toyGame 0).nnToMove TState.s0 0 = some 0 := rfl
  have h9 : rFinal = { rT3 with prev := some TState.s0 } := rfl
  norm_num [toyRun, mctsSearch, h1, run1_updateRoot, h2, h3, run1_sims, h4, h5,
    run1_policies, h6, h7, run1_best, h8, h9, (show Int.toNat 2 = 2 from rfl)]



theorem run2_updateRoot :
    updateRoot (toyGame2 5) 1 0 (mctsNew toyConf2 TState.s0 toySample) = some uT0 := by
  norm_num [updateRoot, newRootState, newNode, alloc, modifyNode, setNode, nodeFromNaughty,
    childrenOf, setChildren, setHasChild, countChildrenF, mctsNew, toyGame2, toyGame, toyConf2,
    toySample, nilNode, beginMove, uT0]

theorem run2_expand0 :
    expandAndSimulate (toyGame2 5) toyEval uT0 TState.s0 0 = some (1/2, uT1) := by
  norm_num [expandAndSimulate, buildNodelist, normalizeScores, dirichletNoise, expandLoop,
    findChild, newNode, alloc, modifyNode, setNode, nodeFromNaughty, childrenOf, setChildren,
    addChild, setHasChild, toyGame2, toyGame, toyEval, toySample, uT0, uT1,
    smallestNonzeroFloat32, mctsEpsilon, nilNode, List.range_succ, List.insertionSort,
    List.orderedInsert,
    (show Int.toNat 0 = 0 from rfl), (show Int.toNat 1 = 1 from rfl),
    (show Int.toNat 2 = 2 from rfl), (show Int.toNat 3 = 3 from rfl),
    (show Int.toNat 4 = 4 from rfl), (show Int.toNat 5 = 5 from rfl),
    List.getD_cons_zero, List.getD_cons_succ]

theorem run2_pipe1 :
    pipeline (toyGame2 5) toyEval sqrtTab uT0 TState.s0 0 0 = some (-(1/2), uT1) := by
  have hend : (toyGame2 5).ended TState.s0 = (false, Color.noColor) := rfl
  have hn0 : (nodeFromNaughty uT0 0).hasChildren = false := rfl
  have hnc : uT0.nc = 0 := rfl
  rw [pipeline, dif_neg (by norm_num [uT0, toyConf2])]
  norm_num [hend, hnc, hn0, MAXTREESIZE, run2_expand0]

theorem run2_expand1 :
    expandAndSimulate (toyGame2 5) toyEval uT1 TState.s1 1 = some (1/2, uT1e) := by
  norm_num [expandAndSimulate, buildNodelist, normalizeScores, dirichletNoise, expandLoop,
    findChild, newNode, alloc, modifyNode, setNode, nodeFromNaughty, childrenOf, setChildren,
    addChild, setHasChild, toyGame2, toyGame, toyEval, toySample, uT0, uT1, uT1e,
    smallestNonzeroFloat32, mctsEpsilon, nilNode, List.range_succ, List.insertionSort,
    List.orderedInsert,
    (show Int.toNat 0 = 0 from rfl), (show Int.toNat 1 = 1 from rfl),
    (show Int.toNat 2 = 2 from rfl), (show Int.toNat 3 = 3 from rfl),
    (show Int.toNat 4 = 4 from rfl), (show Int.toNat 5 = 5 from rfl),
    List.getD_cons_zero, List.getD_cons_succ]

theorem run2_pipe2_inner :
    pipeline (toyGame2 5) toyEval sqrtTab uT1 TState.s1 1 1 = some (-(1/2), uT1e) := by
  have hend : (toyGame2 5).ended TState.s1 = (false, Color.noColor) := rfl
  have hn1 : (nodeFromNaughty uT1 1).hasChildren = false := rfl
  have hnc : uT1.nc = 0 := rfl
  rw [pipeline, dif_neg (by norm_num [uT1, uT0, toyConf2])]
  norm_num [hend, hnc, hn1, MAXTREESIZE, run2_expand1]

theorem run2_select : selectChild sqrtTab 0 uT1 0 = 1 := by
  norm_num +decide [selectChild, selLoop, usaScore, selParentVisits, childrenOf, nodeFromNaughty,
    uT1, uT0, sqrtTab, toyConf2, nilNode,
    (show Int.toNat 2 = 2 from rfl), List.getD_cons_zero, List.getD_cons_succ]

theorem run2_update1 :
    modifyNode uT1e 1 (fun N => N.updateScore (-(1/2))) = uT2 := by
  norm_num [modifyNode, setNode, nodeFromNaughty, Node.updateScore, uT1e, uT2, uT0]

theorem run2_pipe2 :
    pipeline (toyGame2 5) toyEval sqrtTab uT1 TState.s0 0 0 = some (1/2, uT2) := by
  have hend : (toyGame2 5).ended TState.s0 = (false, Color.noColor) := rfl
  have hn0 : (nodeFromNaughty uT1 0).hasChildren = true := rfl
  have hn1 : (nodeFromNaughty uT1 1).move = 0 := rfl
  have hnc : uT1.nc = 0 := rfl
  have hmv : (toyGame2 5).nnToMove TState.s0 0 = some 0 := rfl
  have hap : (toyGame2 5).apply TState.s0 0 = TState.s1 := rfl
  rw [pipeline, dif_neg (by norm_num [uT1, uT0, toyConf2])]
  norm_num [hend, hnc, hn0, hn1, hmv, hap, MAXTREESIZE, run2_select, nilNode,
    run2_pipe2_inner, run2_update1]

theorem run2_sims : runSims (toyGame2 5) toyEval sqrtTab 2 uT0 = some uT2 := by
  have hc0 : uT0.current = TState.s0 := rfl
  have hr0 : uT0.root = 0 := rfl
  have hc1 : uT1.current = TState.s0 := rfl
  have hr1 : uT1.root = 0 := rfl
  norm_num [runSims, hc0, hr0, hc1, hr1, run2_pipe1, run2_pipe2]

theorem run2_policies : updatePolicies (toyGame2 5) powTab uT2 = uT3 := by
  norm_num +decide [updatePolicies, childrenOf, nodeFromNaughty, modifyNode, setNode, powTab,
    uT2, uT3, uT1e, uT0, toyConf2, toyGame2, toyGame, List.replicate,
    (show Int.toNat 0 = 0 from rfl), (show Int.toNat 1 = 1 from rfl),
    (show Int.toNat 2 = 2 from rfl),
    List.getD_cons_zero, List.getD_cons_succ]

theorem run2_best : bestMove powTab uT3 5 0 = (0, uT3) := by
  norm_num +decide [bestMove, sampleChild, childrenOf, nodeFromNaughty, setChildren,
    uT3, uT2, uT1e, uT0, toyConf2, List.insertionSort, List.orderedInsert,
    (show Int.toNat 0 = 0 from rfl), (show Int.toNat 1 = 1 from rfl),
    (show Int.toNat 2 = 2 from rfl),
    List.getD_cons_zero, List.getD_cons_succ]

theorem run2_search : toyRun2 = some (0, uFinal) := by
  have h1 : (mctsNew toyConf2 TState.s0 toySample).nodes.length + 1 = 1 := rfl
  have h2 : uT0.freeables = [] := rfl
  have h3 : uT0.conf.numSimulation = 2 := rfl
  have h4 : uT2.root = 0 := rfl
  have h5 : (nodeFromNaughty uT2 0).hasChildren = true := rfl
  have h6 : uT3.current = TState.s0 := rfl
  have h7 : (toyGame2 5).moveNumber TState.s0 = 5 := rfl
  have h8 : (toyGame2 5).nnToMove TState.s0 0 = some 0 := rfl
  have h9 : uFinal = { uT3 with prev := some TState.s0 } := rfl
  norm_num [toyRun2, mctsSearch, h1, run2_updateRoot, h2, h3, run2_sims, h4, h5,
    run2_policies, h6, h7, run2_best, h8, h9, (show Int.toNat 2 = 2 from rfl)]



/-- C4 counterexample: after the completed two-simulation search on
the toy game, node 1 is a non-root expanded node with `visits = 2`
whose three active children (each born with one visit) have visit sum
3 > 2, so `sum of visits of active children ≤ visits(n)` fails, and so
does `visits(parent) ≥ 1 + sum of visits of active children`. -/
theorem claim_C4_counterexample :
    toyRun = some (0, rFinal) ∧
    rFinal.root = 0 ∧
    (nodeFromNaughty rFinal 1).hasChildren = true ∧
    (nodeFromNaughty rFinal 1).visits = 2 ∧
    activeChildVisitSum rFinal 1 = 3 ∧
    ¬ activeChildVisitSum rFinal 1 ≤ ((nodeFromNaughty rFinal 1).visits : Int) := by
  refine ⟨run1_search, rfl, rfl, rfl, ?_, ?_⟩ <;>
    norm_num +decide [activeChildVisitSum, childrenOf, nodeFromNaughty,
      rFinal, rT3, rT2, rT1e, rT0,
      (show Int.toNat 2 = 2 from rfl), (show Int.toNat 3 = 3 from rfl),
      (show Int.toNat 4 = 4 from rfl), List.getD_cons_zero, List.getD_cons_succ]

/-- C5 counterexample: in the completed toy search the non-root node 1
was expanded and its child (node 2) carries the Dirichlet-perturbed
prior `(1-1/4)*(3/5) + (1/4)*(1/3) = 8/15`, not the plain normalized
prior `3/5` the claim requires away from the root; moreover the
search leaves the construction-time noise vector unchanged (no fresh
sample per search). -/
theorem claim_C5_counterexample :
    toyRun = some (0, rFinal) ∧
    rFinal.root = 0 ∧
    (2 : Int) ∈ childrenOf rFinal 1 ∧
    (nodeFromNaughty rFinal 2).psa =
      (1 - mctsEpsilon) * (3/5) + mctsEpsilon * (1/3) ∧
    (nodeFromNaughty rFinal 2).psa ≠ 3/5 ∧
    rFinal.dirichletSample = toySample := by
  refine ⟨run1_search, rfl, ?_, ?_, ?_, rfl⟩ <;>
    norm_num +decide [childrenOf, nodeFromNaughty, mctsEpsilon,
      rFinal, rT3, rT2, rT1e, rT0,
      (show Int.toNat 2 = 2 from rfl), List.getD_cons_zero, List.getD_cons_succ]

/-- C7 counterexample: a completed search (two-legal-move game, root
move number 5 at or above `random_count = 0`, temperature 1/2) whose
root has valid children produces the improved policy `[2/5, 1/5, 0]`,
which sums to 3/5 — off from 1 by far more than 1e-5, because the
denominator uses exponent `1/random_temperature` while the numerator
uses `1/temp` with `temp = 1` in this regime. -/
theorem claim_C7_counterexample :
    toyRun2 = some (0, uFinal) ∧
    uFinal.conf.randomTemperature > 0 ∧
    (1 : Int) ∈ childrenOf uFinal uFinal.root ∧
    (nodeFromNaughty uFinal 1).status = .active ∧
    uFinal.policies = some [2/5, 1/5, 0] ∧
    ¬ |([2/5, 1/5, 0] : List ℚ).sum - 1| ≤ 1/100000 := by
  refine ⟨run2_search, by norm_num [uFinal, uT3, uT2, uT1e, uT0, toyConf2], ?_, rfl, rfl, ?_⟩
  · norm_num +decide [childrenOf, nodeFromNaughty, uFinal, uT3, uT2, uT1e, uT0,
      List.getD_cons_zero, List.getD_cons_succ]
  · rw [not_le]
    norm_num
    rw [abs_of_pos (by norm_num)]
    norm_num


theorem getD_set_ne {α : Type} (l : List α) (i j : ℕ) (a d : α) (hij : i ≠ j) :
    (l.set i a).getD j d = l.getD j d := by
  rw [List.getD_eq_getElem?_getD, List.getD_eq_getElem?_getD,
    List.getElem?_set_ne (by omega)]

theorem getD_append_len {α : Type} (l : List α) (a d : α) :
    (l ++ [a]).getD l.length d = a := by
  rw [List.getD_eq_getElem?_getD, List.getElem?_append_right (le_refl _)]
  simp

theorem sum_map_set {α : Type} (f : α → ℕ) :
    ∀ (l : List α) (i : ℕ) (a : α), i < l.length →
      ((l.set i a).map f).sum + f (l.getD i a) = (l.map f).sum + f a := by
  intro l
  induction l with
  | nil => intro i a h; simp at h
  | cons x xs ih =>
      intro i a h
      cases i with
      | zero => simp [List.set]; omega
      | succ j =>
          have hj : j < xs.length := by simpa using h
          have := ih j a hj
          simp only [List.set, List.map_cons, List.sum_cons, List.getD_cons_succ]
          omega

theorem parentCount_modifyNode (t : MCTS σ) (h : Int) (f : Node → Node) (c : Int) :
    parentCount (modifyNode t h f) c = parentCount t c := rfl

theorem childrenOf_modifyNode (t : MCTS σ) (h : Int) (f : Node → Node) (x : Int) :
    childrenOf (modifyNode t h f) x = childrenOf t x := rfl

theorem nodeFromNaughty_modifyNode_ne (t : MCTS σ) (h : Int) (f : Node → Node)
    (x : Int) (hx : x.toNat ≠ h.toNat) :
    nodeFromNaughty (modifyNode t h f) x = nodeFromNaughty t x := by
  simp only [nodeFromNaughty, modifyNode, setNode]
  exact getD_set_ne _ _ _ _ _ (fun e => hx e.symm)

theorem nodeFromNaughty_modifyNode_self (t : MCTS σ) (h : Int) (f : Node → Node)
    (hh : h.toNat < t.nodes.length) :
    nodeFromNaughty (modifyNode t h f) h = f (nodeFromNaughty t h) := by
  simp only [nodeFromNaughty, modifyNode, setNode]
  rw [List.getD_eq_getElem?_getD, List.getElem?_set_self hh]
  simp

theorem childrenOf_setChildren_ne (t : MCTS σ) (h : Int) (l : List Int)
    (x : Int) (hx : x.toNat ≠ h.toNat) :
    childrenOf (setChildren t h l) x = childrenOf t x := by
  simp only [childrenOf, setChildren]
  exact getD_set_ne _ _ _ _ _ (fun e => hx e.symm)

theorem childrenOf_setChildren_self (t : MCTS σ) (h : Int) (l : List Int)
    (hh : h.toNat < t.children.length) :
    childrenOf (setChildren t h l) h = l := by
  simp only [childrenOf, setChildren]
  rw [List.getD_eq_getElem?_getD, List.getElem?_set_self hh]
  simp

theorem nodeFromNaughty_setChildren (t : MCTS σ) (h : Int) (l : List Int) (x : Int) :
    nodeFromNaughty (setChildren t h l) x = nodeFromNaughty t x := rfl

theorem record_hasChildren_collapse (n : Node) (b1 b2 : Bool) :
    ({ ({ n with hasChildren := b1 } : Node) with hasChildren := b2 } : Node) =
      { n with hasChildren := b2 } := rfl

theorem exists_count_pos (ls : List (List Int)) (c : Int)
    (h : (ls.map (fun s => s.count c)).sum ≠ 0) :
    ∃ i : ℕ, i < ls.length ∧ c ∈ ls.getD i [] := by
  induction ls with
  | nil => simp at h
  | cons x xs ih =>
      by_cases hx : x.count c = 0
      · simp only [List.map_cons, List.sum_cons, hx, Nat.zero_add] at h
        obtain ⟨i, hi, hm⟩ := ih h
        exact ⟨i + 1, by simpa using hi, by simpa using hm⟩
      · refine ⟨0, by simp, ?_⟩
        simpa using List.count_pos_iff.mp (Nat.pos_of_ne_zero hx)

theorem parentCount_eq_zero (t : MCTS σ)
    (hedge : ∀ p c : Int, c ∈ childrenOf t p → c.toNat < t.nodes.length)
    (hch : t.children.length = t.nodes.length)
    (c : Int) (hc : t.nodes.length ≤ c.toNat) : parentCount t c = 0 := by
  by_contra h
  obtain ⟨i, hi, hm⟩ := exists_count_pos t.children c h
  have : c ∈ childrenOf t (i : Int) := by
    simpa [childrenOf, Int.toNat_natCast] using hm
  have := hedge _ _ this
  omega

theorem expandSpec_refl (t : MCTS σ) (parent : Int) (l : List MPair)
    (hedge : ∀ p c : Int, c ∈ childrenOf t p → c.toNat < t.nodes.length)
    (hch : t.children.length = t.nodes.length) :
    ExpandSpec t t parent l := by
  refine ⟨rfl, rfl, rfl, rfl, rfl, rfl, rfl, rfl, rfl, le_refl _, hch,
    fun _ _ _ => rfl, ⟨(nodeFromNaughty t parent).hasChildren, rfl⟩,
    fun _ _ _ => rfl, ⟨[], by simp, by simp⟩, ?_, fun _ _ => rfl, ?_, ?_⟩
  · intro p h1 h2
    omega
  · intro c hc
    rw [parentCount_eq_zero t hedge hch c hc]
    omega
  · intro p c hcm
    exact ⟨lt_of_lt_of_le (hedge p c hcm) (le_refl _), Or.inl hcm⟩

theorem expandSpec_mono (t t' : MCTS σ) (parent : Int) (l l' : List MPair)
    (hsub : ∀ q ∈ l, q ∈ l')
    (hs : ExpandSpec t t' parent l) : ExpandSpec t t' parent l' := by
  refine ⟨hs.freelist_eq, hs.conf_eq, hs.root_eq, hs.current_eq, hs.prev_eq,
    hs.sample_eq, hs.policies_eq, hs.nc_eq, hs.freeables_eq, hs.len_le, hs.chlen,
    hs.old_nodes, hs.parent_node, hs.old_children, hs.parent_children, ?_,
    hs.pcount_old, hs.pcount_fresh, hs.edges_sub⟩
  intro p h1 h2
  obtain ⟨⟨q, hq, hrec⟩, hch2⟩ := hs.fresh_nodes p h1 h2
  exact ⟨⟨q, hsub q hq, hrec⟩, hch2⟩

theorem expandSpec_trans (t t1 t2 : MCTS σ) (parent : Int) (l : List MPair)
    (hparent : parent.toNat < t.nodes.length)
    (h1 : ExpandSpec t t1 parent l) (h2 : ExpandSpec t1 t2 parent l) :
    ExpandSpec t t2 parent l := by
  refine ⟨h2.freelist_eq.trans h1.freelist_eq, h2.conf_eq.trans h1.conf_eq,
    h2.root_eq.trans h1.root_eq, h2.current_eq.trans h1.current_eq,
    h2.prev_eq.trans h1.prev_eq, h2.sample_eq.trans h1.sample_eq,
    h2.policies_eq.trans h1.policies_eq, h2.nc_eq.trans h1.nc_eq,
    h2.freeables_eq.trans h1.freeables_eq, le_trans h1.len_le h2.len_le,
    h2.chlen, ?_, ?_, ?_, ?_, ?_, ?_, ?_, ?_⟩
  · intro p hp hpp
    rw [h2.old_nodes p (lt_of_lt_of_le hp h1.len_le) hpp, h1.old_nodes p hp hpp]
  · obtain ⟨b1, hb1⟩ := h1.parent_node
    obtain ⟨b2, hb2⟩ := h2.parent_node
    exact ⟨b2, by rw [hb2, hb1, record_hasChildren_collapse]⟩
  · intro p hp hpp
    rw [h2.old_children p (lt_of_lt_of_le hp h1.len_le) hpp, h1.old_children p hp hpp]
  · obtain ⟨e1, he1, hb1⟩ := h1.parent_children
    obtain ⟨e2, he2, hb2⟩ := h2.parent_children
    refine ⟨e1 ++ e2, by rw [he2, he1, List.append_assoc], ?_⟩
    intro e he
    rcases List.mem_append.mp he with he | he
    · obtain ⟨ha, hb, hc⟩ := hb1 e he
      exact ⟨ha, hb, lt_of_lt_of_le hc h2.len_le⟩
    · obtain ⟨ha, hb, hc⟩ := hb2 e he
      exact ⟨ha, le_trans h1.len_le hb, hc⟩
  · intro p hp1 hp2
    by_cases hcase : p < t1.nodes.length
    · have hpar : p ≠ parent.toNat := by omega
      constructor
      · obtain ⟨⟨q, hq, hrec⟩, _⟩ := h1.fresh_nodes p hp1 hcase
        exact ⟨q, hq, by rw [h2.old_nodes p hcase hpar, hrec]⟩
      · rw [h2.old_children p hcase hpar]
        exact (h1.fresh_nodes p hp1 hcase).2
    · exact h2.fresh_nodes p (by omega) hp2
  · intro c hc
    rw [h2.pcount_old c (lt_of_lt_of_le hc h1.len_le), h1.pcount_old c hc]
  · intro c hc
    by_cases hcase : c.toNat < t1.nodes.length
    · rw [h2.pcount_old c hcase]
      exact h1.pcount_fresh c hc
    · exact h2.pcount_fresh c (by omega)
  · intro p c hcm
    obtain ⟨hbound, hdisj⟩ := h2.edges_sub p c hcm
    refine ⟨hbound, ?_⟩
    rcases hdisj with hmem | ⟨hpp, hc0, hcl⟩
    · obtain ⟨_, hdisj1⟩ := h1.edges_sub p c hmem
      exact hdisj1
    · exact Or.inr ⟨hpp, hc0, le_trans h1.len_le hcl⟩

theorem expandStep_eq (t : MCTS σ) (q : MPair) (parent : Int)
    (hfree : t.freelist = []) (hp : parent.toNat < t.nodes.length)
    (hch : t.children.length = t.nodes.length) :
    setHasChild (addChild (newNode t q.move q.score).1 parent
        (newNode t q.move q.score).2) parent true =
      { t with
        nodes := ((t.nodes ++ [({} : Node)]).set t.nodes.length
            { move := q.move, visits := 1, status := .active, qsa := 0,
              hasChildren := false, psa := q.score, pi := 0 }).set parent.toNat
            { nodeFromNaughty t parent with hasChildren := true },
        children := (t.children ++ [[]]).set parent.toNat
            (childrenOf t parent ++ [(t.nodes.length : Int)]) } := by
  have hgl : t.freelist.getLast? = none := by rw [hfree]; rfl
  have hA : newNode t q.move q.score =
      ({ t with
          nodes := (t.nodes ++ [({} : Node)]).set t.nodes.length
            { move := q.move, visits := 1, status := .active, qsa := 0,
              hasChildren := false, psa := q.score, pi := 0 },
          children := t.children ++ [[]] },
        (t.nodes.length : Int)) := by
    simp only [newNode, alloc, hgl, modifyNode, setNode, nodeFromNaughty,
      Int.toNat_natCast]
    rw [getD_append_len]
  rw [hA]
  have hcA : childrenOf (({ t with
      nodes := (t.nodes ++ [({} : Node)]).set t.nodes.length
        { move := q.move, visits := 1, status := .active, qsa := 0,
          hasChildren := false, psa := q.score, pi := 0 },
      children := t.children ++ [[]] } : MCTS σ)) parent = childrenOf t parent := by
    simp only [childrenOf]
    exact List.getD_append _ _ _ _ (by omega)
  simp only [addChild, setChildren, setHasChild, modifyNode, setNode,
    nodeFromNaughty, hcA]
  have hnB : ((t.nodes ++ [({} : Node)]).set t.nodes.length
      { move := q.move, visits := 1, status := .active, qsa := 0,
        hasChildren := false, psa := q.score, pi := 0 }).getD parent.toNat {} =
      nodeFromNaughty t parent := by
    rw [getD_set_ne _ _ _ _ _ (by omega), nodeFromNaughty]
    exact List.getD_append _ _ _ _ (by omega)
  rw [hnB]
  rfl

theorem expandStep_spec (t : MCTS σ) (q : MPair) (parent : Int)
    (hfree : t.freelist = []) (hp0 : 0 ≤ parent)
    (hp : parent.toNat < t.nodes.length)
    (hch : t.children.length = t.nodes.length)
    (hedge : ∀ p c : Int, c ∈ childrenOf t p → c.toNat < t.nodes.length) :
    ExpandSpec t
      (setHasChild (addChild (newNode t q.move q.score).1 parent
        (newNode t q.move q.score).2) parent true) parent [q] := by
  rw [expandStep_eq t q parent hfree hp hch]
  set L := t.nodes.length with hL
  set mkN : Node :=
    { move := q.move, visits := 1, status := .active, qsa := 0,
      hasChildren := false, psa := q.score, pi := 0 } with hmk
  set parN : Node := { nodeFromNaughty t parent with hasChildren := true } with hpn
  set t3 : MCTS σ :=
    { t with
      nodes := ((t.nodes ++ [({} : Node)]).set L mkN).set parent.toNat parN,
      children := (t.children ++ [[]]).set parent.toNat
        (childrenOf t parent ++ [(L : Int)]) } with ht3
  have hlen3 : t3.nodes.length = L + 1 := by simp [ht3]
  have hclen3 : t3.children.length = L + 1 := by simp [ht3, hch]
  have hnode_old : ∀ p : ℕ, p < L → p ≠ parent.toNat →
      nodeFromNaughty t3 (p : Int) = nodeFromNaughty t (p : Int) := by
    intro p hpl hpp
    simp only [ht3, nodeFromNaughty, Int.toNat_natCast]
    rw [getD_set_ne _ _ _ _ _ (fun e => hpp e.symm),
      getD_set_ne _ _ _ _ _ (by omega)]
    exact List.getD_append _ _ _ _ (by omega)
  have hnode_parent : nodeFromNaughty t3 parent = parN := by
    simp only [ht3, nodeFromNaughty]
    rw [List.getD_eq_getElem?_getD, List.getElem?_set_self (by simp; omega)]
    simp
  have hnode_fresh : nodeFromNaughty t3 (L : Int) = mkN := by
    simp only [ht3, nodeFromNaughty, Int.toNat_natCast]
    rw [getD_set_ne _ _ _ _ _ (by omega), List.getD_eq_getElem?_getD,
      List.getElem?_set_self (by simp)]
    simp
  have hch_old : ∀ p : ℕ, p < L → p ≠ parent.toNat →
      childrenOf t3 (p : Int) = childrenOf t (p : Int) := by
    intro p hpl hpp
    simp only [ht3, childrenOf, Int.toNat_natCast]
    rw [getD_set_ne _ _ _ _ _ (fun e => hpp e.symm)]
    exact List.getD_append _ _ _ _ (by omega)
  have hch_parent : childrenOf t3 parent = childrenOf t parent ++ [(L : Int)] := by
    simp only [ht3, childrenOf]
    rw [List.getD_eq_getElem?_getD, List.getElem?_set_self (by simp; omega)]
    simp
  have hch_fresh : childrenOf t3 (L : Int) = [] := by
    simp only [ht3, childrenOf, Int.toNat_natCast]
    rw [getD_set_ne _ _ _ _ _ (by omega), ← hch]
    exact getD_append_len _ _ _
  have hLne : ∀ c : Int, c.toNat < L → c ≠ (L : Int) := by
    intro c hc hceq
    rw [hceq, Int.toNat_natCast] at hc
    exact absurd hc (lt_irrefl L)
  have hpcount : ∀ c : Int, parentCount t3 c =
      parentCount t c + [(L : Int)].count c := by
    intro c
    have hplt : parent.toNat < (t.children ++ [[]]).length := by simp; omega
    have hsum := sum_map_set (fun s : List Int => s.count c)
      (t.children ++ [[]]) parent.toNat
      (childrenOf t parent ++ [(L : Int)]) hplt
    simp only at hsum
    have hgetD : (t.children ++ [[]]).getD parent.toNat
        (childrenOf t parent ++ [(L : Int)]) = childrenOf t parent := by
      rw [List.getD_eq_getElem?_getD, List.getElem?_append_left (by omega)]
      simp only [childrenOf, List.getD_eq_getElem?_getD]
      rw [List.getElem?_eq_getElem (by omega)]
      rfl
    rw [hgetD] at hsum
    have hmap : ((t.children ++ [[]]).map (fun s : List Int => s.count c)).sum =
        parentCount t c := by
      simp [parentCount]
    rw [hmap] at hsum
    have : parentCount t3 c = (((t.children ++ [[]]).set parent.toNat
        (childrenOf t parent ++ [(L : Int)])).map
          (fun s : List Int => s.count c)).sum := by
      simp [parentCount, ht3]
    rw [this]
    have hcnt : (childrenOf t parent ++ [(L : Int)]).count c =
        (childrenOf t parent).count c + [(L : Int)].count c := by
      simp [List.count_append]
    have hcpar : (childrenOf t parent).count c ≤ parentCount t c := by
      have : childrenOf t parent = t.children.getD parent.toNat [] := rfl
      rw [this, List.getD_eq_getElem?_getD, List.getElem?_eq_getElem (by omega)]
      have hmem : t.children[parent.toNat] ∈ t.children :=
        List.getElem_mem _
      simp only [Option.getD_some]
      unfold parentCount
      exact List.le_sum_of_mem (List.mem_map_of_mem _ hmem)
    omega
  refine ⟨?_, rfl, rfl, rfl, rfl, rfl, rfl, rfl, rfl, ?_, ?_, hnode_old, ⟨true, hnode_parent⟩,
    hch_old, ⟨[(L : Int)], hch_parent, ?_⟩, ?_, ?_, ?_, ?_⟩
  · simp [ht3]
  · omega
  · omega
  · intro e he
    simp only [List.mem_singleton] at he
    subst he
    refine ⟨by positivity, by simp, by omega⟩
  · intro p hp1 hp2
    have hpL : p = L := by omega
    subst hpL
    constructor
    · exact ⟨q, List.mem_singleton_self q, hnode_fresh⟩
    · exact hch_fresh
  · intro c hc
    rw [hpcount c]
    have : [(L : Int)].count c = 0 := by
      simp [List.count_singleton]
      intro hceq
      exact absurd hceq.symm (hLne c hc)
    omega
  · intro c hc
    rw [hpcount c]
    have hz : parentCount t c = 0 := parentCount_eq_zero t hedge hch c hc
    have : [(L : Int)].count c ≤ 1 := by
      simp [List.count_singleton]
      split <;> omega
    omega
  · intro p c hcm
    by_cases hpp : p.toNat = parent.toNat
    · have : childrenOf t3 p = childrenOf t3 parent := by
        simp only [childrenOf, hpp]
      rw [this, hch_parent] at hcm
      rcases List.mem_append.mp hcm with hmem | hmem
      · have hb := hedge parent c (by simpa [childrenOf] using hmem)
        refine ⟨by omega, Or.inl ?_⟩
        simpa [childrenOf, hpp] using hmem
      · simp only [List.mem_singleton] at hmem
        subst hmem
        refine ⟨by rw [Int.toNat_natCast, hlen3]; omega, Or.inr ⟨hpp, by positivity, by simp⟩⟩
    · by_cases hpl : p.toNat < L
      · have : childrenOf t3 p = childrenOf t p := by
          have h1 : childrenOf t3 p = childrenOf t3 ((p.toNat : ℕ) : Int) := rfl
          have h2 : childrenOf t p = childrenOf t ((p.toNat : ℕ) : Int) := rfl
          rw [h1, h2, hch_old p.toNat hpl hpp]
        rw [this] at hcm
        exact ⟨by have := hedge p c hcm; omega, Or.inl hcm⟩
      · have hemp : childrenOf t3 p = [] := by
          by_cases hpL2 : p.toNat = L
          · have : childrenOf t3 p = childrenOf t3 ((p.toNat : ℕ) : Int) := rfl
            rw [this, hpL2, hch_fresh]
          · simp only [ht3, childrenOf]
            rw [getD_set_ne _ _ _ _ _ (fun e => hpp e.symm)]
            apply List.getD_eq_default
            simp
            omega
        rw [hemp] at hcm
        simp at hcm

theorem expandLoop_spec (parent : Int) :
    ∀ (l : List MPair) (t : MCTS σ),
      t.freelist = [] → 0 ≤ parent → parent.toNat < t.nodes.length →
      t.children.length = t.nodes.length →
      (∀ p c : Int, c ∈ childrenOf t p → c.toNat < t.nodes.length) →
      ExpandSpec t (expandLoop parent l t) parent l := by
  intro l
  induction l with
  | nil =>
      intro t h1 h2 h3 h4 h5
      exact expandSpec_refl t parent [] h5 h4
  | cons q rest ih =>
      intro t h1 h2 h3 h4 h5
      by_cases hfc : findChild t parent q.move = nilNode
      · have hstep := expandStep_spec t q parent h1 h2 h3 h4 h5
        rcases hnn : newNode t q.move q.score with ⟨tA, nn⟩
        rw [hnn] at hstep
        set T3 := setHasChild (addChild tA parent nn) parent true with hT3
        have hstep2 : ExpandSpec t T3 parent [q] := hstep
        have heq : expandLoop parent (q :: rest) t = expandLoop parent rest T3 := by
          conv_lhs => rw [expandLoop]
          rw [if_pos hfc, hnn]
        rw [heq]
        have hih := ih T3 (hstep2.freelist_eq.trans h1) h2
          (lt_of_lt_of_le h3 hstep2.len_le) hstep2.chlen
          (fun p c hc => (hstep2.edges_sub p c hc).1)
        exact expandSpec_trans t T3 (expandLoop parent rest T3) parent (q :: rest) h3
          (expandSpec_mono t T3 parent [q] (q :: rest)
            (by intro x hx; simp at hx; simp [hx]) hstep2)
          (expandSpec_mono T3 (expandLoop parent rest T3) parent rest (q :: rest)
            (by intro x hx; simp [hx]) hih)
      · have heq : expandLoop parent (q :: rest) t = expandLoop parent rest t := by
          conv_lhs => rw [expandLoop]
          rw [if_neg hfc]
        rw [heq]
        exact expandSpec_mono t (expandLoop parent rest t) parent rest (q :: rest)
          (by intro x hx; simp [hx]) (ih t h1 h2 h3 h4 h5)

theorem expandAndSimulate_cases (G : GameRules σ μ) (nn : Evaluator σ)
    (t : MCTS σ) (state : σ) (parent : Int) (v : ℚ) (t' : MCTS σ)
    (h : expandAndSimulate G nn t state parent = some (v, t')) :
    t' = t ∨
    ∃ nl s, buildNodelist G state (nn state).1 (List.range G.actionSpace) =
        some (nl, s) ∧
      (nn state).2 = some v ∧
      t' = expandLoop parent
        (List.insertionSort (fun a b : MPair => a.score ≥ b.score)
          (normalizeScores t nl s)) t := by
  rcases hnn : nn state with ⟨policy, value?⟩
  rw [expandAndSimulate, hnn] at h
  cases value? with
  | none =>
      simp only [Option.some.injEq, Prod.mk.injEq] at h
      exact Or.inl h.2.symm
  | some value =>
      simp only at h
      cases hb : buildNodelist G state policy (List.range G.actionSpace) with
      | none => rw [hb] at h; simp at h
      | some nls =>
          obtain ⟨nl, s⟩ := nls
          rw [hb] at h
          simp only at h
          by_cases hlen : (normalizeScores t nl s).length = 0
          · rw [if_pos hlen] at h
            simp only [Option.some.injEq, Prod.mk.injEq] at h
            exact Or.inl h.2.symm
          · rw [if_neg hlen] at h
            simp only [Option.some.injEq, Prod.mk.injEq] at h
            refine Or.inr ⟨nl, s, ?_, ?_, h.2.symm⟩
            · simp [hnn, hb]
            · simp [hnn, h.1]

theorem expandAndSimulate_spec (G : GameRules σ μ) (nn : Evaluator σ)
    (t : MCTS σ) (state : σ) (parent : Int) (v : ℚ) (t' : MCTS σ)
    (hfree : t.freelist = []) (hp0 : 0 ≤ parent)
    (hp : parent.toNat < t.nodes.length)
    (hch : t.children.length = t.nodes.length)
    (hedge : ∀ p c : Int, c ∈ childrenOf t p → c.toNat < t.nodes.length)
    (h : expandAndSimulate G nn t state parent = some (v, t')) :
    ∃ l, ExpandSpec t t' parent l := by
  rcases expandAndSimulate_cases G nn t state parent v t' h with heq | ⟨nl, s, _, _, heq⟩
  · exact ⟨[], heq ▸ expandSpec_refl t parent [] hedge hch⟩
  · exact ⟨_, heq ▸ expandLoop_spec parent _ t hfree hp0 hp hch hedge⟩

theorem count_le_parentCount (t : MCTS σ) (c : Int) (i : ℕ)
    (hi : i < t.children.length) :
    (childrenOf t (i : Int)).count c ≤ parentCount t c := by
  have h1 : childrenOf t (i : Int) = t.children.getD i [] := by
    simp [childrenOf, Int.toNat_natCast]
  rw [h1, List.getD_eq_getElem?_getD, List.getElem?_eq_getElem hi]
  simp only [Option.getD_some]
  unfold parentCount
  exact List.le_sum_of_mem (List.mem_map_of_mem _ (List.getElem_mem _))

theorem pcount_two_indices (t : MCTS σ) (c : Int) (i j : ℕ)
    (hi : i < t.children.length) (hj : j < t.children.length) (hij : i ≠ j)
    (hmi : c ∈ childrenOf t (i : Int)) (hmj : c ∈ childrenOf t (j : Int)) :
    2 ≤ parentCount t c := by
  have hgi : childrenOf t (i : Int) = t.children.getD i [] := by
    simp [childrenOf, Int.toNat_natCast]
  have hgj : childrenOf t (j : Int) = t.children.getD j [] := by
    simp [childrenOf, Int.toNat_natCast]
  have hsum := sum_map_set (fun s : List Int => s.count c) t.children i [] hi
  simp only at hsum
  have hci : 1 ≤ (t.children.getD i []).count c := by
    rw [← hgi]
    exact List.one_le_count_iff.mpr hmi
  have hcj : 1 ≤ ((t.children.set i []).getD j []).count c := by
    rw [List.getD_eq_getElem?_getD, List.getElem?_set_ne (by omega),
      ← List.getD_eq_getElem?_getD, ← hgj]
    exact List.one_le_count_iff.mpr hmj
  have hmem : ((t.children.set i []).getD j []).count c ≤
      ((t.children.set i []).map (fun s : List Int => s.count c)).sum := by
    rw [List.getD_eq_getElem?_getD, List.getElem?_eq_getElem (by simpa using hj)]
    simp only [Option.getD_some]
    exact List.le_sum_of_mem (List.mem_map_of_mem _ (List.getElem_mem _))
  have hnil : (([] : List Int).count c) = 0 := rfl
  unfold parentCount
  omega

theorem pipeSpec_refl (t : MCTS σ) (start : Int) (hwf : WF t) :
    PipeSpec t t start := by
  refine ⟨hwf.free_nil, rfl, rfl, rfl, rfl, rfl, rfl, rfl, rfl, le_refl _, hwf.chlen,
    ?_, hwf.one_parent, fun _ _ => rfl, ?_, ?_, ?_, ?_⟩
  · intro p c hc
    obtain ⟨h1, h2, h3⟩ := hwf.edges_lt p c hc
    exact ⟨h1, h2, h3⟩
  · intro p _
    exact ⟨[], by simp, by simp⟩
  · intro p _ _
    exact min_le_left _ _
  · have := min_le_left (slack t start) 0
    omega
  · intro p h1 h2
    omega

theorem sum_extra_congr (g1 g2 : Int → Int) (l : List Int)
    (h : ∀ e ∈ l, g2 e = g1 e) : (l.map g2).sum = (l.map g1).sum := by
  rw [List.map_congr_left h]

theorem sum_extra_zero (g : Int → Int) (l : List Int)
    (h : ∀ e ∈ l, g e = 0) : (l.map g).sum = 0 := by
  induction l with
  | nil => simp
  | cons x xs ih =>
      simp only [List.map_cons, List.sum_cons, h x (by simp)]
      rw [ih (fun e he => h e (by simp [he]))]
      simp

theorem sum_map_le_of_pointwise (g1 g2 : Int → Int) (next : Int) (l : List Int)
    (hne : ∀ e ∈ l, e ≠ next → g2 e = g1 e) (hnext : g2 next ≤ g1 next + 1) :
    (l.map g2).sum ≤ (l.map g1).sum + (l.count next : Int) := by
  induction l with
  | nil => simp
  | cons x xs ih =>
      have hxs := ih (fun e he hne2 => hne e (by simp [he]) hne2)
      by_cases hx : x = next
      · subst hx
        simp only [List.map_cons, List.sum_cons, List.count_cons_self]
        push_cast
        omega
      · have := hne x (by simp) hx
        simp only [List.map_cons, List.sum_cons, List.count_cons_of_ne (Ne.symm hx)]
        omega

theorem activeExtra_eq_of_sv (t1 t2 : MCTS σ) (p : Int)
    (hch : childrenOf t2 p = childrenOf t1 p)
    (h : ∀ e ∈ childrenOf t1 p,
      (nodeFromNaughty t2 e).status = (nodeFromNaughty t1 e).status ∧
      (nodeFromNaughty t2 e).visits = (nodeFromNaughty t1 e).visits) :
    activeChildExtraVisits t2 p = activeChildExtraVisits t1 p := by
  unfold activeChildExtraVisits
  rw [hch]
  refine sum_extra_congr _ _ _ (fun e he => ?_)
  obtain ⟨h1, h2⟩ := h e he
  simp only [h1, h2]

theorem pipeSpec_of_expand (t t' : MCTS σ) (start : Int) (l : List MPair)
    (hwf : WF t) (hs0 : 0 ≤ start) (hslen : start.toNat < t.nodes.length)
    (hs : ExpandSpec t t' start l) : PipeSpec t t' start := by
  have hcast : ((start.toNat : ℕ) : Int) = start := Int.toNat_of_nonneg hs0
  have hpt : ∀ e : Int, 0 ≤ e → e.toNat < t.nodes.length →
      (nodeFromNaughty t' e).status = (nodeFromNaughty t e).status ∧
      (nodeFromNaughty t' e).visits = (nodeFromNaughty t e).visits := by
    intro e he0 helen
    by_cases hes : e.toNat = start.toNat
    · have heq : e = start := by omega
      subst heq
      obtain ⟨b, hb⟩ := hs.parent_node
      rw [hb]
      exact ⟨rfl, rfl⟩
    · have heq : e = ((e.toNat : ℕ) : Int) := by omega
      rw [heq, hs.old_nodes e.toNat helen hes]
      exact ⟨rfl, rfl⟩
  refine ⟨hs.freelist_eq ▸ hwf.free_nil, hs.conf_eq, hs.root_eq, hs.current_eq,
    hs.prev_eq, hs.sample_eq, hs.policies_eq, hs.nc_eq, hs.freeables_eq,
    hs.len_le, hs.chlen, ?_, ?_, ?_, ?_, ?_, ?_, ?_⟩
  · intro p c hc
    obtain ⟨hclen, hcase⟩ := hs.edges_sub p c hc
    rcases hcase with hold | ⟨hp, hc0, hcl⟩
    · obtain ⟨hpc, _, hc0⟩ := hwf.edges_lt p c hold
      exact ⟨hpc, hclen, hc0⟩
    · exact ⟨by omega, hclen, hc0⟩
  · intro c
    by_cases hc : c.toNat < t.nodes.length
    · rw [hs.pcount_old c hc]
      exact hwf.one_parent c
    · exact hs.pcount_fresh c (by omega)
  · intro p hp
    by_cases hps : p = start.toNat
    · subst hps
      rw [hcast]
      obtain ⟨b, hb⟩ := hs.parent_node
      rw [hb]
    · rw [hs.old_nodes p hp hps]
  · intro p hp
    by_cases hps : p = start.toNat
    · subst hps
      rw [hcast]
      obtain ⟨ext, hext, hbounds⟩ := hs.parent_children
      exact ⟨ext, hext, fun e he => (hbounds e he).2.1⟩
    · exact ⟨[], by simp [hs.old_children p hp hps], by simp⟩
  · intro p hp hps
    have heq : slack t' (p : Int) = slack t (p : Int) := by
      unfold slack
      rw [hs.old_nodes p hp hps,
        activeExtra_eq_of_sv t t' (p : Int) (hs.old_children p hp hps)
          (fun e he => by
            obtain ⟨_, helen, he0⟩ := hwf.edges_lt (p : Int) e he
            exact hpt e he0 helen)]
    rw [heq]
    exact min_le_left _ _
  · obtain ⟨b, hb⟩ := hs.parent_node
    obtain ⟨ext, hext, hbounds⟩ := hs.parent_children
    have hvis : (nodeFromNaughty t' start).visits = (nodeFromNaughty t start).visits := by
      rw [hb]
    have hold : ((childrenOf t start).map (fun kid =>
        let child := nodeFromNaughty t' kid
        if child.status = .active then (child.visits : Int) - 1 else 0)).sum =
        ((childrenOf t start).map (fun kid =>
        let child := nodeFromNaughty t kid
        if child.status = .active then (child.visits : Int) - 1 else 0)).sum := by
      refine sum_extra_congr _ _ _ (fun e he => ?_)
      obtain ⟨_, helen, he0⟩ := hwf.edges_lt start e he
      obtain ⟨h1, h2⟩ := hpt e he0 helen
      simp only [h1, h2]
    have hnew : (ext.map (fun kid =>
        let child := nodeFromNaughty t' kid
        if child.status = .active then (child.visits : Int) - 1 else 0)).sum = 0 := by
      refine sum_extra_zero _ _ (fun e he => ?_)
      obtain ⟨he0, helo, hehi⟩ := hbounds e he
      obtain ⟨⟨q, _, hrec⟩, _⟩ := hs.fresh_nodes e.toNat helo hehi
      have hec : ((e.toNat : ℕ) : Int) = e := Int.toNat_of_nonneg he0
      rw [hec] at hrec
      simp [hrec]
    have hslack : slack t' start = slack t start := by
      unfold slack activeChildExtraVisits
      rw [hvis, hext, List.map_append, List.sum_append, hold, hnew]
      ring
    have := min_le_left (slack t start) 0
    omega
  · intro p h1 h2
    obtain ⟨⟨q, _, hrec⟩, hch⟩ := hs.fresh_nodes p h1 h2
    rw [hrec]
    exact ⟨rfl, rfl, hch⟩

theorem selectChild_spec (sqrtFn : ℕ → ℚ) (fpu : ℚ) (t : MCTS σ) (h : Int)
    (hne : selectChild sqrtFn fpu t h ≠ nilNode) :
    selectChild sqrtFn fpu t h ∈ childrenOf t h ∧
    (nodeFromNaughty t (selectChild sqrtFn fpu t h)).status = .active := by
  have hdef : selectChild sqrtFn fpu t h =
      (selLoop t t.conf.puct fpu (sqrtFn (selParentVisits t h))
        (childrenOf t h) (nilNode, none)).1 := rfl
  rcases selLoop_from_none t t.conf.puct fpu (sqrtFn (selParentVisits t h))
      (childrenOf t h) nilNode with ⟨heq, _⟩ |
      ⟨b', l1, l2, heq, hsplit, hact, _, _⟩
  · exact absurd (by rw [hdef, heq]) hne
  · have hb : selectChild sqrtFn fpu t h = b' := by rw [hdef, heq]
    rw [hb, hsplit]
    exact ⟨by simp, hact⟩

theorem pipeSpec_update (t t1 : MCTS σ) (start next : Int) (v : ℚ)
    (hwf : WF t) (hs0 : 0 ≤ start) (hslen : start.toNat < t.nodes.length)
    (hmem : next ∈ childrenOf t start)
    (hIH : PipeSpec t t1 next) :
    PipeSpec t (modifyNode t1 next (fun N => N.updateScore v)) start := by
  obtain ⟨hsn, hnlen, hn0⟩ := hwf.edges_lt start next hmem
  have hscast : ((start.toNat : ℕ) : Int) = start := Int.toNat_of_nonneg hs0
  have hncast : ((next.toNat : ℕ) : Int) = next := Int.toNat_of_nonneg hn0
  have hnlen1 : next.toNat < t1.nodes.length := lt_of_lt_of_le hnlen hIH.len_le
  have hlen2 : (modifyNode t1 next (fun N => N.updateScore v)).nodes.length =
      t1.nodes.length := by
    simp [modifyNode, setNode]
  have hself : nodeFromNaughty (modifyNode t1 next (fun N => N.updateScore v)) next =
      (nodeFromNaughty t1 next).updateScore v :=
    nodeFromNaughty_modifyNode_self t1 next _ hnlen1
  have e1 : ∀ n : Node, (n.updateScore v).status = n.status := fun _ => rfl
  have e2 : ∀ n : Node, (n.updateScore v).visits = n.visits + 1 := fun _ => rfl
  have hptw : ∀ e ∈ childrenOf t1 next,
      (nodeFromNaughty (modifyNode t1 next (fun N => N.updateScore v)) e).status =
        (nodeFromNaughty t1 e).status ∧
      (nodeFromNaughty (modifyNode t1 next (fun N => N.updateScore v)) e).visits =
        (nodeFromNaughty t1 e).visits := by
    intro e he
    obtain ⟨hlt, _, he0⟩ := hIH.wf_edges next e he
    rw [nodeFromNaughty_modifyNode_ne t1 next _ e (by omega)]
    exact ⟨rfl, rfl⟩
  refine ⟨hIH.freelist_nil, hIH.conf_eq, hIH.root_eq, hIH.current_eq, hIH.prev_eq,
    hIH.sample_eq, hIH.policies_eq, hIH.nc_eq, hIH.freeables_eq,
    hlen2 ▸ hIH.len_le, ?_, ?_, ?_, ?_, ?_, ?_, ?_, ?_⟩
  · show t1.children.length = _
    rw [hlen2, hIH.chlen]
  · intro p c hc
    rw [childrenOf_modifyNode] at hc
    obtain ⟨h1, h2, h3⟩ := hIH.wf_edges p c hc
    rw [hlen2]
    exact ⟨h1, h2, h3⟩
  · intro c
    rw [parentCount_modifyNode]
    exact hIH.wf_pcount c
  · intro p hp
    by_cases hpn : p = next.toNat
    · subst hpn
      rw [hncast, hself, e1, ← hncast]
      exact hIH.status_old next.toNat hnlen
    · rw [nodeFromNaughty_modifyNode_ne t1 next _ _ (by simpa using hpn)]
      exact hIH.status_old p hp
  · intro p hp
    rw [childrenOf_modifyNode]
    exact hIH.children_mon p hp
  · intro p hp hps
    by_cases hpn : p = next.toNat
    · subst hpn
      rw [hncast]
      have hx : slack (modifyNode t1 next (fun N => N.updateScore v)) next =
          slack t1 next + 1 := by
        unfold slack
        rw [activeExtra_eq_of_sv t1 _ next (childrenOf_modifyNode t1 next _ next) hptw,
          hself, e2]
        push_cast
        ring
      have hss := hIH.slack_start
      omega
    · have hx : slack (modifyNode t1 next (fun N => N.updateScore v)) (p : Int) =
          slack t1 (p : Int) := by
        unfold slack
        rw [nodeFromNaughty_modifyNode_ne t1 next _ _ (by simpa using hpn),
          activeExtra_eq_of_sv t1 _ (p : Int) (childrenOf_modifyNode t1 next _ _)
            (fun e he => ?_)]
        obtain ⟨_, _, he0⟩ := hIH.wf_edges (p : Int) e he
        by_cases hen : e.toNat = next.toNat
        · exfalso
          have hen' : e = next := by omega
          subst hen'
          have hm1 : e ∈ childrenOf t1 ((p : ℕ) : Int) := he
          have hm2 : e ∈ childrenOf t1 ((start.toNat : ℕ) : Int) := by
            rw [hscast]
            obtain ⟨ext, hext, _⟩ := hIH.children_mon start.toNat hslen
            rw [hscast] at hext
            rw [hext]
            exact List.mem_append_left _ hmem
          have h2 := pcount_two_indices t1 e p start.toNat
            (by rw [hIH.chlen]; omega) (by rw [hIH.chlen]; omega) hps hm1 hm2
          have h3 := hIH.wf_pcount e
          omega
        · rw [nodeFromNaughty_modifyNode_ne t1 next _ e hen]
          exact ⟨rfl, rfl⟩
      rw [hx]
      exact hIH.slack_other p hp hpn
  · have hvs : (nodeFromNaughty (modifyNode t1 next (fun N => N.updateScore v)) start).visits =
        (nodeFromNaughty t1 start).visits := by
      rw [nodeFromNaughty_modifyNode_ne t1 next _ start (by omega)]
    have hcnt : ((childrenOf t1 start).count next : Int) ≤ 1 := by
      have h1 := count_le_parentCount t1 next start.toNat
        (by rw [hIH.chlen]; omega)
      rw [hscast] at h1
      have h2 := hIH.wf_pcount next
      exact_mod_cast le_trans h1 h2
    have harg1 : ∀ e ∈ childrenOf t1 start, e ≠ next →
        (fun kid =>
          let child := nodeFromNaughty (modifyNode t1 next (fun N => N.updateScore v)) kid
          if child.status = .active then (child.visits : Int) - 1 else 0) e =
        (fun kid =>
          let child := nodeFromNaughty t1 kid
          if child.status = .active then (child.visits : Int) - 1 else 0) e := by
      intro e he hene
      obtain ⟨_, _, he0⟩ := hIH.wf_edges start e he
      simp only [nodeFromNaughty_modifyNode_ne t1 next _ e
        (show e.toNat ≠ next.toNat by omega)]
    have harg2 : (fun kid =>
          let child := nodeFromNaughty (modifyNode t1 next (fun N => N.updateScore v)) kid
          if child.status = .active then (child.visits : Int) - 1 else 0) next ≤
        (fun kid =>
          let child := nodeFromNaughty t1 kid
          if child.status = .active then (child.visits : Int) - 1 else 0) next + 1 := by
      simp only [hself, e1, e2]
      by_cases hst : (nodeFromNaughty t1 next).status = .active
      · simp only [hst, if_pos rfl]
        push_cast
        omega
      · simp only [if_neg hst]
        omega
    have hbig : activeChildExtraVisits (modifyNode t1 next (fun N => N.updateScore v)) start ≤
        activeChildExtraVisits t1 start + 1 := by
      unfold activeChildExtraVisits
      rw [childrenOf_modifyNode]
      exact le_trans
        (sum_map_le_of_pointwise _ _ next (childrenOf t1 start) harg1 harg2)
        (add_le_add_left hcnt _)
    have hx : slack t1 start - 1 ≤
        slack (modifyNode t1 next (fun N => N.updateScore v)) start := by
      unfold slack
      rw [hvs]
      omega
    have hmin := hIH.slack_other start.toNat hslen (by omega)
    rw [hscast] at hmin
    omega
  · intro p h1 h2
    rw [hlen2] at h2
    obtain ⟨hv, hst, hch⟩ := hIH.fresh_ok p h1 h2
    rw [nodeFromNaughty_modifyNode_ne t1 next _ _ (by simp; omega),
      childrenOf_modifyNode]
    exact ⟨hv, hst, hch⟩

theorem pipeline_spec (G : GameRules σ μ) (nn : Evaluator σ) (sqrtFn : ℕ → ℚ)
    (t : MCTS σ) (hwf : WF t) :
    ∀ (fuel : ℕ) (current : σ) (start depth : Int) (v : ℚ) (t' : MCTS σ),
      (t.conf.maxDepth + 1 - depth).toNat ≤ fuel →
      0 ≤ start → start.toNat < t.nodes.length →
      pipeline G nn sqrtFn t current start depth = some (v, t') →
      PipeSpec t t' start := by
  intro fuel
  induction fuel with
  | zero =>
      intro current start depth v t' hfuel hs0 hslen hp
      rw [pipeline] at hp
      rw [dif_pos (by omega)] at hp
      simp only [Option.some.injEq, Prod.mk.injEq] at hp
      obtain ⟨-, rfl⟩ := hp
      exact pipeSpec_refl t start hwf
  | succ n ih =>
      intro current start depth v t' hfuel hs0 hslen hp
      rw [pipeline] at hp
      by_cases hd : depth + 1 > t.conf.maxDepth
      · rw [dif_pos hd] at hp
        simp only [Option.some.injEq, Prod.mk.injEq] at hp
        obtain ⟨-, rfl⟩ := hp
        exact pipeSpec_refl t start hwf
      · rw [dif_neg hd] at hp
        rcases hE : G.ended current with ⟨isEnded, winner⟩
        rw [hE] at hp
        simp only at hp
        by_cases hie : isEnded = true
        · rw [if_pos hie] at hp
          have ht' : t' = t := by
            split at hp
            · simp only [Option.some.injEq, Prod.mk.injEq] at hp
              exact hp.2.symm
            · split at hp <;>
                (simp only [Option.some.injEq, Prod.mk.injEq] at hp; exact hp.2.symm)
          rw [ht']
          exact pipeSpec_refl t start hwf
        · rw [if_neg hie] at hp
          by_cases hnc : t.nc ≥ MAXTREESIZE
          · rw [if_pos hnc] at hp
            simp only [Option.some.injEq, Prod.mk.injEq] at hp
            obtain ⟨-, rfl⟩ := hp
            exact pipeSpec_refl t start hwf
          · rw [if_neg hnc] at hp
            by_cases hch : ¬(nodeFromNaughty t start).hasChildren = true
            · rw [if_pos hch] at hp
              rcases hexp : expandAndSimulate G nn t current start with _ | ⟨value, t1⟩
              · rw [hexp] at hp
                exact Option.noConfusion hp
              · rw [hexp] at hp
                simp only [Option.some.injEq, Prod.mk.injEq] at hp
                obtain ⟨-, rfl⟩ := hp
                obtain ⟨l, hspec⟩ := expandAndSimulate_spec G nn t current start value t1
                  hwf.free_nil hs0 hslen hwf.chlen
                  (fun p c hc => (hwf.edges_lt p c hc).2.1) hexp
                exact pipeSpec_of_expand t t1 start l hwf hs0 hslen hspec
            · rw [if_neg hch] at hp
              by_cases hnil : selectChild sqrtFn 0 t start = nilNode
              · rw [if_pos hnil] at hp
                exact Option.noConfusion hp
              · rw [if_neg hnil] at hp
                rcases hmv : G.nnToMove current
                    (nodeFromNaughty t (selectChild sqrtFn 0 t start)).move with _ | move
                · rw [hmv] at hp
                  exact Option.noConfusion hp
                · rw [hmv] at hp
                  simp only at hp
                  rcases hrec : pipeline G nn sqrtFn t (G.apply current move)
                      (selectChild sqrtFn 0 t start) (depth + 1) with _ | ⟨v0, t1⟩
                  · rw [hrec] at hp
                    exact Option.noConfusion hp
                  · rw [hrec] at hp
                    simp only [Option.some.injEq, Prod.mk.injEq] at hp
                    obtain ⟨-, rfl⟩ := hp
                    obtain ⟨hmemS, -⟩ := selectChild_spec sqrtFn 0 t start hnil
                    obtain ⟨-, hlt, h0⟩ := hwf.edges_lt start _ hmemS
                    have hihspec := ih (G.apply current move)
                      (selectChild sqrtFn 0 t start) (depth + 1) v0 t1
                      (by omega) h0 hlt hrec
                    exact pipeSpec_update t t1 start _ v0 hwf hs0 hslen hmemS hihspec

/-- **C4** (amended).  The claimed bound
`sum of visits of active children ≤ visits(n)` is false (see the
counterexample): newborn children already carry one visit, and the
frame that starts a simulation never increments its own start node.
The invariant the backpropagation loop actually maintains is
`visits(n) ≥ 1 + sum over active children of (visits(c) - 1)` for
every node other than the simulation's start node: if a well-formed
arena satisfies it before a completed simulation (`pipeline`), it
satisfies it afterwards, for every node of the grown arena other than
the start. -/
theorem claim_C4_simulation_invariant (G : GameRules σ μ) (nn : Evaluator σ)
    (sqrtFn : ℕ → ℚ) (t : MCTS σ) (current : σ) (start depth : Int)
    (v : ℚ) (t' : MCTS σ)
    (hwf : WF t) (hs0 : 0 ≤ start) (hslen : start.toNat < t.nodes.length)
    (hinv : ∀ p : ℕ, p < t.nodes.length → p ≠ start.toNat →
      activeChildExtraVisits t (p : Int) ≤ ((nodeFromNaughty t (p : Int)).visits : Int) - 1)
    (hp : pipeline G nn sqrtFn t current start depth = some (v, t')) :
    ∀ p : ℕ, p < t'.nodes.length → p ≠ start.toNat →
      activeChildExtraVisits t' (p : Int) ≤ ((nodeFromNaughty t' (p : Int)).visits : Int) - 1 := by
  have hspec := pipeline_spec G nn sqrtFn t hwf (t.conf.maxDepth + 1 - depth).toNat
    current start depth v t' (le_refl _) hs0 hslen hp
  intro p hp' hps
  by_cases hold : p < t.nodes.length
  · have h1 := hspec.slack_other p hold hps
    have h2 := hinv p hold hps
    have h3 : slack t (p : Int) =
        ((nodeFromNaughty t (p : Int)).visits : Int) - 1 - activeChildExtraVisits t (p : Int) :=
      rfl
    have h4 : slack t' (p : Int) =
        ((nodeFromNaughty t' (p : Int)).visits : Int) - 1 - activeChildExtraVisits t' (p : Int) :=
      rfl
    omega
  · obtain ⟨hv1, -, hch⟩ := hspec.fresh_ok p (by omega) hp'
    have hz : activeChildExtraVisits t' (p : Int) = 0 := by
      unfold activeChildExtraVisits
      rw [hch]
      simp
    rw [hz, hv1]
    norm_num

/-- Closed witness for the amended C4 invariant: the first toy
simulation grows the lone-root arena `rT0` into `rT1`, and every
non-start node of `rT1` satisfies the corrected visit bound. -/
theorem claim_C4_witness :
    (0 : Int) ≤ 0 ∧ (0 : Int).toNat < rT0.nodes.length ∧
    ∀ p : ℕ, p < rT1.nodes.length → p ≠ (0 : Int).toNat →
      activeChildExtraVisits rT1 (p : Int) ≤
        ((nodeFromNaughty rT1 (p : Int)).visits : Int) - 1 := by
  have hwf : WF rT0 := by
    refine ⟨?_, ?_, rfl, rfl⟩
    · intro p c hc
      exfalso
      have hnil : childrenOf rT0 p = [] := by
        unfold childrenOf
        rcases hn : p.toNat with _ | k <;> rfl
      rw [hnil] at hc
      exact (List.not_mem_nil c) hc
    · intro c
      show (rT0.children.map (fun l => l.count c)).sum ≤ 1
      norm_num [rT0]
  refine ⟨le_refl 0, by norm_num [rT0], ?_⟩
  refine claim_C4_simulation_invariant (toyGame 0) toyEval sqrtTab rT0 TState.s0 0 0
    (-(1/2)) rT1 hwf (le_refl 0) (by norm_num [rT0]) ?_ run1_pipe1
  intro p h1 h2
  rw [show rT0.nodes.length = 1 from rfl] at h1
  exact absurd (by omega) h2

/-- **C5** (amended).  The Dirichlet perturbation
`p' = (1-ε)·p + ε·η_m` (ε = 1/4) is applied to the fresh children of
*every* expanded node, not only to children of the root, and the noise
vector η is the engine's stored `dirichletSample`, which an expansion
never resamples (it is fixed at engine construction, not refreshed
once per search; see the counterexample).  Formally: a successful
`expandAndSimulate` at an arbitrary parent leaves the sample unchanged
and gives every fresh node the prior
`(1-ε)·pre + ε·η[move]`, `pre` being the renormalized prior of C3. -/
theorem claim_C5_noise (G : GameRules σ μ) (nn : Evaluator σ)
    (t : MCTS σ) (state : σ) (parent : Int) (v : ℚ) (t' : MCTS σ)
    (hfree : t.freelist = []) (hp0 : 0 ≤ parent)
    (hp : parent.toNat < t.nodes.length)
    (hch : t.children.length = t.nodes.length)
    (hedge : ∀ p c : Int, c ∈ childrenOf t p → c.toNat < t.nodes.length)
    (h : expandAndSimulate G nn t state parent = some (v, t')) :
    t'.dirichletSample = t.dirichletSample ∧
    ∀ p : ℕ, t.nodes.length ≤ p → p < t'.nodes.length →
      ∃ nodelist legalSum r,
        buildNodelist G state (nn state).1 (List.range G.actionSpace) =
          some (nodelist, legalSum) ∧
        r ∈ nodelist ∧
        (nodeFromNaughty t' (p : Int)).move = r.move ∧
        (nodeFromNaughty t' (p : Int)).psa =
          (1 - mctsEpsilon) *
            (if legalSum > smallestNonzeroFloat32 then r.score / legalSum
             else 1 / (nodelist.length : ℚ)) +
          mctsEpsilon * t.dirichletSample.getD r.move.toNat 0 := by
  rcases expandAndSimulate_cases G nn t state parent v t' h with rfl | ⟨nl, s, hbl, hval, rfl⟩
  · exact ⟨rfl, fun p h1 h2 => absurd h2 (by omega)⟩
  · have hs := expandLoop_spec parent
      (List.insertionSort (fun a b : MPair => a.score ≥ b.score) (normalizeScores t nl s))
      t hfree hp0 hp hch hedge
    refine ⟨hs.sample_eq, ?_⟩
    intro p h1 h2
    obtain ⟨⟨q, hq, hrec⟩, -⟩ := hs.fresh_nodes p h1 h2
    have hq2 : q ∈ normalizeScores t nl s :=
      (List.perm_insertionSort _ _).mem_iff.mp hq
    unfold normalizeScores at hq2
    by_cases hbig : s > smallestNonzeroFloat32
    · rw [if_pos hbig] at hq2
      obtain ⟨r, hr, rfl⟩ := List.mem_map.mp hq2
      refine ⟨nl, s, r, hbl, hr, ?_, ?_⟩ <;>
        simp [hrec, dirichletNoise, hbig]
    · rw [if_neg hbig] at hq2
      obtain ⟨r, hr, rfl⟩ := List.mem_map.mp hq2
      refine ⟨nl, s, r, hbl, hr, ?_, ?_⟩ <;>
        simp [hrec, dirichletNoise, hbig]

/-- Closed witness for the amended C5: the second toy expansion, whose
parent (node 1) is *not* the root, still mixes the Dirichlet sample
into every fresh prior, and the sample is unchanged. -/
theorem claim_C5_witness :
    rT1e.dirichletSample = rT1.dirichletSample ∧
    ∀ p : ℕ, rT1.nodes.length ≤ p → p < rT1e.nodes.length →
      ∃ nodelist legalSum r,
        buildNodelist (toyGame 0) TState.s1 (toyEval TState.s1).1
          (List.range (toyGame 0).actionSpace) = some (nodelist, legalSum) ∧
        r ∈ nodelist ∧
        (nodeFromNaughty rT1e (p : Int)).move = r.move ∧
        (nodeFromNaughty rT1e (p : Int)).psa =
          (1 - mctsEpsilon) *
            (if legalSum > smallestNonzeroFloat32 then r.score / legalSum
             else 1 / (nodelist.length : ℚ)) +
          mctsEpsilon * rT1.dirichletSample.getD r.move.toNat 0 := by
  have hedge : ∀ p c : Int, c ∈ childrenOf rT1 p → c.toNat < rT1.nodes.length := by
    intro p c hc
    have hsplit : childrenOf rT1 p = [1] ∨ childrenOf rT1 p = [] := by
      unfold childrenOf
      rcases p.toNat with _ | _ | k
      · left; rfl
      · right; rfl
      · right; rfl
    rcases hsplit with hx | hx <;> rw [hx] at hc
    · rw [List.mem_singleton] at hc
      subst hc
      decide
    · exact absurd hc (List.not_mem_nil c)
  exact claim_C5_noise (toyGame 0) toyEval rT1 TState.s1 1 (1/2) rT1e rfl
    (by decide) (by decide) rfl hedge run1_expand1

theorem getD_replicate_zero (n i : ℕ) : (List.replicate n (0 : ℚ)).getD i 0 = 0 := by
  rw [List.getD_eq_getElem?_getD, List.getElem?_replicate]
  split <;> simp

theorem sum_set_rat (l : List ℚ) : ∀ (i : ℕ) (a : ℚ), i < l.length →
    (l.set i a).sum = l.sum - l.getD i 0 + a := by
  induction l with
  | nil => intro i a h; simp at h
  | cons x xs ih =>
      intro i a h
      cases i with
      | zero =>
          simp only [List.set_cons_zero, List.sum_cons, List.getD_cons_zero]
          ring
      | succ j =>
          simp only [List.set_cons_succ, List.sum_cons, List.getD_cons_succ]
          rw [ih j a (by simpa using h)]
          ring

theorem svm_modify_pi (tt : MCTS σ) (kid : Int) (p : ℚ) (x : Int) :
    (nodeFromNaughty (modifyNode tt kid (fun N => { N with pi := p })) x).status =
      (nodeFromNaughty tt x).status ∧
    (nodeFromNaughty (modifyNode tt kid (fun N => { N with pi := p })) x).visits =
      (nodeFromNaughty tt x).visits ∧
    (nodeFromNaughty (modifyNode tt kid (fun N => { N with pi := p })) x).move =
      (nodeFromNaughty tt x).move := by
  by_cases hx : x.toNat = kid.toNat
  · have h1 : nodeFromNaughty (modifyNode tt kid (fun N => { N with pi := p })) x =
        nodeFromNaughty (modifyNode tt kid (fun N => { N with pi := p })) kid := by
      unfold nodeFromNaughty
      rw [hx]
    have h2 : nodeFromNaughty tt x = nodeFromNaughty tt kid := by
      unfold nodeFromNaughty
      rw [hx]
    rw [h1, h2]
    by_cases hlen : kid.toNat < tt.nodes.length
    · rw [nodeFromNaughty_modifyNode_self tt kid _ hlen]
      exact ⟨rfl, rfl, rfl⟩
    · have hset : (modifyNode tt kid (fun N => { N with pi := p })).nodes = tt.nodes := by
        simp only [modifyNode, setNode]
        exact List.set_eq_of_length_le (by omega)
      unfold nodeFromNaughty
      rw [hset]
      exact ⟨rfl, rfl, rfl⟩
  · rw [nodeFromNaughty_modifyNode_ne tt kid _ x hx]
    exact ⟨rfl, rfl, rfl⟩

theorem validPowSum_cons (powFn : ℚ → ℚ → ℚ) (t : MCTS σ) (e : ℚ) (k : Int)
    (l : List Int) :
    validPowSum powFn t e (k :: l) =
      (if (nodeFromNaughty t k).status ≠ .invalid then
        powFn (((nodeFromNaughty t k).visits : ℕ) : ℚ) e else 0) +
      validPowSum powFn t e l := by
  simp [validPowSum]

theorem updatePolicies_foldl_spec (powFn : ℚ → ℚ → ℚ) (t : MCTS σ) (den temp : ℚ) :
    ∀ (rest : List Int) (pol : List ℚ) (tt : MCTS σ),
      (∀ x : Int, (nodeFromNaughty tt x).status = (nodeFromNaughty t x).status ∧
        (nodeFromNaughty tt x).visits = (nodeFromNaughty t x).visits ∧
        (nodeFromNaughty tt x).move = (nodeFromNaughty t x).move) →
      (∀ k ∈ rest, (nodeFromNaughty t k).status ≠ .invalid →
        pol.getD (nodeFromNaughty t k).move.toNat 0 = 0) →
      List.Pairwise (fun a b : Int =>
        (nodeFromNaughty t a).status ≠ .invalid →
        (nodeFromNaughty t b).status ≠ .invalid →
        (nodeFromNaughty t a).move.toNat ≠ (nodeFromNaughty t b).move.toNat) rest →
      (∀ k ∈ rest, (nodeFromNaughty t k).status ≠ .invalid →
        (nodeFromNaughty t k).move.toNat < pol.length) →
      (rest.foldl (fun (acc : List ℚ × MCTS σ) (kid : Int) =>
          let (pol, tt) := acc
          let child := nodeFromNaughty tt kid
          if child.status ≠ .invalid then
            let numerator := powFn ((child.visits : ℕ) : ℚ) (1 / temp)
            let p := numerator / den
            (pol.set child.move.toNat p,
             modifyNode tt kid (fun N => { N with pi := p }))
          else
            (pol, tt)) (pol, tt)).1.sum =
        pol.sum + validPowSum powFn t (1 / temp) rest / den ∧
      ∀ x ∈ (rest.foldl (fun (acc : List ℚ × MCTS σ) (kid : Int) =>
          let (pol, tt) := acc
          let child := nodeFromNaughty tt kid
          if child.status ≠ .invalid then
            let numerator := powFn ((child.visits : ℕ) : ℚ) (1 / temp)
            let p := numerator / den
            (pol.set child.move.toNat p,
             modifyNode tt kid (fun N => { N with pi := p }))
          else
            (pol, tt)) (pol, tt)).1,
        x ∈ pol ∨ ∃ k ∈ rest, (nodeFromNaughty t k).status ≠ .invalid ∧
          x = powFn (((nodeFromNaughty t k).visits : ℕ) : ℚ) (1 / temp) / den := by
  intro rest
  induction rest with
  | nil =>
      intro pol tt hP2 hP4 hpair hP5
      refine ⟨by simp [validPowSum], fun x hx => Or.inl hx⟩
  | cons k rest ih =>
      intro pol tt hP2 hP4 hpair hP5
      obtain ⟨hst, hvi, hmv⟩ := hP2 k
      rw [List.pairwise_cons] at hpair
      obtain ⟨hhead, htail⟩ := hpair
      simp only [List.foldl_cons, hst, hvi, hmv]
      by_cases hv : (nodeFromNaughty t k).status = NStatus.invalid
      · rw [if_neg (not_not_intro hv)]
        obtain ⟨ihsum, ihmem⟩ := ih pol tt hP2
          (fun k' hk' => hP4 k' (List.mem_cons_of_mem k hk')) htail
          (fun k' hk' => hP5 k' (List.mem_cons_of_mem k hk'))
        refine ⟨?_, ?_⟩
        · rw [ihsum, validPowSum_cons, if_neg (not_not_intro hv)]
          ring
        · intro x hx
          rcases ihmem x hx with hmem | ⟨k', hk', hv', hxe⟩
          · exact Or.inl hmem
          · exact Or.inr ⟨k', List.mem_cons_of_mem k hk', hv', hxe⟩
      · rw [if_pos hv]
        have hP2' : ∀ x : Int,
            (nodeFromNaughty (modifyNode tt k (fun N =>
              { N with pi := powFn (((nodeFromNaughty t k).visits : ℕ) : ℚ) (1 / temp) / den })) x).status =
              (nodeFromNaughty t x).status ∧
            (nodeFromNaughty (modifyNode tt k (fun N =>
              { N with pi := powFn (((nodeFromNaughty t k).visits : ℕ) : ℚ) (1 / temp) / den })) x).visits =
              (nodeFromNaughty t x).visits ∧
            (nodeFromNaughty (modifyNode tt k (fun N =>
              { N with pi := powFn (((nodeFromNaughty t k).visits : ℕ) : ℚ) (1 / temp) / den })) x).move =
              (nodeFromNaughty t x).move := by
          intro x
          obtain ⟨s1, s2, s3⟩ := svm_modify_pi tt k
            (powFn (((nodeFromNaughty t k).visits : ℕ) : ℚ) (1 / temp) / den) x
          obtain ⟨u1, u2, u3⟩ := hP2 x
          exact ⟨s1.trans u1, s2.trans u2, s3.trans u3⟩
        obtain ⟨ihsum, ihmem⟩ := ih
          (pol.set (nodeFromNaughty t k).move.toNat
            (powFn (((nodeFromNaughty t k).visits : ℕ) : ℚ) (1 / temp) / den))
          (modifyNode tt k (fun N =>
            { N with pi := powFn (((nodeFromNaughty t k).visits : ℕ) : ℚ) (1 / temp) / den }))
          hP2'
          (fun k' hk' hv' => by
            rw [getD_set_ne _ _ _ _ _ (hhead k' hk' hv hv')]
            exact hP4 k' (List.mem_cons_of_mem k hk') hv')
          htail
          (fun k' hk' hv' => by
            rw [List.length_set]
            exact hP5 k' (List.mem_cons_of_mem k hk') hv')
        refine ⟨?_, ?_⟩
        · rw [ihsum, sum_set_rat pol _ _ (hP5 k (List.mem_cons_self k _) hv),
            hP4 k (List.mem_cons_self k _) hv, validPowSum_cons, if_pos hv, add_div]
          ring
        · intro x hx
          rcases ihmem x hx with hmem | ⟨k', hk', hv', hxe⟩
          · rcases List.mem_or_eq_of_mem_set hmem with h | h
            · exact Or.inl h
            · exact Or.inr ⟨k, List.mem_cons_self k _, hv, h⟩
          · exact Or.inr ⟨k', List.mem_cons_of_mem k hk', hv', hxe⟩

/-- **C7** (amended).  The policy-extraction denominator always uses
exponent `1/RandomTemperature` while the numerator uses `1/temp` with
`temp = RandomTemperature` only below `RandomCount` (and `1` at or
above it), so the extracted vector need not sum to 1 in general (see
the counterexample, where it sums to 3/5).  When the two exponents
agree - move number below `RandomCount`, or `RandomTemperature = 1` -
the vector written by `updatePolicies` is non-negative in every
component and sums to exactly 1, given a positive denominator
(at least one valid root child with positive weight), non-negative
`pow` weights, and valid root children with distinct in-range
moves. -/
theorem claim_C7_policy (G : GameRules σ μ) (powFn : ℚ → ℚ → ℚ) (t : MCTS σ)
    (hagree : (if G.moveNumber t.current < t.conf.randomCount then
      t.conf.randomTemperature else 1) = t.conf.randomTemperature)
    (hdist : List.Pairwise (fun a b : Int =>
        (nodeFromNaughty t a).status ≠ .invalid →
        (nodeFromNaughty t b).status ≠ .invalid →
        (nodeFromNaughty t a).move.toNat ≠ (nodeFromNaughty t b).move.toNat)
      (childrenOf t t.root))
    (hrange : ∀ k ∈ childrenOf t t.root, (nodeFromNaughty t k).status ≠ .invalid →
      (nodeFromNaughty t k).move.toNat < G.actionSpace)
    (hpow : ∀ k ∈ childrenOf t t.root, (nodeFromNaughty t k).status ≠ .invalid →
      0 ≤ powFn (((nodeFromNaughty t k).visits : ℕ) : ℚ) (1 / t.conf.randomTemperature))
    (hden : 0 < validPowSum powFn t (1 / t.conf.randomTemperature) (childrenOf t t.root)) :
    ∃ pol : List ℚ,
      (updatePolicies G powFn t).policies = some pol ∧
      pol.sum = 1 ∧ ∀ x ∈ pol, 0 ≤ x := by
  obtain ⟨hsum, hmem⟩ := updatePolicies_foldl_spec powFn t
    (validPowSum powFn t (1 / t.conf.randomTemperature) (childrenOf t t.root))
    (if G.moveNumber t.current < t.conf.randomCount then t.conf.randomTemperature else 1)
    (childrenOf t t.root) (List.replicate G.actionSpace 0) t
    (fun x => ⟨rfl, rfl, rfl⟩)
    (fun k _ _ => getD_replicate_zero _ _)
    hdist
    (fun k hk hv => by rw [List.length_replicate]; exact hrange k hk hv)
  refine ⟨((childrenOf t t.root).foldl (fun (acc : List ℚ × MCTS σ) (kid : Int) =>
      let (pol, tt) := acc
      let child := nodeFromNaughty tt kid
      if child.status ≠ .invalid then
        let numerator := powFn ((child.visits : ℕ) : ℚ)
          (1 / (if G.moveNumber t.current < t.conf.randomCount then
            t.conf.randomTemperature else 1))
        let p := numerator /
          validPowSum powFn t (1 / t.conf.randomTemperature) (childrenOf t t.root)
        (pol.set child.move.toNat p,
         modifyNode tt kid (fun N => { N with pi := p }))
      else
        (pol, tt)) (List.replicate G.actionSpace 0, t)).1, rfl, ?_, ?_⟩
  · rw [hsum, hagree, List.sum_replicate, smul_zero, zero_add]
    exact div_self (ne_of_gt hden)
  · intro x hx
    rcases hmem x hx with h | ⟨k, hk, hv, hxe⟩
    · simp [List.eq_of_mem_replicate h]
    · rw [hagree] at hxe
      rw [hxe]
      exact div_nonneg (hpow k hk hv) (le_of_lt hden)

/-- Closed witness for the amended C7: policy extraction on the run-1
tree (temperature 1, one valid root child with two visits) yields a
non-negative vector summing to exactly 1. -/
theorem claim_C7_witness :
    ∃ pol : List ℚ, (updatePolicies (toyGame 0) powTab rT2).policies = some pol ∧
      pol.sum = 1 ∧ ∀ x ∈ pol, 0 ≤ x := by
  have hch : childrenOf rT2 rT2.root = [1] := rfl
  refine claim_C7_policy (toyGame 0) powTab rT2 ?_ ?_ ?_ ?_ ?_
  · norm_num +decide [rT2, rT1e, rT0, toyConf, toyGame]
  · rw [hch]
    simp
  · rw [hch]
    intro k hk hv
    rw [List.mem_singleton] at hk
    subst hk
    norm_num [nodeFromNaughty, rT2, rT1e, rT0, toyGame,
      (show Int.toNat 1 = 1 from rfl)]
  · rw [hch]
    intro k hk hv
    rw [List.mem_singleton] at hk
    subst hk
    norm_num [nodeFromNaughty, rT2, rT1e, rT0, powTab, toyConf,
      (show Int.toNat 1 = 1 from rfl)]
  · rw [hch]
    norm_num +decide [validPowSum, nodeFromNaughty, powTab, rT2, rT1e, rT0, toyConf,
      (show Int.toNat 1 = 1 from rfl)]

theorem cleanSpec_refl (tt : MCTS σ) : CleanSpec tt tt :=
  ⟨rfl, rfl, rfl, rfl, rfl, rfl, rfl, rfl, rfl, rfl,
   fun _ => Or.inl rfl, ⟨[], by simp⟩, fun _ => Or.inl rfl⟩

theorem cleanSpec_trans (t1 t2 t3 : MCTS σ)
    (h12 : CleanSpec t1 t2) (h23 : CleanSpec t2 t3) : CleanSpec t1 t3 := by
  refine ⟨h23.conf_eq.trans h12.conf_eq, h23.root_eq.trans h12.root_eq,
    h23.current_eq.trans h12.current_eq, h23.prev_eq.trans h12.prev_eq,
    h23.sample_eq.trans h12.sample_eq, h23.policies_eq.trans h12.policies_eq,
    h23.nc_eq.trans h12.nc_eq, h23.freelist_eq.trans h12.freelist_eq,
    h23.nlen_eq.trans h12.nlen_eq, h23.clen_eq.trans h12.clen_eq, ?_, ?_, ?_⟩
  · intro x
    rcases h23.nodes_mono x with h3 | h3 <;> rcases h12.nodes_mono x with h2 | h2
    · exact Or.inl (h3.trans h2)
    · exact Or.inr (h3.trans h2)
    · rw [h3, h2]
      exact Or.inr rfl
    · rw [h3, h2]
      exact Or.inr rfl
  · obtain ⟨e1, he1⟩ := h12.free_ext
    obtain ⟨e2, he2⟩ := h23.free_ext
    exact ⟨e1 ++ e2, by rw [he2, he1, List.append_assoc]⟩
  · intro p
    rcases h23.approx p with h3 | h3
    · rcases h12.approx p with h2 | h2
      · exact Or.inl (h3.trans h2)
      · exact Or.inr (h3.trans h2)
    · exact Or.inr h3

theorem invalidateEnqueue_children (tt : MCTS σ) (kid p : Int) :
    childrenOf (invalidateEnqueue tt kid) p = childrenOf tt p := rfl

theorem invalidateEnqueue_freeables (tt : MCTS σ) (kid : Int) :
    (invalidateEnqueue tt kid).freeables = tt.freeables ++ [kid] := rfl

theorem invalidateEnqueue_node (tt : MCTS σ) (kid x : Int) :
    nodeFromNaughty (invalidateEnqueue tt kid) x =
      nodeFromNaughty (modifyNode tt kid (fun n => { n with status := .invalid })) x := rfl

theorem invalidateEnqueue_status (tt : MCTS σ) (kid : Int) :
    (nodeFromNaughty (invalidateEnqueue tt kid) kid).status = .invalid := by
  rw [invalidateEnqueue_node]
  by_cases hlen : kid.toNat < tt.nodes.length
  · rw [nodeFromNaughty_modifyNode_self tt kid _ hlen]
  · have hset : (modifyNode tt kid (fun n => { n with status := .invalid })).nodes =
        tt.nodes.set kid.toNat { nodeFromNaughty tt kid with status := .invalid } := rfl
    have hnop : tt.nodes.set kid.toNat
        { nodeFromNaughty tt kid with status := .invalid } = tt.nodes :=
      List.set_eq_of_length_le (by omega)
    have hnode : nodeFromNaughty (modifyNode tt kid (fun n => { n with status := .invalid })) kid =
        tt.nodes.getD kid.toNat {} := by
      unfold nodeFromNaughty
      rw [hset, hnop]
    rw [hnode, List.getD_eq_default _ _ (by omega)]

theorem invalidateEnqueue_cleanSpec (tt : MCTS σ) (kid : Int) :
    CleanSpec tt (invalidateEnqueue tt kid) := by
  refine ⟨rfl, rfl, rfl, rfl, rfl, rfl, rfl, rfl, by simp [invalidateEnqueue, modifyNode, setNode],
    rfl, ?_, ⟨[kid], rfl⟩, fun _ => Or.inl rfl⟩
  intro x
  rw [invalidateEnqueue_node]
  by_cases hx : x.toNat = kid.toNat
  · by_cases hlen : kid.toNat < tt.nodes.length
    · right
      have h1 : nodeFromNaughty (modifyNode tt kid (fun n => { n with status := .invalid })) x =
          nodeFromNaughty (modifyNode tt kid (fun n => { n with status := .invalid })) kid := by
        unfold nodeFromNaughty
        rw [hx]
      have h2 : nodeFromNaughty tt x = nodeFromNaughty tt kid := by
        unfold nodeFromNaughty
        rw [hx]
      rw [h1, h2, nodeFromNaughty_modifyNode_self tt kid _ hlen]
    · left
      have hset : (modifyNode tt kid (fun n => { n with status := .invalid })).nodes =
          tt.nodes.set kid.toNat { nodeFromNaughty tt kid with status := .invalid } := rfl
      unfold nodeFromNaughty
      rw [hset, List.set_eq_of_length_le (by omega)]
  · left
    exact nodeFromNaughty_modifyNode_ne tt kid _ x hx

theorem setChildren_nil_cleanSpec (tt : MCTS σ) (r : Int) :
    CleanSpec tt (setChildren tt r []) := by
  refine ⟨rfl, rfl, rfl, rfl, rfl, rfl, rfl, rfl, rfl,
    by simp [setChildren], fun _ => Or.inl rfl, ⟨[], by simp [setChildren]⟩, ?_⟩
  intro p
  by_cases hp : p.toNat = r.toNat
  · by_cases hlen : r.toNat < tt.children.length
    · right
      unfold childrenOf setChildren
      rw [hp, List.getD_eq_getElem?_getD, List.getElem?_set_self (by simpa using hlen)]
      rfl
    · left
      unfold childrenOf setChildren
      rw [List.set_eq_of_length_le (by omega)]
  · left
    unfold childrenOf setChildren
    exact getD_set_ne _ _ _ _ _ (fun e => hp e.symm)

theorem approx_mem (t1 t2 : MCTS σ) (h : childrenApprox t1 t2) (p c : Int)
    (hc : c ∈ childrenOf t1 p) : c ∈ childrenOf t2 p := by
  rcases h p with heq | hnil
  · rw [heq] at hc
    exact hc
  · rw [hnil] at hc
    exact absurd hc (List.not_mem_nil c)

theorem sum_map_count_le (c : Int) :
    ∀ (l1 l2 : List (List Int)), l1.length = l2.length →
      (∀ i, i < l1.length → (l1.getD i []).count c ≤ (l2.getD i []).count c) →
      (l1.map (fun s => s.count c)).sum ≤ (l2.map (fun s => s.count c)).sum := by
  intro l1
  induction l1 with
  | nil =>
      intro l2 hlen _
      cases l2 with
      | nil => simp
      | cons y ys => simp at hlen
  | cons x xs ih =>
      intro l2 hlen hpt
      cases l2 with
      | nil => simp at hlen
      | cons y ys =>
          have h0 := hpt 0 (by simp)
          simp only [List.getD_cons_zero] at h0
          have htail := ih ys (by simpa using hlen)
            (fun i hi => by simpa using hpt (i + 1) (by simpa using Nat.succ_lt_succ hi))
          simp only [List.map_cons, List.sum_cons]
          omega

theorem approx_parentCount_le (t1 t2 : MCTS σ) (h : childrenApprox t1 t2)
    (hlen : t1.children.length = t2.children.length) (c : Int) :
    parentCount t1 c ≤ parentCount t2 c := by
  unfold parentCount
  refine sum_map_count_le c t1.children t2.children hlen (fun i hi => ?_)
  have hi2 : childrenOf t1 (i : Int) = t1.children.getD i [] := by
    simp [childrenOf, Int.toNat_natCast]
  have hi3 : childrenOf t2 (i : Int) = t2.children.getD i [] := by
    simp [childrenOf, Int.toNat_natCast]
  rcases h (i : Int) with heq | hnil
  · rw [← hi2, ← hi3, heq]
  · rw [← hi2, hnil]
    simp

theorem reach_mono (t1 t2 : MCTS σ) (h : childrenApprox t1 t2) :
    ∀ (k : ℕ) (a b : Int), reachesIn t1 k a b → reachesIn t2 k a b := by
  intro k
  induction k with
  | zero => intro a b hr; exact hr
  | succ k ih =>
      intro a b hr
      rcases hr with heq | ⟨c, hc, hr⟩
      · exact Or.inl heq
      · exact Or.inr ⟨c, approx_mem t1 t2 h a c hc, ih c b hr⟩

theorem mem_children_len (t : MCTS σ) (p c : Int) (hc : c ∈ childrenOf t p) :
    p.toNat < t.children.length := by
  by_contra h
  rw [show childrenOf t p = t.children.getD p.toNat [] from rfl,
    List.getD_eq_default _ _ (by omega)] at hc
  exact absurd hc (List.not_mem_nil c)

theorem reach_lt (t : MCTS σ)
    (hedge : ∀ p c : Int, c ∈ childrenOf t p → p < c ∧ 0 ≤ c) :
    ∀ (k : ℕ) (a b : Int), reachesIn t k a b → a = b ∨ a < b := by
  intro k
  induction k with
  | zero => intro a b hr; exact Or.inl hr
  | succ k ih =>
      intro a b hr
      rcases hr with heq | ⟨c, hc, hr⟩
      · exact Or.inl heq
      · have h1 := (hedge a c hc).1
        rcases ih c b hr with rfl | h2
        · exact Or.inr h1
        · exact Or.inr (lt_trans h1 h2)

theorem reach_last (t : MCTS σ) :
    ∀ (k : ℕ) (a b : Int), reachesIn t k a b →
      a = b ∨ ∃ p j, j < k ∧ reachesIn t j a p ∧ b ∈ childrenOf t p := by
  intro k
  induction k with
  | zero => intro a b hr; exact Or.inl hr
  | succ k ih =>
      intro a b hr
      rcases hr with heq | ⟨c, hc, hr⟩
      · exact Or.inl heq
      · rcases ih c b hr with rfl | ⟨p, j, hj, hrp, hb⟩
        · exact Or.inr ⟨a, 0, Nat.succ_pos k, rfl, hc⟩
        · exact Or.inr ⟨p, j + 1, by omega, Or.inr ⟨c, hc, hrp⟩, hb⟩

theorem reach_protected_iff (t1 t2 : MCTS σ) :
    ∀ (k : ℕ) (a : Int),
      (∀ (p : Int) (j : ℕ), reachesIn t2 j a p → childrenOf t1 p = childrenOf t2 p) →
      ∀ d : Int, (reachesIn t1 k a d ↔ reachesIn t2 k a d) := by
  intro k
  induction k with
  | zero => intro a _ d; exact Iff.rfl
  | succ k ih =>
      intro a hsame d
      have ha : childrenOf t1 a = childrenOf t2 a :=
        hsame a 0 (show a = a from rfl)
      constructor
      · rintro (heq | ⟨c, hc, hr⟩)
        · exact Or.inl heq
        · rw [ha] at hc
          refine Or.inr ⟨c, hc, ?_⟩
          have hsc : ∀ (p : Int) (j : ℕ), reachesIn t2 j c p →
              childrenOf t1 p = childrenOf t2 p :=
            fun p j hp => hsame p (j + 1) (Or.inr ⟨c, hc, hp⟩)
          exact (ih c hsc d).mp hr
      · rintro (heq | ⟨c, hc, hr⟩)
        · exact Or.inl heq
        · refine Or.inr ⟨c, by rw [ha]; exact hc, ?_⟩
          have hsc : ∀ (p : Int) (j : ℕ), reachesIn t2 j c p →
              childrenOf t1 p = childrenOf t2 p :=
            fun p j hp => hsame p (j + 1) (Or.inr ⟨c, hc, hp⟩)
          exact (ih c hsc d).mpr hr

theorem findChild_spec (t : MCTS σ) (h move : Int)
    (hne : findChild t h move ≠ nilNode) :
    findChild t h move ∈ childrenOf t h ∧
    (nodeFromNaughty t (findChild t h move)).move = move := by
  unfold findChild at hne ⊢
  cases hf : (childrenOf t h).find?
      (fun kid => (nodeFromNaughty t kid).move = move) with
  | none =>
      rw [hf] at hne
      exact absurd rfl hne
  | some k =>
      simp only [Option.getD_some]
      refine ⟨List.mem_of_find?_eq_some hf, ?_⟩
      have := List.find?_some hf
      exact of_decide_eq_true this

theorem cleanFold_spec (fuel : ℕ)
    (HS : ∀ (tt : MCTS σ) (r : Int),
      (∀ p c : Int, c ∈ childrenOf tt p → p < c ∧ 0 ≤ c) →
      (∀ c : Int, parentCount tt c ≤ 1) →
      0 ≤ r →
      tt.children.length < fuel + r.toNat →
      CleanSpec tt (cleanChildren tt fuel r) ∧
      (∀ i : ℕ, (cleanChildren tt fuel r).children.getD i [] = tt.children.getD i [] ∨
        ∃ q : Int, q.toNat = i ∧ 0 ≤ q ∧ ∃ k, reachesIn tt k r q) ∧
      (∀ d : Int, strictReach tt r d →
        (nodeFromNaughty (cleanChildren tt fuel r) d).status = .invalid ∧
        d ∈ (cleanChildren tt fuel r).freeables)) :
    ∀ (tt : MCTS σ)
      (hedge : ∀ p c : Int, c ∈ childrenOf tt p → p < c ∧ 0 ≤ c)
      (hpar : ∀ c : Int, parentCount tt c ≤ 1)
      (l : List Int) (tc : MCTS σ),
      CleanSpec tt tc →
      (∀ kid ∈ l, ∀ (p : Int) (j : ℕ), reachesIn tt j kid p →
        childrenOf tc p = childrenOf tt p) →
      List.Pairwise (fun a b : Int => ∀ (d : Int) (j1 j2 : ℕ),
        reachesIn tt j1 a d → reachesIn tt j2 b d → False) l →
      (∀ kid ∈ l, 0 ≤ kid ∧ tt.children.length < fuel + kid.toNat) →
      CleanSpec tc (l.foldl (fun tt2 kid =>
        cleanChildren (invalidateEnqueue tt2 kid) fuel kid) tc) ∧
      (∀ i : ℕ, (l.foldl (fun tt2 kid =>
          cleanChildren (invalidateEnqueue tt2 kid) fuel kid) tc).children.getD i [] =
          tc.children.getD i [] ∨
        ∃ q : Int, q.toNat = i ∧ 0 ≤ q ∧ ∃ kid ∈ l, ∃ j, reachesIn tt j kid q) ∧
      (∀ kid ∈ l, ∀ (d : Int) (j : ℕ), reachesIn tt j kid d →
        (nodeFromNaughty (l.foldl (fun tt2 kid =>
          cleanChildren (invalidateEnqueue tt2 kid) fuel kid) tc) d).status = .invalid ∧
        d ∈ (l.foldl (fun tt2 kid =>
          cleanChildren (invalidateEnqueue tt2 kid) fuel kid) tc).freeables) := by
  intro tt hedge hpar l
  induction l with
  | nil =>
      intro tc hcs hprot hpw hbnd
      exact ⟨cleanSpec_refl tc, fun i => Or.inl rfl,
        fun kid hk => absurd hk (List.not_mem_nil kid)⟩
  | cons kid l ihl =>
      intro tc hcs hprot hpw hbnd
      simp only [List.foldl_cons]
      rw [List.pairwise_cons] at hpw
      obtain ⟨hpwhead, hpwtail⟩ := hpw
      obtain ⟨hkid0, hkidb⟩ := hbnd kid (List.mem_cons_self kid l)
      -- the invalidated tree
      have hcs1 : CleanSpec tt (invalidateEnqueue tc kid) :=
        cleanSpec_trans tt tc _ hcs (invalidateEnqueue_cleanSpec tc kid)
      have hedge1 : ∀ p c : Int, c ∈ childrenOf (invalidateEnqueue tc kid) p →
          p < c ∧ 0 ≤ c := by
        intro p c hc
        rw [invalidateEnqueue_children] at hc
        exact hedge p c (approx_mem tc tt hcs.approx p c hc)
      have hpar1 : ∀ c : Int, parentCount (invalidateEnqueue tc kid) c ≤ 1 := by
        intro c
        have h1 : parentCount (invalidateEnqueue tc kid) c = parentCount tc c := rfl
        rw [h1]
        exact le_trans (approx_parentCount_le tc tt hcs.approx hcs.clen_eq c) (hpar c)
      have hfuel1 : (invalidateEnqueue tc kid).children.length < fuel + kid.toNat := by
        have h1 : (invalidateEnqueue tc kid).children.length = tc.children.length := rfl
        rw [h1, hcs.clen_eq]
        exact hkidb
      obtain ⟨hcsC, hclrC, hactC⟩ :=
        HS (invalidateEnqueue tc kid) kid hedge1 hpar1 hkid0 hfuel1
      -- protection of the head's subtree, and reach translation
      have hsame : ∀ (p : Int) (j : ℕ), reachesIn tt j kid p →
          childrenOf (invalidateEnqueue tc kid) p = childrenOf tt p := by
        intro p j hp
        rw [invalidateEnqueue_children]
        exact hprot kid (List.mem_cons_self kid l) p j hp
      have hriff : ∀ (k : ℕ) (d : Int),
          reachesIn (invalidateEnqueue tc kid) k kid d ↔ reachesIn tt k kid d :=
        fun k d => reach_protected_iff (invalidateEnqueue tc kid) tt k kid hsame d
      -- head action established in the result of the recursive clean
      have hact_head : ∀ (d : Int) (j : ℕ), reachesIn tt j kid d →
          (nodeFromNaughty (cleanChildren (invalidateEnqueue tc kid) fuel kid) d).status
            = .invalid ∧
          d ∈ (cleanChildren (invalidateEnqueue tc kid) fuel kid).freeables := by
        have hself : (nodeFromNaughty
              (cleanChildren (invalidateEnqueue tc kid) fuel kid) kid).status = .invalid ∧
            kid ∈ (cleanChildren (invalidateEnqueue tc kid) fuel kid).freeables := by
          constructor
          · rcases hcsC.nodes_mono kid with h | h
            · rw [h]
              exact invalidateEnqueue_status tc kid
            · rw [h]
          · obtain ⟨ext, hext⟩ := hcsC.free_ext
            rw [hext, invalidateEnqueue_freeables]
            simp
        intro d j hr
        cases j with
        | zero =>
            rw [show reachesIn tt 0 kid d = (kid = d) from rfl] at hr
            subst hr
            exact hself
        | succ j =>
            rcases hr with heq | ⟨c, hc, hrc⟩
            · subst heq
              exact hself
            · have hc1 : c ∈ childrenOf (invalidateEnqueue tc kid) kid := by
                rw [hsame kid 0 (show kid = kid from rfl)]
                exact hc
              have hsamec : ∀ (p : Int) (j' : ℕ), reachesIn tt j' c p →
                  childrenOf (invalidateEnqueue tc kid) p = childrenOf tt p :=
                fun p j' hp => hsame p (j' + 1) (Or.inr ⟨c, hc, hp⟩)
              have hrc1 : reachesIn (invalidateEnqueue tc kid) j c d :=
                (reach_protected_iff (invalidateEnqueue tc kid) tt j c hsamec d).mpr hrc
              exact hactC d ⟨j, c, hc1, hrc1⟩
      -- nonnegativity and translation helpers
      have hreach0 : ∀ (a d : Int) (j : ℕ), 0 ≤ a → reachesIn tt j a d → 0 ≤ d := by
        intro a d j ha hr
        rcases reach_lt tt hedge j a d hr with rfl | h
        · exact ha
        · omega
      -- re-established hypotheses for the tail
      have hcs2 : CleanSpec tt (cleanChildren (invalidateEnqueue tc kid) fuel kid) :=
        cleanSpec_trans tt (invalidateEnqueue tc kid) _ hcs1 hcsC
      have hprot2 : ∀ kid' ∈ l, ∀ (p : Int) (j : ℕ), reachesIn tt j kid' p →
          childrenOf (cleanChildren (invalidateEnqueue tc kid) fuel kid) p =
            childrenOf tt p := by
        intro kid' hk' p j hr
        have hp0 : 0 ≤ p := hreach0 kid' p j (hbnd kid' (List.mem_cons_of_mem kid hk')).1 hr
        rcases hclrC p.toNat with heq | ⟨q, hq, hq0, k2, hk2⟩
        · have h1 : childrenOf (cleanChildren (invalidateEnqueue tc kid) fuel kid) p =
              childrenOf (invalidateEnqueue tc kid) p := heq
          rw [h1, invalidateEnqueue_children]
          exact hprot kid' (List.mem_cons_of_mem kid hk') p j hr
        · exfalso
          have hqp : q = p := by omega
          subst hqp
          exact hpwhead kid' hk' q k2 j ((hriff k2 q).mp hk2) hr
      obtain ⟨hcsF, hclrF, hactF⟩ := ihl
        (cleanChildren (invalidateEnqueue tc kid) fuel kid) hcs2 hprot2 hpwtail
        (fun kid' hk' => hbnd kid' (List.mem_cons_of_mem kid hk'))
      have hcstep : CleanSpec tc (cleanChildren (invalidateEnqueue tc kid) fuel kid) :=
        cleanSpec_trans tc (invalidateEnqueue tc kid) _
          (invalidateEnqueue_cleanSpec tc kid) hcsC
      refine ⟨cleanSpec_trans tc _ _ hcstep hcsF, ?_, ?_⟩
      · intro i
        rcases hclrF i with heq | ⟨q, hq, hq0, kid', hk', j, hj⟩
        · rcases hclrC i with heq2 | ⟨q, hq, hq0, k2, hk2⟩
          · left
            rw [heq, heq2]
            rfl
          · exact Or.inr ⟨q, hq, hq0, kid, List.mem_cons_self kid l, k2, (hriff k2 q).mp hk2⟩
        · exact Or.inr ⟨q, hq, hq0, kid', List.mem_cons_of_mem kid hk', j, hj⟩
      · intro kid' hk' d j hr
        rcases List.mem_cons.mp hk' with rfl | htail
        · obtain ⟨hst, hfr⟩ := hact_head d j hr
          constructor
          · rcases hcsF.nodes_mono d with h | h
            · rw [h]
              exact hst
            · rw [h]
          · obtain ⟨ext, hext⟩ := hcsF.free_ext
            rw [hext]
            exact List.mem_append_left _ hfr
        · exact hactF kid' htail d j hr

theorem subtree_disjoint (t : MCTS σ)
    (hedge : ∀ p c : Int, c ∈ childrenOf t p → p < c ∧ 0 ≤ c)
    (hpar : ∀ c : Int, parentCount t c ≤ 1)
    (R kid1 kid2 : Int) (hR : 0 ≤ R)
    (h1 : kid1 ∈ childrenOf t R) (h2 : kid2 ∈ childrenOf t R)
    (hne : kid1 ≠ kid2) :
    ∀ (n k1 k2 : ℕ) (d : Int), k1 + k2 ≤ n →
      reachesIn t k1 kid1 d → reachesIn t k2 kid2 d → False := by
  have hcast : ∀ x : Int, 0 ≤ x → ((x.toNat : ℕ) : Int) = x :=
    fun x hx => Int.toNat_of_nonneg hx
  have hmem_cast : ∀ (p c : Int), 0 ≤ p → c ∈ childrenOf t p →
      c ∈ childrenOf t ((p.toNat : ℕ) : Int) := by
    intro p c hp hc
    rw [hcast p hp]
    exact hc
  have htwo : ∀ (c p1 p2 : Int), 0 ≤ p1 → 0 ≤ p2 → p1.toNat ≠ p2.toNat →
      c ∈ childrenOf t p1 → c ∈ childrenOf t p2 → False := by
    intro c p1 p2 hp1 hp2 hnep hc1 hc2
    have hl1 : p1.toNat < t.children.length := mem_children_len t p1 c hc1
    have hl2 : p2.toNat < t.children.length := mem_children_len t p2 c hc2
    have := pcount_two_indices t c p1.toNat p2.toNat hl1 hl2 hnep
      (hmem_cast p1 c hp1 hc1) (hmem_cast p2 c hp2 hc2)
    have := hpar c
    omega
  intro n
  induction n with
  | zero =>
      intro k1 k2 d hk h1r h2r
      have hk1 : k1 = 0 := by omega
      have hk2 : k2 = 0 := by omega
      subst hk1; subst hk2
      rw [show reachesIn t 0 kid1 d = (kid1 = d) from rfl] at h1r
      rw [show reachesIn t 0 kid2 d = (kid2 = d) from rfl] at h2r
      exact hne (h1r.trans h2r.symm)
  | succ n ihn =>
      intro k1 k2 d hk h1r h2r
      obtain ⟨hRk1, hk10⟩ := hedge R kid1 h1
      obtain ⟨hRk2, hk20⟩ := hedge R kid2 h2
      rcases reach_last t k1 kid1 d h1r with rfl | ⟨p1, j1, hj1, hr1, hd1⟩
      · rcases reach_last t k2 kid2 kid1 h2r with heq | ⟨p2, j2, hj2, hr2, hd2⟩
        · exact hne heq.symm
        · -- kid1 is a child of both R and p2
          have hp20 : 0 ≤ p2 := by
            rcases reach_lt t hedge j2 kid2 p2 hr2 with rfl | h
            · exact hk20
            · omega
          have hRp2 : R.toNat ≠ p2.toNat := by
            rcases reach_lt t hedge j2 kid2 p2 hr2 with rfl | h
            · omega
            · omega
          exact htwo kid1 R p2 hR hp20 hRp2 h1 hd2
      · rcases reach_last t k2 kid2 d h2r with rfl | ⟨p2, j2, hj2, hr2, hd2⟩
        · have hp10 : 0 ≤ p1 := by
            rcases reach_lt t hedge j1 kid1 p1 hr1 with rfl | h
            · exact hk10
            · omega
          have hRp1 : R.toNat ≠ p1.toNat := by
            rcases reach_lt t hedge j1 kid1 p1 hr1 with rfl | h
            · omega
            · omega
          exact htwo kid2 R p1 hR hp10 hRp1 h2 hd1
        · have hp10 : 0 ≤ p1 := by
            rcases reach_lt t hedge j1 kid1 p1 hr1 with rfl | h
            · exact hk10
            · omega
          have hp20 : 0 ≤ p2 := by
            rcases reach_lt t hedge j2 kid2 p2 hr2 with rfl | h
            · exact hk20
            · omega
          by_cases hp : p1.toNat = p2.toNat
          · have hp12 : p1 = p2 := by omega
            subst hp12
            exact ihn j1 j2 p1 (by omega) hr1 hr2
          · exact htwo d p1 p2 hp10 hp20 hp hd1 hd2

theorem cleanChildren_spec :
    ∀ (fuel : ℕ) (tt : MCTS σ) (r : Int),
      (∀ p c : Int, c ∈ childrenOf tt p → p < c ∧ 0 ≤ c) →
      (∀ c : Int, parentCount tt c ≤ 1) →
      0 ≤ r →
      tt.children.length < fuel + r.toNat →
      CleanSpec tt (cleanChildren tt fuel r) ∧
      (∀ i : ℕ, (cleanChildren tt fuel r).children.getD i [] = tt.children.getD i [] ∨
        ∃ q : Int, q.toNat = i ∧ 0 ≤ q ∧ ∃ k, reachesIn tt k r q) ∧
      (∀ d : Int, strictReach tt r d →
        (nodeFromNaughty (cleanChildren tt fuel r) d).status = .invalid ∧
        d ∈ (cleanChildren tt fuel r).freeables) := by
  intro fuel
  induction fuel with
  | zero =>
      intro tt r hedge hpar hr0 hfuel
      refine ⟨cleanSpec_refl tt, fun i => Or.inl rfl, ?_⟩
      rintro d ⟨k, c, hc, -⟩
      have := mem_children_len tt r c hc
      omega
  | succ fuel ih =>
      intro tt r hedge hpar hr0 hfuel
      have hdef : cleanChildren tt (fuel + 1) r =
          setChildren ((childrenOf tt r).foldl (fun tt2 kid =>
            cleanChildren (invalidateEnqueue tt2 kid) fuel kid) tt) r [] := rfl
      rw [hdef]
      have hnodup : (childrenOf tt r).Nodup := by
        by_cases hlen : r.toNat < tt.children.length
        · rw [List.nodup_iff_count_le_one]
          intro a
          have h1 := count_le_parentCount tt a r.toNat hlen
          have hcast : ((r.toNat : ℕ) : Int) = r := Int.toNat_of_nonneg hr0
          rw [hcast] at h1
          exact le_trans h1 (hpar a)
        · rw [show childrenOf tt r = tt.children.getD r.toNat [] from rfl,
            List.getD_eq_default _ _ (by omega)]
          exact List.nodup_nil
      have hpw : List.Pairwise (fun a b : Int => ∀ (d : Int) (j1 j2 : ℕ),
          reachesIn tt j1 a d → reachesIn tt j2 b d → False) (childrenOf tt r) := by
        refine List.Pairwise.imp_of_mem ?_ hnodup
        intro a b ha hb hne d j1 j2 h1 h2
        exact subtree_disjoint tt hedge hpar r a b hr0 ha hb hne (j1 + j2) j1 j2 d
          (le_refl _) h1 h2
      have hbnd : ∀ kid ∈ childrenOf tt r, 0 ≤ kid ∧
          tt.children.length < fuel + kid.toNat := by
        intro kid hk
        obtain ⟨h1, h2⟩ := hedge r kid hk
        exact ⟨h2, by omega⟩
      obtain ⟨hcsF, hclrF, hactF⟩ := cleanFold_spec fuel ih tt hedge hpar
        (childrenOf tt r) tt (cleanSpec_refl tt)
        (fun kid hk p j hr => rfl) hpw hbnd
      refine ⟨?_, ?_, ?_⟩
      · exact cleanSpec_trans tt _ _ hcsF (setChildren_nil_cleanSpec _ r)
      · intro i
        by_cases hi : i = r.toNat
        · exact Or.inr ⟨r, by omega, hr0, 0, rfl⟩
        · have h1 : (setChildren ((childrenOf tt r).foldl (fun tt2 kid =>
              cleanChildren (invalidateEnqueue tt2 kid) fuel kid) tt) r []).children.getD
                i [] =
              ((childrenOf tt r).foldl (fun tt2 kid =>
                cleanChildren (invalidateEnqueue tt2 kid) fuel kid) tt).children.getD
                i [] :=
            getD_set_ne _ _ _ _ _ (fun e => hi e.symm)
          rw [h1]
          rcases hclrF i with heq | ⟨q, hq, hq0, kid, hk, j, hj⟩
          · exact Or.inl heq
          · exact Or.inr ⟨q, hq, hq0, j + 1, Or.inr ⟨kid, hk, hj⟩⟩
      · rintro d ⟨k, c, hc, hr⟩
        obtain ⟨hst, hfr⟩ := hactF c hc d k hr
        exact ⟨hst, hfr⟩

theorem cleanup_spec (t : MCTS σ) (fuel : ℕ) (oldRoot newRoot : Int)
    (hedge : ∀ p c : Int, c ∈ childrenOf t p → p < c ∧ 0 ≤ c)
    (hpar : ∀ c : Int, parentCount t c ≤ 1)
    (hr0 : 0 ≤ oldRoot)
    (hfuel : t.children.length ≤ fuel + oldRoot.toNat) :
    ∃ T1 : MCTS σ, cleanup t fuel oldRoot newRoot = setChildren T1 oldRoot [newRoot] ∧
      CleanSpec t T1 ∧
      ∀ kid ∈ childrenOf t oldRoot, kid ≠ newRoot →
        ∀ (d : Int) (j : ℕ), reachesIn t j kid d →
          (nodeFromNaughty T1 d).status = .invalid ∧ d ∈ T1.freeables := by
  have gfold : ∀ (l : List Int) (tc : MCTS σ),
      CleanSpec t tc →
      (∀ kid ∈ l, ∀ (p : Int) (j : ℕ), reachesIn t j kid p →
        childrenOf tc p = childrenOf t p) →
      List.Pairwise (fun a b : Int => ∀ (d : Int) (j1 j2 : ℕ),
        reachesIn t j1 a d → reachesIn t j2 b d → False) l →
      (∀ kid ∈ l, 0 ≤ kid ∧ t.children.length < fuel + kid.toNat) →
      CleanSpec tc (l.foldl (fun tt2 kid =>
        if kid ≠ newRoot then cleanChildren (invalidateEnqueue tt2 kid) fuel kid
        else tt2) tc) ∧
      (∀ i : ℕ, (l.foldl (fun tt2 kid =>
          if kid ≠ newRoot then cleanChildren (invalidateEnqueue tt2 kid) fuel kid
          else tt2) tc).children.getD i [] = tc.children.getD i [] ∨
        ∃ q : Int, q.toNat = i ∧ 0 ≤ q ∧ ∃ kid ∈ l, ∃ j, reachesIn t j kid q) ∧
      (∀ kid ∈ l, kid ≠ newRoot → ∀ (d : Int) (j : ℕ), reachesIn t j kid d →
        (nodeFromNaughty (l.foldl (fun tt2 kid =>
          if kid ≠ newRoot then cleanChildren (invalidateEnqueue tt2 kid) fuel kid
          else tt2) tc) d).status = .invalid ∧
        d ∈ (l.foldl (fun tt2 kid =>
          if kid ≠ newRoot then cleanChildren (invalidateEnqueue tt2 kid) fuel kid
          else tt2) tc).freeables) := by
    intro l
    induction l with
    | nil =>
        intro tc hcs hprot hpw hbnd
        exact ⟨cleanSpec_refl tc, fun i => Or.inl rfl,
          fun kid hk => absurd hk (List.not_mem_nil kid)⟩
    | cons kid l ihl =>
        intro tc hcs hprot hpw hbnd
        simp only [List.foldl_cons]
        rw [List.pairwise_cons] at hpw
        obtain ⟨hpwhead, hpwtail⟩ := hpw
        obtain ⟨hkid0, hkidb⟩ := hbnd kid (List.mem_cons_self kid l)
        by_cases hg : kid ≠ newRoot
        · rw [if_pos hg]
          have hcs1 : CleanSpec t (invalidateEnqueue tc kid) :=
            cleanSpec_trans t tc _ hcs (invalidateEnqueue_cleanSpec tc kid)
          have hedge1 : ∀ p c : Int, c ∈ childrenOf (invalidateEnqueue tc kid) p →
              p < c ∧ 0 ≤ c := by
            intro p c hc
            rw [invalidateEnqueue_children] at hc
            exact hedge p c (approx_mem tc t hcs.approx p c hc)
          have hpar1 : ∀ c : Int, parentCount (invalidateEnqueue tc kid) c ≤ 1 := by
            intro c
            have h1 : parentCount (invalidateEnqueue tc kid) c = parentCount tc c := rfl
            rw [h1]
            exact le_trans (approx_parentCount_le tc t hcs.approx hcs.clen_eq c) (hpar c)
          have hfuel1 : (invalidateEnqueue tc kid).children.length < fuel + kid.toNat := by
            have h1 : (invalidateEnqueue tc kid).children.length = tc.children.length := rfl
            rw [h1, hcs.clen_eq]
            exact hkidb
          obtain ⟨hcsC, hclrC, hactC⟩ :=
            cleanChildren_spec fuel (invalidateEnqueue tc kid) kid hedge1 hpar1 hkid0 hfuel1
          have hsame : ∀ (p : Int) (j : ℕ), reachesIn t j kid p →
              childrenOf (invalidateEnqueue tc kid) p = childrenOf t p := by
            intro p j hp
            rw [invalidateEnqueue_children]
            exact hprot kid (List.mem_cons_self kid l) p j hp
          have hriff : ∀ (k : ℕ) (d : Int),
              reachesIn (invalidateEnqueue tc kid) k kid d ↔ reachesIn t k kid d :=
            fun k d => reach_protected_iff (invalidateEnqueue tc kid) t k kid hsame d
          have hact_head : ∀ (d : Int) (j : ℕ), reachesIn t j kid d →
              (nodeFromNaughty (cleanChildren (invalidateEnqueue tc kid) fuel kid) d).status
                = .invalid ∧
              d ∈ (cleanChildren (invalidateEnqueue tc kid) fuel kid).freeables := by
            have hself : (nodeFromNaughty
                  (cleanChildren (invalidateEnqueue tc kid) fuel kid) kid).status = .invalid ∧
                kid ∈ (cleanChildren (invalidateEnqueue tc kid) fuel kid).freeables := by
              constructor
              · rcases hcsC.nodes_mono kid with h | h
                · rw [h]
                  exact invalidateEnqueue_status tc kid
                · rw [h]
              · obtain ⟨ext, hext⟩ := hcsC.free_ext
                rw [hext, invalidateEnqueue_freeables]
                simp
            intro d j hr
            cases j with
            | zero =>
                rw [show reachesIn t 0 kid d = (kid = d) from rfl] at hr
                subst hr
                exact hself
            | succ j =>
                rcases hr with heq | ⟨c, hc, hrc⟩
                · subst heq
                  exact hself
                · have hc1 : c ∈ childrenOf (invalidateEnqueue tc kid) kid := by
                    rw [hsame kid 0 (show kid = kid from rfl)]
                    exact hc
                  have hsamec : ∀ (p : Int) (j' : ℕ), reachesIn t j' c p →
                      childrenOf (invalidateEnqueue tc kid) p = childrenOf t p :=
                    fun p j' hp => hsame p (j' + 1) (Or.inr ⟨c, hc, hp⟩)
                  have hrc1 : reachesIn (invalidateEnqueue tc kid) j c d :=
                    (reach_protected_iff (invalidateEnqueue tc kid) t j c hsamec d).mpr hrc
                  exact hactC d ⟨j, c, hc1, hrc1⟩
          have hreach0 : ∀ (a d : Int) (j : ℕ), 0 ≤ a → reachesIn t j a d → 0 ≤ d := by
            intro a d j ha hr
            rcases reach_lt t hedge j a d hr with rfl | h
            · exact ha
            · omega
          have hcs2 : CleanSpec t (cleanChildren (invalidateEnqueue tc kid) fuel kid) :=
            cleanSpec_trans t (invalidateEnqueue tc kid) _ hcs1 hcsC
          have hprot2 : ∀ kid' ∈ l, ∀ (p : Int) (j : ℕ), reachesIn t j kid' p →
              childrenOf (cleanChildren (invalidateEnqueue tc kid) fuel kid) p =
                childrenOf t p := by
            intro kid' hk' p j hr
            have hp0 : 0 ≤ p :=
              hreach0 kid' p j (hbnd kid' (List.mem_cons_of_mem kid hk')).1 hr
            rcases hclrC p.toNat with heq | ⟨q, hq, hq0, k2, hk2⟩
            · have h1 : childrenOf (cleanChildren (invalidateEnqueue tc kid) fuel kid) p =
                  childrenOf (invalidateEnqueue tc kid) p := heq
              rw [h1, invalidateEnqueue_children]
              exact hprot kid' (List.mem_cons_of_mem kid hk') p j hr
            · exfalso
              have hqp : q = p := by omega
              subst hqp
              exact hpwhead kid' hk' q k2 j ((hriff k2 q).mp hk2) hr
          obtain ⟨hcsF, hclrF, hactF⟩ := ihl
            (cleanChildren (invalidateEnqueue tc kid) fuel kid) hcs2 hprot2 hpwtail
            (fun kid' hk' => hbnd kid' (List.mem_cons_of_mem kid hk'))
          have hcstep : CleanSpec tc (cleanChildren (invalidateEnqueue tc kid) fuel kid) :=
            cleanSpec_trans tc (invalidateEnqueue tc kid) _
              (invalidateEnqueue_cleanSpec tc kid) hcsC
          refine ⟨cleanSpec_trans tc _ _ hcstep hcsF, ?_, ?_⟩
          · intro i
            rcases hclrF i with heq | ⟨q, hq, hq0, kid', hk', j, hj⟩
            · rcases hclrC i with heq2 | ⟨q, hq, hq0, k2, hk2⟩
              · left
                rw [heq, heq2]
                rfl
              · exact Or.inr ⟨q, hq, hq0, kid, List.mem_cons_self kid l, k2,
                  (hriff k2 q).mp hk2⟩
            · exact Or.inr ⟨q, hq, hq0, kid', List.mem_cons_of_mem kid hk', j, hj⟩
          · intro kid' hk' hg' d j hr
            rcases List.mem_cons.mp hk' with rfl | htail
            · obtain ⟨hst, hfr⟩ := hact_head d j hr
              constructor
              · rcases hcsF.nodes_mono d with h | h
                · rw [h]
                  exact hst
                · rw [h]
              · obtain ⟨ext, hext⟩ := hcsF.free_ext
                rw [hext]
                exact List.mem_append_left _ hfr
            · exact hactF kid' htail hg' d j hr
        · rw [if_neg hg]
          obtain ⟨hcsF, hclrF, hactF⟩ := ihl tc hcs
            (fun kid' hk' => hprot kid' (List.mem_cons_of_mem kid hk')) hpwtail
            (fun kid' hk' => hbnd kid' (List.mem_cons_of_mem kid hk'))
          refine ⟨hcsF, ?_, ?_⟩
          · intro i
            rcases hclrF i with heq | ⟨q, hq, hq0, kid', hk', j, hj⟩
            · exact Or.inl heq
            · exact Or.inr ⟨q, hq, hq0, kid', List.mem_cons_of_mem kid hk', j, hj⟩
          · intro kid' hk' hg' d j hr
            rcases List.mem_cons.mp hk' with rfl | htail
            · exact absurd hg' hg
            · exact hactF kid' htail hg' d j hr
  have hdef : cleanup t fuel oldRoot newRoot =
      setChildren ((childrenOf t oldRoot).foldl (fun tt2 kid =>
        if kid ≠ newRoot then cleanChildren (invalidateEnqueue tt2 kid) fuel kid
        else tt2) t) oldRoot [newRoot] := rfl
  have hnodup : (childrenOf t oldRoot).Nodup := by
    by_cases hlen : oldRoot.toNat < t.children.length
    · rw [List.nodup_iff_count_le_one]
      intro a
      have h1 := count_le_parentCount t a oldRoot.toNat hlen
      have hcast : ((oldRoot.toNat : ℕ) : Int) = oldRoot := Int.toNat_of_nonneg hr0
      rw [hcast] at h1
      exact le_trans h1 (hpar a)
    · rw [show childrenOf t oldRoot = t.children.getD oldRoot.toNat [] from rfl,
        List.getD_eq_default _ _ (by omega)]
      exact List.nodup_nil
  have hpw : List.Pairwise (fun a b : Int => ∀ (d : Int) (j1 j2 : ℕ),
      reachesIn t j1 a d → reachesIn t j2 b d → False) (childrenOf t oldRoot) := by
    refine List.Pairwise.imp_of_mem ?_ hnodup
    intro a b ha hb hne d j1 j2 h1 h2
    exact subtree_disjoint t hedge hpar oldRoot a b hr0 ha hb hne (j1 + j2) j1 j2 d
      (le_refl _) h1 h2
  have hbnd : ∀ kid ∈ childrenOf t oldRoot, 0 ≤ kid ∧
      t.children.length < fuel + kid.toNat := by
    intro kid hk
    obtain ⟨h1, h2⟩ := hedge oldRoot kid hk
    exact ⟨h2, by omega⟩
  obtain ⟨hcsF, hclrF, hactF⟩ := gfold (childrenOf t oldRoot) t (cleanSpec_refl t)
    (fun kid hk p j hr => rfl) hpw hbnd
  exact ⟨_, hdef, hcsF, hactF⟩

/-- **C6**.  Root advancement by a replayed move (`newRootState` body,
one step): on success the promoted root is a former child of the old
root whose stored move is the replayed move, and every other former
child of the old root, together with that child's descendants in the
children graph, is `Invalid` and sits on the `freeables` reclamation
queue.  Well-formedness hypotheses: adjacency edges go to strictly
larger handles (acyclicity), each handle has at most one parent place,
the root handle is non-negative, and the recursion fuel covers the
arena (the Go recursion is unbounded; the model's fuel argument is
large enough for every acyclic arena). -/
theorem claim_C6_root_advance (G : GameRules σ μ) (fuel : ℕ) (t : MCTS σ)
    (prevState : σ) (move : Int) (p1 : σ) (t' : MCTS σ)
    (hedge : ∀ p c : Int, c ∈ childrenOf t p → p < c ∧ 0 ≤ c)
    (hpar : ∀ c : Int, parentCount t c ≤ 1)
    (hr0 : 0 ≤ t.root)
    (hfuel : t.children.length ≤ fuel + t.root.toNat)
    (h : advanceRootStep G fuel t prevState move = some (some (p1, t'))) :
    t'.root ∈ childrenOf t t.root ∧
    (nodeFromNaughty t t'.root).move = move ∧
    ∀ kid ∈ childrenOf t t.root, kid ≠ t'.root →
      ∀ d : Int, (d = kid ∨ strictReach t kid d) →
        (nodeFromNaughty t' d).status = .invalid ∧ d ∈ t'.freeables := by
  simp only [advanceRootStep] at h
  by_cases hnil : findChild t t.root move = nilNode
  · rw [if_pos hnil] at h
    simp at h
  · rw [if_neg hnil] at h
    cases hmv : G.nnToMove prevState move with
    | none =>
        rw [hmv] at h
        exact Option.noConfusion h
    | some m =>
        rw [hmv] at h
        simp only [Option.some.injEq, Prod.mk.injEq] at h
        obtain ⟨-, rfl⟩ := h
        obtain ⟨hmem, hmv2⟩ := findChild_spec t t.root move hnil
        obtain ⟨T1, hT1eq, hcsT, hact⟩ := cleanup_spec
          { t with root := findChild t t.root move } fuel t.root
          (findChild t t.root move)
          (fun p c hc => hedge p c hc) (fun c => hpar c) hr0 hfuel
        have hroot : ({ cleanup { t with root := findChild t t.root move } fuel t.root
            (findChild t t.root move) with prev := some (G.apply prevState m) }).root =
            findChild t t.root move := by
          rw [hT1eq]
          exact hcsT.root_eq
        rw [hroot]
        refine ⟨hmem, hmv2, ?_⟩
        intro kid hk hne d hd
        have hreach : ∃ j, reachesIn t j kid d := by
          rcases hd with rfl | ⟨k, c, hc, hr⟩
          · exact ⟨0, rfl⟩
          · exact ⟨k + 1, Or.inr ⟨c, hc, hr⟩⟩
        obtain ⟨j, hj⟩ := hreach
        obtain ⟨hst, hfr⟩ := hact kid hk hne d j
          (reach_mono t { t with root := findChild t t.root move }
            (fun p => Or.inl rfl) j kid d hj)
        constructor
        · rw [hT1eq]
          exact hst
        · rw [hT1eq]
          exact hfr

/-- Closed witness for C6 on the four-node fixture: advancing the root
by move 0 promotes child 1; sibling 2 and its descendant 3 end up
`Invalid` and on the reclamation queue. -/
theorem claim_C6_witness :
    advanceRootStep (toyGame 0) 4 cT TState.s0 0 =
      some (some (TState.s1, cTAfter)) ∧
    (cTAfter.root ∈ childrenOf cT cT.root ∧
     (nodeFromNaughty cT cTAfter.root).move = 0 ∧
     ∀ kid ∈ childrenOf cT cT.root, kid ≠ cTAfter.root →
       ∀ d : Int, (d = kid ∨ strictReach cT kid d) →
         (nodeFromNaughty cTAfter d).status = .invalid ∧ d ∈ cTAfter.freeables) := by
  have hstep : advanceRootStep (toyGame 0) 4 cT TState.s0 0 =
      some (some (TState.s1, cTAfter)) := rfl
  refine ⟨hstep, ?_⟩
  refine claim_C6_root_advance (toyGame 0) 4 cT TState.s0 0 TState.s1 cTAfter
    ?_ ?_ (by decide) (by decide) hstep
  · intro p c hc
    have hsplit : childrenOf cT p = [1, 2] ∧ p.toNat = 0 ∨
        childrenOf cT p = [3] ∧ p.toNat = 2 ∨ childrenOf cT p = [] := by
      unfold childrenOf
      rcases p.toNat with _ | _ | _ | _ | k
      · exact Or.inl ⟨rfl, rfl⟩
      · exact Or.inr (Or.inr rfl)
      · exact Or.inr (Or.inl ⟨rfl, rfl⟩)
      · exact Or.inr (Or.inr rfl)
      · exact Or.inr (Or.inr rfl)
    rcases hsplit with ⟨hl, hp⟩ | ⟨hl, hp⟩ | hl
    · rw [hl] at hc
      simp at hc
      rcases hc with rfl | rfl
      · exact ⟨by omega, by omega⟩
      · exact ⟨by omega, by omega⟩
    · rw [hl] at hc
      simp at hc
      subst hc
      exact ⟨by omega, by omega⟩
    · rw [hl] at hc
      exact absurd hc (List.not_mem_nil c)
  · intro c
    show (cT.children.map (fun l => l.count c)).sum ≤ 1
    simp [cT, List.count_cons]
    split_ifs <;> omega

end Alphabeth
